import Mathlib

/-!
# nano-unicode: the transcoding engine of `nano/unicode.h`

A shallow embedding of the UTF-8 / UTF-16 / UTF-32 routines of namespace `utf`.

Conventions of the embedding.

* A buffer is a `List Nat` of code units (`mem`), an input iterator is an index into it, and the
  pair `start`, `end_` of a C++ call is a pair of indices.  Dereferencing an index that is not
  below `mem.length` is undefined behaviour in C++; the embedding reports it as `Outcome.fault`.
* An output iterator (a `std::back_inserter` in `convert_as`) is the list of units written so far;
  `*outputIt++ = x` appends `x`, and the routine returns the extended list.
* Fixed-width integers are `Nat` reduced modulo `2 ^ w` where the source converts or where the
  arithmetic can wrap (`cast_8`, `cast_16`, `to_u32`).  A function whose parameter has a
  fixed-width type reduces its argument on entry, as the implicit conversion at the call does.
* `std::size_t` counters are plain `Nat`: a counter that is returned is bounded by four times
  the number of units of a buffer that is held in memory, so it cannot wrap.
* Every `while`/`for` loop is a function that recurses on an iteration budget (`fuel`); the budget
  is consulted only when the loop condition holds, and an exhausted budget is `Outcome.timeout`.
  A routine whose loop advances on every iteration is given the budget `mem.length + 1`, which its
  loop cannot exhaust (`budget_suffices`); `u8_length`, whose loop can stand still, keeps the
  budget as a parameter (and so do `length` and `string_view.count`, which call it).
* A pointer is an `Option (List Nat)`: `none` for the null pointer, otherwise the units that can
  be read from it onwards (for an owned string, a C string or a literal: the characters and the
  zero unit after them).  Template parameters become ordinary arguments: the character type is
  a `char_type`, and the platform's `sizeof(wchar_t)` is a `wchar_width`.
-/

namespace utf

/-- Result of running a routine: it returns a value, it reads outside the buffer, or its
loop is still running when the iteration budget is used up. -/
inductive Outcome (α : Type) where
  | ret (a : α)
  | fault
  | timeout
  deriving DecidableEq, Repr

/-- The conversion `static_cast<std::uint32_t>(c)`. -/
def to_u32 (c : Nat) : Nat := c % 4294967296

namespace detail

/-- Embeds `k_lead_surrogate_min = 0xD800u`. -/
def k_lead_surrogate_min : Nat := 0xD800

/-- Embeds `k_lead_offset = k_lead_surrogate_min - (0x10000 >> 10)`, a `std::uint16_t`. -/
def k_lead_offset : Nat := (k_lead_surrogate_min - (0x10000 >>> 10)) % 65536

/-- Embeds `k_trail_surrogate_min = 0xDC00u`. -/
def k_trail_surrogate_min : Nat := 0xDC00

/-- Embeds `k_code_point_max = 0x0010FFFFu`. -/
def k_code_point_max : Nat := 0x10FFFF

/-- Embeds `k_surrogate_offset = 0x10000u - (k_lead_surrogate_min << 10) - k_trail_surrogate_min`,
computed in `std::uint32_t`, hence modulo `2 ^ 32`. -/
def k_surrogate_offset : Nat :=
  (((0x10000 : Int) - ((k_lead_surrogate_min <<< 10 : Nat) : Int) - (k_trail_surrogate_min : Int))
    % 4294967296).toNat

/-- Embeds `cast_8`: `static_cast<std::uint8_t>(c)`. -/
def cast_8 (c : Nat) : Nat := c % 256

/-- Embeds `cast_16`: `static_cast<std::uint16_t>(c)`. -/
def cast_16 (c : Nat) : Nat := c % 65536

/-- Embeds `is_trail(c)`: `(cast_8(c) >> 6) == 0x2`. -/
def is_trail (c : Nat) : Bool := (cast_8 c >>> 6) == 0x2

/-- Embeds `is_high_surrogate(char16_t uc)`: `(uc & 0xFFFFFC00) == k_lead_surrogate_min`. -/
def is_high_surrogate (uc : Nat) : Bool := (cast_16 uc &&& 0xFFFFFC00) == k_lead_surrogate_min

/-- Embeds `is_low_surrogate(char16_t uc)`: `(uc & 0xFFFFFC00) == k_trail_surrogate_min`. -/
def is_low_surrogate (uc : Nat) : Bool := (cast_16 uc &&& 0xFFFFFC00) == k_trail_surrogate_min

/-- Embeds `sequence_length(std::uint8_t lead)`. -/
def sequence_length (lead : Nat) : Nat :=
  let lead := cast_8 lead
  if lead < 0x80 then 1
  else if lead >>> 5 = 0x6 then 2
  else if lead >>> 4 = 0xE then 3
  else if lead >>> 3 = 0x1E then 4
  else 0

end detail

/-- Embeds `append_u32_to_u8(std::uint32_t cp, u8_iterator it)`: writes the UTF-8 bytes of `cp`. -/
def append_u32_to_u8 (cp : Nat) (it : List Nat) : List Nat :=
  let cp := to_u32 cp
  if cp < 0x80 then
    it ++ [detail.cast_8 cp]
  else if cp < 0x800 then
    it ++ [detail.cast_8 ((cp >>> 6) ||| 0xC0), detail.cast_8 ((cp &&& 0x3F) ||| 0x80)]
  else if cp < 0x10000 then
    it ++ [detail.cast_8 ((cp >>> 12) ||| 0xE0), detail.cast_8 (((cp >>> 6) &&& 0x3F) ||| 0x80),
      detail.cast_8 ((cp &&& 0x3F) ||| 0x80)]
  else
    it ++ [detail.cast_8 ((cp >>> 18) ||| 0xF0), detail.cast_8 (((cp >>> 12) &&& 0x3F) ||| 0x80),
      detail.cast_8 (((cp >>> 6) &&& 0x3F) ||| 0x80), detail.cast_8 ((cp &&& 0x3F) ||| 0x80)]

/-- Embeds `code_point_size_u8(std::uint32_t cp)`. -/
def code_point_size_u8 (cp : Nat) : Nat :=
  let cp := to_u32 cp
  if cp < 0x80 then 1
  else if cp < 0x800 then 2
  else if cp < 0x10000 then 3
  else 4

/-- Embeds `next_u8_to_u32(u8_iterator& it)`: decodes the sequence at `it`; returns the code point and
the advanced iterator.  The sums stay below `2 ^ 32`, so no reduction is needed. -/
def next_u8_to_u32 (mem : List Nat) (it : Nat) : Outcome (Nat × Nat) :=
  match mem[it]? with
  | none => .fault
  | some b0 =>
    let cp := detail.cast_8 b0
    match detail.sequence_length b0 with
    | 1 => .ret (cp, it + 1)
    | 2 =>
      match mem[it + 1]? with
      | some b1 => .ret (((cp <<< 6) &&& 0x7FF) + (b1 &&& 0x3F), it + 2)
      | none => .fault
    | 3 =>
      match mem[it + 1]?, mem[it + 2]? with
      | some b1, some b2 =>
        .ret (((cp <<< 12) &&& 0xFFFF) + ((detail.cast_8 b1 <<< 6) &&& 0xFFF) + (b2 &&& 0x3F),
          it + 3)
      | _, _ => .fault
    | 4 =>
      match mem[it + 1]?, mem[it + 2]?, mem[it + 3]? with
      | some b1, some b2, some b3 =>
        .ret (((cp <<< 18) &&& 0x1FFFFF) + ((detail.cast_8 b1 <<< 12) &&& 0x3FFFF)
            + ((detail.cast_8 b2 <<< 6) &&& 0xFFF) + (b3 &&& 0x3F),
          it + 4)
      | _, _, _ => .fault
    | _ => .ret (cp, it + 1)

/-- Loop of `u8_to_u16`: `while (start < end)`. -/
def u8_to_u16_loop (mem : List Nat) (end_ : Nat) : Nat → Nat → List Nat → Outcome (List Nat)
  | 0, start, outputIt => if start < end_ then .timeout else .ret outputIt
  | fuel + 1, start, outputIt =>
    if start < end_ then
      match next_u8_to_u32 mem start with
      | .ret (cp, start') =>
        if cp > 0xFFFF then
          u8_to_u16_loop mem end_ fuel start'
            (outputIt ++ [detail.cast_16 ((cp >>> 10) + detail.k_lead_offset),
              detail.cast_16 ((cp &&& 0x3FF) + detail.k_trail_surrogate_min)])
        else
          u8_to_u16_loop mem end_ fuel start' (outputIt ++ [detail.cast_16 cp])
      | .fault => .fault
      | .timeout => .timeout
    else .ret outputIt

/-- Embeds `u8_to_u16(start, end, outputIt)`. -/
def u8_to_u16 (mem : List Nat) (start end_ : Nat) (outputIt : List Nat) : Outcome (List Nat) :=
  u8_to_u16_loop mem end_ (mem.length + 1) start outputIt

/-- Loop of `u8_to_u16_length`. -/
def u8_to_u16_length_loop (mem : List Nat) (end_ : Nat) : Nat → Nat → Nat → Outcome Nat
  | 0, start, count => if start < end_ then .timeout else .ret count
  | fuel + 1, start, count =>
    if start < end_ then
      match next_u8_to_u32 mem start with
      | .ret (cp, start') =>
        u8_to_u16_length_loop mem end_ fuel start' (count + (if cp > 0xFFFF then 2 else 1))
      | .fault => .fault
      | .timeout => .timeout
    else .ret count

/-- Embeds `u8_to_u16_length(start, end)`. -/
def u8_to_u16_length (mem : List Nat) (start end_ : Nat) : Outcome Nat :=
  u8_to_u16_length_loop mem end_ (mem.length + 1) start 0

/-- Loop of `u8_to_u32`. -/
def u8_to_u32_loop (mem : List Nat) (end_ : Nat) : Nat → Nat → List Nat → Outcome (List Nat)
  | 0, start, outputIt => if start < end_ then .timeout else .ret outputIt
  | fuel + 1, start, outputIt =>
    if start < end_ then
      match next_u8_to_u32 mem start with
      | .ret (cp, start') => u8_to_u32_loop mem end_ fuel start' (outputIt ++ [cp])
      | .fault => .fault
      | .timeout => .timeout
    else .ret outputIt

/-- Embeds `u8_to_u32(start, end, outputIt)`. -/
def u8_to_u32 (mem : List Nat) (start end_ : Nat) (outputIt : List Nat) : Outcome (List Nat) :=
  u8_to_u32_loop mem end_ (mem.length + 1) start outputIt

/-- Loop of `u8_to_u32_length`: `switch (sequence_length(*start++))` skips the continuation
bytes without reading them. -/
def u8_to_u32_length_loop (mem : List Nat) (end_ : Nat) : Nat → Nat → Nat → Outcome Nat
  | 0, start, count => if start < end_ then .timeout else .ret count
  | fuel + 1, start, count =>
    if start < end_ then
      match mem[start]? with
      | none => .fault
      | some b =>
        let start := start + 1
        let start :=
          match detail.sequence_length b with
          | 1 => start
          | 2 => start + 1
          | 3 => start + 2
          | 4 => start + 3
          | _ => start
        u8_to_u32_length_loop mem end_ fuel start (count + 1)
    else .ret count

/-- Embeds `u8_to_u32_length(start, end)`. -/
def u8_to_u32_length (mem : List Nat) (start end_ : Nat) : Outcome Nat :=
  u8_to_u32_length_loop mem end_ (mem.length + 1) start 0

/-- Loop of `u8_length`: `for (i = 0; i < size; i += sequence_length(str[i])) dist++`. -/
def u8_length_loop (str : List Nat) (size : Nat) : Nat → Nat → Nat → Outcome Nat
  | 0, i, dist => if i < size then .timeout else .ret dist
  | fuel + 1, i, dist =>
    if i < size then
      match str[i]? with
      | none => .fault
      | some c => u8_length_loop str size fuel (i + detail.sequence_length c) (dist + 1)
    else .ret dist

/-- Embeds `u8_length(str, size)`, run for at most `fuel` iterations of its loop. -/
def u8_length (fuel : Nat) (str : List Nat) (size : Nat) : Outcome Nat :=
  u8_length_loop str size fuel 0 0

/-- The statement `cp = cast_16(*start++); if (is_high_surrogate(cp)) cp = (cp << 10) +
cast_16(*start++) + k_surrogate_offset;` shared by the four UTF-16 readers: returns the code
point and the advanced iterator. -/
def next_u16 (mem : List Nat) (start : Nat) : Outcome (Nat × Nat) :=
  match mem[start]? with
  | none => .fault
  | some u =>
    let cp := detail.cast_16 u
    if detail.is_high_surrogate cp then
      match mem[start + 1]? with
      | none => .fault
      | some l => .ret (to_u32 ((cp <<< 10) + detail.cast_16 l + detail.k_surrogate_offset),
          start + 2)
    else .ret (cp, start + 1)

/-- Loop of `u16_to_u8`: `while (start != end)`. -/
def u16_to_u8_loop (mem : List Nat) (end_ : Nat) : Nat → Nat → List Nat → Outcome (List Nat)
  | 0, start, outputIt => if start ≠ end_ then .timeout else .ret outputIt
  | fuel + 1, start, outputIt =>
    if start ≠ end_ then
      match next_u16 mem start with
      | .ret (cp, start') => u16_to_u8_loop mem end_ fuel start' (append_u32_to_u8 cp outputIt)
      | .fault => .fault
      | .timeout => .timeout
    else .ret outputIt

/-- Embeds `u16_to_u8(start, end, outputIt)`. -/
def u16_to_u8 (mem : List Nat) (start end_ : Nat) (outputIt : List Nat) : Outcome (List Nat) :=
  u16_to_u8_loop mem end_ (mem.length + 1) start outputIt

/-- Loop of `u16_to_u32`. -/
def u16_to_u32_loop (mem : List Nat) (end_ : Nat) : Nat → Nat → List Nat → Outcome (List Nat)
  | 0, start, outputIt => if start ≠ end_ then .timeout else .ret outputIt
  | fuel + 1, start, outputIt =>
    if start ≠ end_ then
      match next_u16 mem start with
      | .ret (cp, start') => u16_to_u32_loop mem end_ fuel start' (outputIt ++ [cp])
      | .fault => .fault
      | .timeout => .timeout
    else .ret outputIt

/-- Embeds `u16_to_u32(start, end, outputIt)`. -/
def u16_to_u32 (mem : List Nat) (start end_ : Nat) (outputIt : List Nat) : Outcome (List Nat) :=
  u16_to_u32_loop mem end_ (mem.length + 1) start outputIt

/-- Loop of `u16_to_u8_length`. -/
def u16_to_u8_length_loop (mem : List Nat) (end_ : Nat) : Nat → Nat → Nat → Outcome Nat
  | 0, start, count => if start ≠ end_ then .timeout else .ret count
  | fuel + 1, start, count =>
    if start ≠ end_ then
      match next_u16 mem start with
      | .ret (cp, start') => u16_to_u8_length_loop mem end_ fuel start' (count + code_point_size_u8 cp)
      | .fault => .fault
      | .timeout => .timeout
    else .ret count

/-- Embeds `u16_to_u8_length(start, end)`. -/
def u16_to_u8_length (mem : List Nat) (start end_ : Nat) : Outcome Nat :=
  u16_to_u8_length_loop mem end_ (mem.length + 1) start 0

/-- Loop of `u16_to_u32_length`. -/
def u16_to_u32_length_loop (mem : List Nat) (end_ : Nat) : Nat → Nat → Nat → Outcome Nat
  | 0, start, count => if start ≠ end_ then .timeout else .ret count
  | fuel + 1, start, count =>
    if start ≠ end_ then
      match next_u16 mem start with
      | .ret (_, start') => u16_to_u32_length_loop mem end_ fuel start' (count + 1)
      | .fault => .fault
      | .timeout => .timeout
    else .ret count

/-- Embeds `u16_to_u32_length(start, end)`. -/
def u16_to_u32_length (mem : List Nat) (start end_ : Nat) : Outcome Nat :=
  u16_to_u32_length_loop mem end_ (mem.length + 1) start 0

/-- Loop of `u32_to_u8`: `outputIt = append_u32_to_u8(*start++, outputIt)`. -/
def u32_to_u8_loop (mem : List Nat) (end_ : Nat) : Nat → Nat → List Nat → Outcome (List Nat)
  | 0, start, outputIt => if start ≠ end_ then .timeout else .ret outputIt
  | fuel + 1, start, outputIt =>
    if start ≠ end_ then
      match mem[start]? with
      | none => .fault
      | some c => u32_to_u8_loop mem end_ fuel (start + 1) (append_u32_to_u8 c outputIt)
    else .ret outputIt

/-- Embeds `u32_to_u8(start, end, outputIt)`. -/
def u32_to_u8 (mem : List Nat) (start end_ : Nat) (outputIt : List Nat) : Outcome (List Nat) :=
  u32_to_u8_loop mem end_ (mem.length + 1) start outputIt

/-- Body of the loop of `u32_to_u16` for one input unit: the units it writes.  The written
values are converted to the 16-bit `value_type` of the output. -/
def u32_to_u16_units (c : Nat) : List Nat :=
  let cp := to_u32 c
  if cp ≤ 0x0000FFFF then
    if cp ≥ 0xD800 ∧ cp ≤ 0xDFFF then
      [0x0000FFFD]
    else
      [detail.cast_16 cp]
  else if cp > 0x0010FFFF then
    [detail.cast_16 0x0000FFFD]
  else
    let cp := cp - 0x0010000
    [detail.cast_16 ((cp >>> 10) + 0xD800), detail.cast_16 ((cp &&& 0x3FF) + 0xDC00)]

/-- Loop of `u32_to_u16`. -/
def u32_to_u16_loop (mem : List Nat) (end_ : Nat) : Nat → Nat → List Nat → Outcome (List Nat)
  | 0, start, outputIt => if start ≠ end_ then .timeout else .ret outputIt
  | fuel + 1, start, outputIt =>
    if start ≠ end_ then
      match mem[start]? with
      | none => .fault
      | some c => u32_to_u16_loop mem end_ fuel (start + 1) (outputIt ++ u32_to_u16_units c)
    else .ret outputIt

/-- Embeds `u32_to_u16(start, end, outputIt)`. -/
def u32_to_u16 (mem : List Nat) (start end_ : Nat) (outputIt : List Nat) : Outcome (List Nat) :=
  u32_to_u16_loop mem end_ (mem.length + 1) start outputIt

/-- Loop of `u32_to_u8_length`. -/
def u32_to_u8_length_loop (mem : List Nat) (end_ : Nat) : Nat → Nat → Nat → Outcome Nat
  | 0, start, count => if start ≠ end_ then .timeout else .ret count
  | fuel + 1, start, count =>
    if start ≠ end_ then
      match mem[start]? with
      | none => .fault
      | some c => u32_to_u8_length_loop mem end_ fuel (start + 1) (count + code_point_size_u8 c)
    else .ret count

/-- Embeds `u32_to_u8_length(start, end)`. -/
def u32_to_u8_length (mem : List Nat) (start end_ : Nat) : Outcome Nat :=
  u32_to_u8_length_loop mem end_ (mem.length + 1) start 0

/-- Loop of `u32_to_u16_length`. -/
def u32_to_u16_length_loop (mem : List Nat) (end_ : Nat) : Nat → Nat → Nat → Outcome Nat
  | 0, start, count => if start ≠ end_ then .timeout else .ret count
  | fuel + 1, start, count =>
    if start ≠ end_ then
      match mem[start]? with
      | none => .fault
      | some c =>
        let cp := to_u32 c
        u32_to_u16_length_loop mem end_ fuel (start + 1)
          (count + (if cp ≤ 0x0000FFFF ∨ cp > 0x0010FFFF then 1 else 2))
    else .ret count

/-- Embeds `u32_to_u16_length(start, end)`. -/
def u32_to_u16_length (mem : List Nat) (start end_ : Nat) : Outcome Nat :=
  u32_to_u16_length_loop mem end_ (mem.length + 1) start 0

/-- Loop of `u16_length`: `for (i = 0; i < size; i++) { if (is_high_surrogate(cast_16(str[i])))
i++; dist++; }`. -/
def u16_length_loop (str : List Nat) (size : Nat) : Nat → Nat → Nat → Outcome Nat
  | 0, i, dist => if i < size then .timeout else .ret dist
  | fuel + 1, i, dist =>
    if i < size then
      match str[i]? with
      | none => .fault
      | some c =>
        let i := if detail.is_high_surrogate (detail.cast_16 c) then i + 1 else i
        u16_length_loop str size fuel (i + 1) (dist + 1)
    else .ret dist

/-- Embeds `u16_length(str, size)`.  The index grows on every iteration, so the loop makes at
most `size` iterations (`u16_length_returns_or_faults`). -/
def u16_length (str : List Nat) (size : Nat) : Outcome Nat :=
  u16_length_loop str size size 0 0

/-- Embeds `u32_length(const CharT*, size)`: `return size`. -/
def u32_length (_str : List Nat) (size : Nat) : Nat := size

/-! ### Character types and encodings -/

/-- Embeds `enum class encoding { utf8 = sizeof(char), utf16 = sizeof(char16_t),
utf32 = sizeof(char32_t) }`. -/
inductive encoding where
  | utf8
  | utf16
  | utf32
  deriving DecidableEq, Repr

/-- The platform's `sizeof(wchar_t)`: 2 (Windows) or 4. -/
inductive wchar_width where
  | two
  | four
  deriving DecidableEq, Repr

/-- The character types of `is_char_type` (`char8_t`, which exists as a type of its own only
behind the C++20 build switch, is left out). -/
inductive char_type where
  | char
  | char16_t
  | char32_t
  | wchar_t
  deriving DecidableEq, Repr

/-- The value of `sizeof(CharT)`. -/
def sizeof_char (w : wchar_width) : char_type → Nat
  | .char => 1
  | .char16_t => 2
  | .char32_t => 4
  | .wchar_t => match w with
    | .two => 2
    | .four => 4

/-- Embeds `encoding_of<CharT>::value`: chosen by `sizeof(CharT)` (1, 2, else 4). -/
def encoding_of (w : wchar_width) (c : char_type) : encoding :=
  if sizeof_char w c = 1 then .utf8
  else if sizeof_char w c = 2 then .utf16
  else .utf32

/-- Embeds `encoding_to_max_char_count<Encoding>::value`. -/
def encoding_to_max_char_count : encoding → Nat
  | .utf8 => 4
  | .utf16 => 2
  | .utf32 => 1

/-- A `std::basic_string_view<CharT>`: a pointer and a length.  The pointer is `none` when
null, and otherwise the list of the units that can be read from it onwards. -/
structure basic_string_view where
  data : Option (List Nat)
  size : Nat
  deriving DecidableEq, Repr

/-- The default `std::basic_string_view<CharT>()`: null pointer, length 0. -/
def basic_string_view.empty_view : basic_string_view := { data := none, size := 0 }

/-- The memory an algorithm walks when given `input_view.begin()`, `input_view.end()` (or
`input_view.data()`): the units readable from the pointer, none for a null pointer. -/
def basic_string_view.mem (sv : basic_string_view) : List Nat := sv.data.getD []

/-- The constructor `std::basic_string<CharT>(ptr, count)`: copies `count` units from `ptr`. -/
def basic_string_from (ptr : Option (List Nat)) (count : Nat) : Outcome (List Nat) :=
  match ptr with
  | none => if count = 0 then .ret [] else .fault
  | some mem => if count ≤ mem.length then .ret (mem.take count) else .fault

/-- The length `std::char_traits<CharT>::length(s)` that `std::basic_string_view<CharT>(s)`
computes for a pointer or an array: the number of units before the first zero unit.  The
argument is a null-terminated array; without a zero unit the C++ call is undefined and the
model gives the length of the array. -/
def traits_length (mem : List Nat) : Nat := (mem.takeWhile (fun u => u != 0)).length

/-- Embeds `convert_as<CharT>(str)` on a view of `input` characters, `CharT = output`. -/
def convert_as (w : wchar_width) (output input : char_type) (input_view : basic_string_view) :
    Outcome (List Nat) :=
  match encoding_of w input, encoding_of w output with
  | .utf8, .utf8 => basic_string_from input_view.data input_view.size
  | .utf8, .utf16 => u8_to_u16 input_view.mem 0 input_view.size []
  | .utf8, .utf32 => u8_to_u32 input_view.mem 0 input_view.size []
  | .utf16, .utf8 => u16_to_u8 input_view.mem 0 input_view.size []
  | .utf16, .utf16 => basic_string_from input_view.data input_view.size
  | .utf16, .utf32 => u16_to_u32 input_view.mem 0 input_view.size []
  | .utf32, .utf8 => u32_to_u8 input_view.mem 0 input_view.size []
  | .utf32, .utf16 => u32_to_u16 input_view.mem 0 input_view.size []
  | .utf32, .utf32 => basic_string_from input_view.data input_view.size

/-- Embeds `length(str)` on a view of `input` characters, with the iteration budget that
`u8_length` needs. -/
def length (w : wchar_width) (input : char_type) (fuel : Nat) (input_view : basic_string_view) :
    Outcome Nat :=
  match encoding_of w input with
  | .utf8 => u8_length fuel input_view.mem input_view.size
  | .utf16 => u16_length input_view.mem input_view.size
  | .utf32 => .ret (u32_length input_view.mem input_view.size)

namespace detail

/-- Embeds `u16_sequence_length(char16_t c)`. -/
def u16_sequence_length (c : Nat) : Nat :=
  let cp := cast_16 (cast_16 c)
  if is_high_surrogate cp then 2 else 1

/-- Embeds `iterator_sequence_length<Encoding>::length`: the parameter is a `std::uint8_t`, a
`std::int16_t` cast to `char16_t`, or an ignored `std::int32_t`. -/
def iterator_sequence_length (e : encoding) (c : Nat) : Nat :=
  match e with
  | .utf8 => sequence_length c
  | .utf16 => u16_sequence_length (cast_16 c)
  | .utf32 => 1

/-- Embeds `base_iterator::advance(it)`: `std::advance(it, it_seq_length::length(*it))`, for the
encoding of the input character type; returns the new position. -/
def base_iterator.advance (e : encoding) (mem : List Nat) (it : Nat) : Outcome Nat :=
  match mem[it]? with
  | none => .fault
  | some c => .ret (it + iterator_sequence_length e c)

end detail

/-- Embeds `basic_iterator::operator++` (and `iterator::operator++`) on the position `_it`:
`base_type::advance(_it)`. -/
def basic_iterator.increment (e : encoding) (mem : List Nat) (_it : Nat) : Outcome Nat :=
  detail.base_iterator.advance e mem _it

/-! ### The encoded view `string_view` -/

/-- The data members of `string_view`.  The union `m_data` of three pointers is one pointer
(`none` when null, otherwise the units readable from it); `m_size` is a `std::uint32_t`. -/
structure string_view where
  m_data : Option (List Nat)
  m_size : Nat
  m_charSize : Nat
  m_nullTerminated : Bool
  deriving DecidableEq, Repr

namespace string_view

/-- Embeds the default constructor `string_view()`. -/
def default_view : string_view :=
  { m_data := none, m_size := 0, m_charSize := 1, m_nullTerminated := false }

/-- Embeds the constructors `string_view(const std::basic_string<CharT>& str, normal_tag)`:
`str.c_str()` points to the units of `str` followed by a zero unit. -/
def from_string (w : wchar_width) (c : char_type) (str : List Nat) : string_view :=
  { m_data := some (str ++ [0]), m_size := to_u32 str.length, m_charSize := sizeof_char w c,
    m_nullTerminated := true }

/-- Embeds the constructors `string_view(std::basic_string_view<CharT> str, normal_tag)`. -/
def from_view (w : wchar_width) (c : char_type) (str : basic_string_view) : string_view :=
  { m_data := str.data, m_size := to_u32 str.size, m_charSize := sizeof_char w c,
    m_nullTerminated := false }

/-- Embeds the constructors
`string_view(std::basic_string_view<CharT> str, null_terminated_tag)`. -/
def from_view_null_terminated (w : wchar_width) (c : char_type) (str : basic_string_view) :
    string_view :=
  { m_data := str.data, m_size := to_u32 str.size, m_charSize := sizeof_char w c,
    m_nullTerminated := true }

/-- Embeds `null_terminated()`. -/
def null_terminated (v : string_view) : Bool := v.m_nullTerminated

/-- Embeds `empty()`: `!m_size`. -/
def empty (v : string_view) : Bool := v.m_size == 0

/-- Embeds `size()`. -/
def size (v : string_view) : Nat := v.m_size

/-- Embeds `char_size()`. -/
def char_size (v : string_view) : Nat := v.m_charSize

/-- Embeds `size_bytes()`: `m_size * char_size()`. -/
def size_bytes (v : string_view) : Nat := v.m_size * v.char_size

/-- Embeds `encoding()`: a `switch` on `char_size()` with `default: return encoding::utf8`. -/
def encoding (v : string_view) : utf.encoding :=
  if v.char_size = 1 then .utf8
  else if v.char_size = 2 then .utf16
  else if v.char_size = 4 then .utf32
  else .utf8

/-- Embeds `c_str<CharT>()`. -/
def c_str (w : wchar_width) (c : char_type) (v : string_view) : Option (List Nat) :=
  match c with
  | .char => if v.m_charSize = 1 ∧ v.m_nullTerminated = true then v.m_data else none
  | .char16_t => if v.m_charSize = 2 ∧ v.m_nullTerminated = true then v.m_data else none
  | .char32_t => if v.m_charSize = 4 ∧ v.m_nullTerminated = true then v.m_data else none
  | .wchar_t =>
    if v.m_charSize = sizeof_char w .wchar_t ∧ v.m_nullTerminated = true then v.m_data else none

/-- Embeds `data<CharT>()`. -/
def data (w : wchar_width) (c : char_type) (v : string_view) : Option (List Nat) :=
  match c with
  | .char => if v.m_charSize = 1 then v.m_data else none
  | .char16_t => if v.m_charSize = 2 then v.m_data else none
  | .char32_t => if v.m_charSize = 4 then v.m_data else none
  | .wchar_t => if v.m_charSize = sizeof_char w .wchar_t then v.m_data else none

/-- Embeds `str<CharT>()`: `stype(ptr, m_size)` or `stype()`. -/
def str (w : wchar_width) (c : char_type) (v : string_view) : Outcome (List Nat) :=
  match c with
  | .char => if v.m_charSize = 1 then basic_string_from v.m_data v.m_size else .ret []
  | .char16_t => if v.m_charSize = 2 then basic_string_from v.m_data v.m_size else .ret []
  | .char32_t => if v.m_charSize = 4 then basic_string_from v.m_data v.m_size else .ret []
  | .wchar_t =>
    if v.m_charSize = sizeof_char w .wchar_t then basic_string_from v.m_data v.m_size
    else .ret []

/-- Embeds `view<CharT>()`: `svtype(ptr, m_size)` or `svtype()`. -/
def view (w : wchar_width) (c : char_type) (v : string_view) : basic_string_view :=
  match c with
  | .char =>
    if v.m_charSize = 1 then { data := v.m_data, size := v.m_size }
    else basic_string_view.empty_view
  | .char16_t =>
    if v.m_charSize = 2 then { data := v.m_data, size := v.m_size }
    else basic_string_view.empty_view
  | .char32_t =>
    if v.m_charSize = 4 then { data := v.m_data, size := v.m_size }
    else basic_string_view.empty_view
  | .wchar_t =>
    if v.m_charSize = sizeof_char w .wchar_t then { data := v.m_data, size := v.m_size }
    else basic_string_view.empty_view

/-- Embeds `to_utf8()`. -/
def to_utf8 (w : wchar_width) (v : string_view) : Outcome (List Nat) :=
  if v.empty then .ret []
  else
    match v.encoding with
    | .utf8 => basic_string_from (v.data w .char) v.size
    | .utf16 => convert_as w .char .char16_t (v.view w .char16_t)
    | .utf32 => convert_as w .char .char32_t (v.view w .char32_t)

/-- Embeds `to_utf16()`. -/
def to_utf16 (w : wchar_width) (v : string_view) : Outcome (List Nat) :=
  if v.empty then .ret []
  else
    match v.encoding with
    | .utf8 => convert_as w .char16_t .char (v.view w .char)
    | .utf16 => basic_string_from (v.data w .char16_t) v.size
    | .utf32 => convert_as w .char16_t .char32_t (v.view w .char32_t)

/-- Embeds `to_utf32()`. -/
def to_utf32 (w : wchar_width) (v : string_view) : Outcome (List Nat) :=
  if v.empty then .ret []
  else
    match v.encoding with
    | .utf8 => convert_as w .char32_t .char (v.view w .char)
    | .utf16 => convert_as w .char32_t .char16_t (v.view w .char16_t)
    | .utf32 => basic_string_from (v.data w .char32_t) v.size

/-- Embeds `count()`, with the iteration budget that `u8_length` needs. -/
def count (w : wchar_width) (fuel : Nat) (v : string_view) : Outcome Nat :=
  match v.encoding with
  | .utf8 => length w .char fuel (v.view w .char)
  | .utf16 => length w .char16_t fuel (v.view w .char16_t)
  | .utf32 => .ret v.size

end string_view

/-- The arguments that the converting constructor `string_view(T&& s)` accepts. -/
inductive source where
  /-- An owned `const std::basic_string<CharT>&` with the given units. -/
  | string (c : char_type) (str : List Nat)
  /-- A borrowed `std::basic_string_view<CharT>`. -/
  | borrowed (c : char_type) (str : basic_string_view)
  /-- A raw `const CharT*` to a null-terminated array: `chars`, then the zero unit. -/
  | pointer (c : char_type) (chars : List Nat)
  /-- A literal `const CharT(&)[N]`: `chars`, then the zero unit (`N = chars.length + 1`). -/
  | literal (c : char_type) (chars : List Nat)

/-- Embeds `string_view::make(s)`: strings and views go to the `normal_tag` constructors, and
every other accepted argument is first turned into a `std::basic_string_view<CharT>(s)` (whose
length is `traits_length`) and goes to the `null_terminated_tag` constructors. -/
def string_view.make (w : wchar_width) : source → string_view
  | .string c str => string_view.from_string w c str
  | .borrowed c str => string_view.from_view w c str
  | .pointer c chars =>
    string_view.from_view_null_terminated w c
      { data := some (chars ++ [0]), size := traits_length (chars ++ [0]) }
  | .literal c chars =>
    string_view.from_view_null_terminated w c
      { data := some (chars ++ [0]), size := traits_length (chars ++ [0]) }

/-- Loop of `prior_u8_to_u32`: `while (detail::is_trail(*(--it)));`.  The position is
decremented before each read, so the function recurses on it; stepping back from index 0 leaves
the buffer.  Returns the position of the byte that stopped the scan. -/
def prior_u8_to_u32_loop (mem : List Nat) : Nat → Outcome Nat
  | 0 => .fault
  | it + 1 =>
    match mem[it]? with
    | none => .fault
    | some b => if detail.is_trail b then prior_u8_to_u32_loop mem it else .ret it

/-- Embeds `prior_u8_to_u32(octet_iterator& it)`: scans back to a byte that is not a
continuation byte and decodes from there with a copy of the iterator; returns the code point
and the position `it` is left at. -/
def prior_u8_to_u32 (mem : List Nat) (it : Nat) : Outcome (Nat × Nat) :=
  match prior_u8_to_u32_loop mem it with
  | .ret it' =>
    match next_u8_to_u32 mem it' with
    | .ret (cp, _) => .ret (cp, it')
    | .fault => .fault
    | .timeout => .timeout
  | .fault => .fault
  | .timeout => .timeout

/-- Embeds the defaulted copy and move constructors and assignments of `string_view`: the four
members are copied. -/
def string_view.copy (v : string_view) : string_view :=
  { m_data := v.m_data, m_size := v.m_size, m_charSize := v.m_charSize,
    m_nullTerminated := v.m_nullTerminated }

namespace detail

/-- Embeds `bom[] = { 0xef, 0xbb, 0xbf }`. -/
def bom : List Nat := [0xEF, 0xBB, 0xBF]

/-- Embeds `is_surrogate(char16_t uc)`: `(uc - k_lead_surrogate_min) < 2048u`.  The parameter is
a `char16_t`; the difference is computed in `int` and converted to `unsigned` for the
comparison, hence taken modulo `2 ^ 32`. -/
def is_surrogate (uc : Nat) : Bool :=
  decide ((((cast_16 uc : Int) - (k_lead_surrogate_min : Int)) % 4294967296).toNat < 2048)

/-- Embeds `is_valid_code_point(u32char_type cp)`:
`cp <= k_code_point_max && !is_surrogate(cp)`, on a 32-bit `cp`.  The call `is_surrogate(cp)`
converts `cp` to the `char16_t` parameter of `is_surrogate`. -/
def is_valid_code_point (cp : Nat) : Bool :=
  decide (to_u32 cp ≤ k_code_point_max) && !is_surrogate (to_u32 cp)

/-- Embeds `starts_with_bom(it, end)`: the three tests
`(it != end) && (cast_8(*it++)) == bom[i]`, joined by `&&`, which stops at the first test that
fails; a byte is read only after `it != end` held. -/
def starts_with_bom (mem : List Nat) (it end_ : Nat) : Outcome Bool :=
  if it ≠ end_ then
    match mem[it]? with
    | none => .fault
    | some b0 =>
      if cast_8 b0 = bom.getD 0 0 then
        if it + 1 ≠ end_ then
          match mem[it + 1]? with
          | none => .fault
          | some b1 =>
            if cast_8 b1 = bom.getD 1 0 then
              if it + 2 ≠ end_ then
                match mem[it + 2]? with
                | none => .fault
                | some b2 => .ret (decide (cast_8 b2 = bom.getD 2 0))
              else .ret false
            else .ret false
        else .ret false
      else .ret false
  else .ret false

end detail

/-- Loop of the same-encoding branches of `copy`:
`for (i = 0; i < input_view.size(); i++) *outputIt++ = (output_char_type)input_view[i]`. -/
def copy_units_loop (mem : List Nat) (size : Nat) : Nat → Nat → List Nat → Outcome (List Nat)
  | 0, i, outputIt => if i < size then .timeout else .ret outputIt
  | fuel + 1, i, outputIt =>
    if i < size then
      match mem[i]? with
      | none => .fault
      | some c => copy_units_loop mem size fuel (i + 1) (outputIt ++ [c])
    else .ret outputIt

/-- Embeds `copy(str, outputIt)` on a view of `input` characters, the output iterator having
the value type `output`.  The index of the same-encoding loop grows on every iteration, so
`size` iterations are its budget. -/
def copy (w : wchar_width) (output input : char_type) (input_view : basic_string_view)
    (outputIt : List Nat) : Outcome (List Nat) :=
  match encoding_of w input, encoding_of w output with
  | .utf8, .utf8 => copy_units_loop input_view.mem input_view.size input_view.size 0 outputIt
  | .utf8, .utf16 => u8_to_u16 input_view.mem 0 input_view.size outputIt
  | .utf8, .utf32 => u8_to_u32 input_view.mem 0 input_view.size outputIt
  | .utf16, .utf8 => u16_to_u8 input_view.mem 0 input_view.size outputIt
  | .utf16, .utf16 => copy_units_loop input_view.mem input_view.size input_view.size 0 outputIt
  | .utf16, .utf32 => u16_to_u32 input_view.mem 0 input_view.size outputIt
  | .utf32, .utf8 => u32_to_u8 input_view.mem 0 input_view.size outputIt
  | .utf32, .utf16 => u32_to_u16 input_view.mem 0 input_view.size outputIt
  | .utf32, .utf32 => copy_units_loop input_view.mem input_view.size input_view.size 0 outputIt

/-- Embeds `base_iterator::get(it)`, the value of `operator*` of `basic_iterator`.  With equal
encodings it is the view `(&it[0], it_seq_length::length(*it))` into the input.  With differing
encodings `copy` writes the transcoded slice into the array `_data` of
`encoding_to_max_char_count` units and the view is over what was written; writing past the end
of the array is outside the buffer. -/
def detail.base_iterator.get (w : wchar_width) (input output : char_type) (mem : List Nat)
    (it : Nat) : Outcome basic_string_view :=
  match mem[it]? with
  | none => .fault
  | some c =>
    let n := detail.iterator_sequence_length (encoding_of w input) c
    if encoding_of w input = encoding_of w output then
      .ret { data := some (mem.drop it), size := n }
    else
      match copy w output input { data := some (mem.drop it), size := n } [] with
      | .ret written =>
        if written.length ≤ encoding_to_max_char_count (encoding_of w output) then
          .ret { data := some written, size := written.length }
        else .fault
      | .fault => .fault
      | .timeout => .timeout

/-! ## Definitions used to state the properties -/

/-- Concatenation of what `append_u32_to_u8` writes for each unit of `S`, in order. -/
def utf8_of : List Nat → List Nat
  | [] => []
  | c :: S => append_u32_to_u8 c [] ++ utf8_of S

/-- Concatenation of what the body of `u32_to_u16` writes for each unit of `S`, in order. -/
def utf16_of : List Nat → List Nat
  | [] => []
  | c :: S => u32_to_u16_units c ++ utf16_of S

/-- Structurally well-formed UTF-8: a concatenation of sequences, each a lead byte of sequence
length `n` in `1..4` followed by exactly `n - 1` continuation bytes.  Every UTF-8 encoding of a
sequence of code points has this shape. -/
inductive WellFormedU8 : List Nat → Prop where
  | nil : WellFormedU8 []
  | seq (lead : Nat) (trail rest : List Nat) :
      detail.sequence_length lead = trail.length + 1 →
      (∀ t ∈ trail, detail.is_trail t = true) →
      WellFormedU8 rest → WellFormedU8 (lead :: trail ++ rest)

/-- Well-formed UTF-16 in the sense of the length-agreement property: every high surrogate is
immediately followed by a low surrogate. -/
inductive WellFormedU16 : List Nat → Prop where
  | nil : WellFormedU16 []
  | single (u : Nat) (rest : List Nat) :
      detail.is_high_surrogate u = false →
      WellFormedU16 rest → WellFormedU16 (u :: rest)
  | pair (h l : Nat) (rest : List Nat) :
      detail.is_high_surrogate h = true → detail.is_low_surrogate l = true →
      WellFormedU16 rest → WellFormedU16 (h :: l :: rest)

/-- The traversal `for (auto it = r.begin(); it != r.end(); ++it)` of the `iterator_range` that
`iterate_as` builds over a buffer of `end_` units: the positions visited, in order. -/
def iterate_positions (e : encoding) (mem : List Nat) (end_ : Nat) :
    Nat → Nat → List Nat → Outcome (List Nat)
  | 0, it, visited => if it ≠ end_ then .timeout else .ret visited
  | fuel + 1, it, visited =>
    if it ≠ end_ then
      match basic_iterator.increment e mem it with
      | .ret it' => iterate_positions e mem end_ fuel it' (visited ++ [it])
      | .fault => .fault
      | .timeout => .timeout
    else .ret visited

/-- The code units a view stands for: the first `size()` units readable from its pointer. -/
def string_view.units (v : string_view) : List Nat := (v.m_data.getD []).take v.m_size

/-- The `size()` units of a view can be read from its pointer (as they can for every view that
a constructor builds from a source whose size is below `2 ^ 32`). -/
@[reducible]
def string_view.readable (v : string_view) : Prop := v.m_size ≤ (v.m_data.getD []).length

/-- The character type of a constructor argument. -/
def source.char : source → char_type
  | .string c _ => c
  | .borrowed c _ => c
  | .pointer c _ => c
  | .literal c _ => c

/-- The tag consistency invariant of a view: the width is 1, 2 or 4, the encoding is the one of
that width, `size_bytes()` is `size() * char_size()`, and `empty()` means `size() == 0`. -/
@[reducible]
def string_view.tag_consistent (v : string_view) : Prop :=
  (v.char_size = 1 ∨ v.char_size = 2 ∨ v.char_size = 4)
  ∧ (v.encoding = .utf8 ↔ v.char_size = 1)
  ∧ (v.encoding = .utf16 ↔ v.char_size = 2)
  ∧ (v.encoding = .utf32 ↔ v.char_size = 4)
  ∧ v.size_bytes = v.size * v.char_size
  ∧ (v.empty = true ↔ v.size = 0)

/-- UTF-16 input in which every high surrogate that the readers meet is followed by another
unit (of any value): nothing is asked of lone low surrogates or of the unit after a high
surrogate. -/
inductive CompleteU16 : List Nat → Prop where
  | nil : CompleteU16 []
  | single (u : Nat) (rest : List Nat) :
      detail.is_high_surrogate u = false →
      CompleteU16 rest → CompleteU16 (u :: rest)
  | pair (h l : Nat) (rest : List Nat) :
      detail.is_high_surrogate h = true →
      CompleteU16 rest → CompleteU16 (h :: l :: rest)

/-- The number of code units of a constructor argument, as the constructor obtains it:
the `size()` of a string or of a borrowed view, and for a pointer or a literal the length of
the `std::basic_string_view` made from it. -/
def source.size : source → Nat
  | .string _ str => str.length
  | .borrowed _ sv => sv.size
  | .pointer _ chars => traits_length (chars ++ [0])
  | .literal _ chars => traits_length (chars ++ [0])

/-- The scan of `u8_length` from index `i` meets no byte of sequence length 0: every byte at a
position it visits is readable and has a sequence length of 1 to 4. -/
inductive ScanMeetsNoZero (str : List Nat) (size : Nat) : Nat → Prop where
  | done (i : Nat) : ¬ i < size → ScanMeetsNoZero str size i
  | step (i c : Nat) : i < size → str[i]? = some c → detail.sequence_length c ≠ 0 →
      ScanMeetsNoZero str size (i + detail.sequence_length c) → ScanMeetsNoZero str size i

/-- The control skeleton shared by `u8_to_u32` and `u8_to_u16`,
`while (start < end) { ... next_u8_to_u32(start) ... }`, with the positions at which the
iterations start recorded: returns these positions and the position at which the loop ends. -/
def u8_decode_positions (mem : List Nat) (end_ : Nat) :
    Nat → Nat → List Nat → Outcome (List Nat × Nat)
  | 0, start, visited => if start < end_ then .timeout else .ret (visited, start)
  | fuel + 1, start, visited =>
    if start < end_ then
      match next_u8_to_u32 mem start with
      | .ret (_, start') => u8_decode_positions mem end_ fuel start' (visited ++ [start])
      | .fault => .fault
      | .timeout => .timeout
    else .ret (visited, start)

/-- The positions of the first bytes of the code points of `S` in a buffer in which the
encoding of `S` starts at position `p`. -/
def code_point_starts : Nat → List Nat → List Nat
  | _, [] => []
  | p, c :: S => p :: code_point_starts (p + code_point_size_u8 c) S

/-- The units that stand for one code point in an encoding: what `append_u32_to_u8` or the
body of `u32_to_u16` writes for it, or the code point itself. -/
def encode_one (e : encoding) (c : Nat) : List Nat :=
  match e with
  | .utf8 => append_u32_to_u8 c []
  | .utf16 => u32_to_u16_units c
  | .utf32 => [c]

/-- The string that stands for a sequence of code points in an encoding. -/
def encode (e : encoding) : List Nat → List Nat
  | [] => []
  | c :: S => encode_one e c ++ encode e S

/-- The traversal `for (auto it = r.begin(); it != r.end(); ++it) result.append(*it)` of the
range `r = iterate_as<CharT>(s)` over a buffer of `end_` units: the units collected from the
views and the number of positions visited. -/
def iterate_collect (w : wchar_width) (input output : char_type) (mem : List Nat) (end_ : Nat) :
    Nat → Nat → List Nat → Nat → Outcome (List Nat × Nat)
  | 0, it, result, visited => if it ≠ end_ then .timeout else .ret (result, visited)
  | fuel + 1, it, result, visited =>
    if it ≠ end_ then
      match detail.base_iterator.get w input output mem it with
      | .ret v =>
        match basic_string_from v.data v.size with
        | .ret units =>
          match basic_iterator.increment (encoding_of w input) mem it with
          | .ret it' => iterate_collect w input output mem end_ fuel it' (result ++ units)
              (visited + 1)
          | .fault => .fault
          | .timeout => .timeout
        | .fault => .fault
        | .timeout => .timeout
      | .fault => .fault
      | .timeout => .timeout
    else .ret (result, visited)

/-- The value that stands for a 32-bit value after the substitution of `u32_to_u16`: the
value itself when it is a valid code point, `0xFFFD` otherwise. -/
def replace_invalid (c : Nat) : Nat :=
  if c ≤ 0x10FFFF ∧ ¬ (0xD800 ≤ c ∧ c ≤ 0xDFFF) then c else 0xFFFD

/-- UTF-16 made of units outside the surrogate range and of pairs of a high and a low
surrogate. -/
inductive PairedU16 : List Nat → Prop where
  | nil : PairedU16 []
  | single (u : Nat) (rest : List Nat) :
      u < 65536 → ¬ (0xD800 ≤ u ∧ u ≤ 0xDFFF) → PairedU16 rest → PairedU16 (u :: rest)
  | pair (h l : Nat) (rest : List Nat) :
      (0xD800 ≤ h ∧ h ≤ 0xDBFF) → (0xDC00 ≤ l ∧ l ≤ 0xDFFF) → PairedU16 rest →
      PairedU16 (h :: l :: rest)

/-! ## Bit-level facts -/

theorem and_3F (x : Nat) : x &&& 0x3F = x % 64 := Nat.and_pow_two_sub_one_eq_mod x 6
theorem and_3FF (x : Nat) : x &&& 0x3FF = x % 1024 := Nat.and_pow_two_sub_one_eq_mod x 10

set_option maxRecDepth 100000 in
theorem lead2_facts : ∀ a < 32, detail.sequence_length (detail.cast_8 (a ||| 0xC0)) = 2 ∧
    ((detail.cast_8 (detail.cast_8 (a ||| 0xC0)) <<< 6) &&& 0x7FF) = a * 64 := by decide

set_option maxRecDepth 100000 in
theorem lead3_facts : ∀ a < 16, detail.sequence_length (detail.cast_8 (a ||| 0xE0)) = 3 ∧
    ((detail.cast_8 (detail.cast_8 (a ||| 0xE0)) <<< 12) &&& 0xFFFF) = a * 4096 := by decide

set_option maxRecDepth 100000 in
theorem lead4_facts : ∀ a < 8, detail.sequence_length (detail.cast_8 (a ||| 0xF0)) = 4 ∧
    ((detail.cast_8 (detail.cast_8 (a ||| 0xF0)) <<< 18) &&& 0x1FFFFF) = a * 262144 := by decide

set_option maxRecDepth 100000 in
theorem trail_facts : ∀ b < 64, detail.is_trail (detail.cast_8 (b ||| 0x80)) = true ∧
    detail.cast_8 (b ||| 0x80) &&& 0x3F = b ∧
    ((detail.cast_8 (detail.cast_8 (b ||| 0x80)) <<< 6) &&& 0xFFF) = b * 64 ∧
    ((detail.cast_8 (detail.cast_8 (b ||| 0x80)) <<< 12) &&& 0x3FFFF) = b * 4096 := by decide

set_option maxRecDepth 100000 in
theorem lead1_facts : ∀ a < 128, detail.sequence_length (detail.cast_8 a) = 1 ∧
    detail.cast_8 (detail.cast_8 a) = a := by decide

theorem and_FFFFFC00 (u : Nat) (h : u < 4294967296) : u &&& 0xFFFFFC00 = u / 1024 * 1024 := by
  have e : u / 1024 * 1024 = (u >>> 10) <<< 10 := by
    simp [Nat.shiftLeft_eq, Nat.shiftRight_eq_div_pow]
  rw [e]
  apply Nat.eq_of_testBit_eq
  intro i
  rw [Nat.testBit_and, Nat.testBit_shiftLeft, Nat.testBit_shiftRight]
  by_cases hi : i < 32
  · by_cases hj : 10 ≤ i
    · have : Nat.testBit 0xFFFFFC00 i = true := by
        interval_cases i <;> decide
      simp [this, hj]
    · have : Nat.testBit 0xFFFFFC00 i = false := by
        interval_cases i <;> decide
      simp [this, hj]
  · have hu : u.testBit i = false := by
      apply Nat.testBit_lt_two_pow
      calc u < 2 ^ 32 := h
        _ ≤ 2 ^ i := Nat.pow_le_pow_right (by decide) (by omega)
    have hj : 10 ≤ i := by omega
    simp [hu, hj]


/-! ## Buffers and single steps -/

theorem getElem?_mid (pre l post : List Nat) (k : Nat) (h : k < l.length) :
    (pre ++ l ++ post)[pre.length + k]? = l[k]? := by
  rw [List.append_assoc, List.getElem?_append_right (by omega)]
  simp [List.getElem?_append_left, h]

theorem getElem?_at_length (pre rest : List Nat) (c : Nat) :
    (pre ++ c :: rest)[pre.length]? = some c := by
  rw [List.getElem?_append_right (le_refl _)]
  simp

theorem append_u32_to_u8_eq (cp : Nat) (it : List Nat) :
    append_u32_to_u8 cp it = it ++ append_u32_to_u8 cp [] := by
  unfold append_u32_to_u8
  simp only [List.nil_append]
  split_ifs <;> rfl

theorem append_u32_to_u8_length (cp : Nat) :
    (append_u32_to_u8 cp []).length = code_point_size_u8 cp := by
  unfold append_u32_to_u8 code_point_size_u8
  simp only [List.nil_append]
  split_ifs <;> rfl

theorem code_point_size_u8_pos (cp : Nat) : 0 < code_point_size_u8 cp := by
  unfold code_point_size_u8
  simp only []
  split_ifs <;> omega

/-- Decoding at the first byte of an encoded code point gives the code point back and moves the
iterator past its bytes (for every value that fits the 21 bits of the four-byte form). -/
theorem next_u8_to_u32_append (cp : Nat) (hcp : cp < 0x200000) (pre post : List Nat) :
    next_u8_to_u32 (pre ++ append_u32_to_u8 cp [] ++ post) pre.length
      = .ret (cp, pre.length + code_point_size_u8 cp) := by
  have h32 : to_u32 cp = cp := Nat.mod_eq_of_lt (by omega)
  have hidx := getElem?_mid pre (append_u32_to_u8 cp []) post
  have h0 := hidx 0
  have h1 := hidx 1
  have h2 := hidx 2
  have h3 := hidx 3
  clear hidx
  unfold next_u8_to_u32
  unfold append_u32_to_u8 code_point_size_u8 at *
  simp only [h32, List.nil_append, Nat.add_zero] at h0 h1 h2 h3 ⊢
  by_cases c1 : cp < 0x80
  · simp only [c1, if_true] at h0 h1 h2 h3 ⊢
    rw [h0 (by simp)]
    obtain ⟨e1, e2⟩ := lead1_facts cp c1
    simp [e1, e2]
  · by_cases c2 : cp < 0x800
    · simp only [c1, c2, if_true, if_false] at h0 h1 h2 h3 ⊢
      rw [h0 (by simp), h1 (by simp)]
      have ha : cp >>> 6 < 32 := by rw [Nat.shiftRight_eq_div_pow]; omega
      have hb : cp &&& 0x3F < 64 := by rw [and_3F]; omega
      obtain ⟨e1, e2⟩ := lead2_facts _ ha
      obtain ⟨-, t1, -, -⟩ := trail_facts _ hb
      simp only [List.getElem?_cons_zero, List.getElem?_cons_succ, e1, e2, t1]
      simp only [Nat.shiftRight_eq_div_pow, and_3F]
      congr 2
      omega
    · by_cases c3 : cp < 0x10000
      · simp only [c1, c2, c3, if_true, if_false] at h0 h1 h2 h3 ⊢
        rw [h0 (by simp), h1 (by simp), h2 (by simp)]
        have ha : cp >>> 12 < 16 := by rw [Nat.shiftRight_eq_div_pow]; omega
        have hb : (cp >>> 6) &&& 0x3F < 64 := by rw [and_3F]; omega
        have hc : cp &&& 0x3F < 64 := by rw [and_3F]; omega
        obtain ⟨e1, e2⟩ := lead3_facts _ ha
        obtain ⟨-, -, t2, -⟩ := trail_facts _ hb
        obtain ⟨-, t1, -, -⟩ := trail_facts _ hc
        simp only [List.getElem?_cons_zero, List.getElem?_cons_succ, e1, e2, t1, t2]
        simp only [Nat.shiftRight_eq_div_pow, and_3F]
        congr 2
        omega
      · simp only [c1, c2, c3, if_true, if_false] at h0 h1 h2 h3 ⊢
        rw [h0 (by simp), h1 (by simp), h2 (by simp), h3 (by simp)]
        have ha : cp >>> 18 < 8 := by rw [Nat.shiftRight_eq_div_pow]; omega
        have hb : (cp >>> 12) &&& 0x3F < 64 := by rw [and_3F]; omega
        have hc : (cp >>> 6) &&& 0x3F < 64 := by rw [and_3F]; omega
        have hd : cp &&& 0x3F < 64 := by rw [and_3F]; omega
        obtain ⟨e1, e2⟩ := lead4_facts _ ha
        obtain ⟨-, -, -, t3⟩ := trail_facts _ hb
        obtain ⟨-, -, t2, -⟩ := trail_facts _ hc
        obtain ⟨-, t1, -, -⟩ := trail_facts _ hd
        simp only [List.getElem?_cons_zero, List.getElem?_cons_succ, e1, e2, t1, t2, t3]
        simp only [Nat.shiftRight_eq_div_pow, and_3F]
        congr 2
        omega

/-! ## The UTF-32 readers on a whole buffer -/

theorem u32_to_u8_loop_run (S : List Nat) : ∀ (pre out : List Nat) (fuel : Nat),
    S.length ≤ fuel →
    u32_to_u8_loop (pre ++ S) (pre.length + S.length) fuel pre.length out
      = .ret (out ++ utf8_of S) := by
  induction S with
  | nil =>
    intro pre out fuel _
    cases fuel <;> simp [u32_to_u8_loop, utf8_of]
  | cons c S ih =>
    intro pre out fuel hf
    obtain ⟨f, rfl⟩ : ∃ f, fuel = f + 1 := ⟨fuel - 1, by simp at hf; omega⟩
    have hne : pre.length ≠ pre.length + (c :: S).length := by simp
    rw [u32_to_u8_loop, if_pos hne, getElem?_at_length]
    have e : pre ++ c :: S = (pre ++ [c]) ++ S := by simp
    have e2 : pre.length + (c :: S).length = (pre ++ [c]).length + S.length := by
      simp; omega
    have e3 : pre.length + 1 = (pre ++ [c]).length := by simp
    simp only []
    rw [e, e2, e3, ih _ _ f (by simp at hf; omega), append_u32_to_u8_eq, utf8_of,
      List.append_assoc]

theorem u32_to_u16_loop_run (S : List Nat) : ∀ (pre out : List Nat) (fuel : Nat),
    S.length ≤ fuel →
    u32_to_u16_loop (pre ++ S) (pre.length + S.length) fuel pre.length out
      = .ret (out ++ utf16_of S) := by
  induction S with
  | nil =>
    intro pre out fuel _
    cases fuel <;> simp [u32_to_u16_loop, utf16_of]
  | cons c S ih =>
    intro pre out fuel hf
    obtain ⟨f, rfl⟩ : ∃ f, fuel = f + 1 := ⟨fuel - 1, by simp at hf; omega⟩
    have hne : pre.length ≠ pre.length + (c :: S).length := by simp
    rw [u32_to_u16_loop, if_pos hne, getElem?_at_length]
    have e : pre ++ c :: S = (pre ++ [c]) ++ S := by simp
    have e2 : pre.length + (c :: S).length = (pre ++ [c]).length + S.length := by
      simp; omega
    have e3 : pre.length + 1 = (pre ++ [c]).length := by simp
    simp only []
    rw [e, e2, e3, ih _ _ f (by simp at hf; omega), utf16_of, List.append_assoc]

/-- On a whole buffer `u32_to_u8` returns the concatenated encodings. -/
theorem u32_to_u8_run (S : List Nat) : u32_to_u8 S 0 S.length [] = .ret (utf8_of S) := by
  have h := u32_to_u8_loop_run S [] [] (S.length + 1) (by omega)
  simpa [u32_to_u8] using h

/-- On a whole buffer `u32_to_u16` returns the concatenated unit groups. -/
theorem u32_to_u16_run (S : List Nat) : u32_to_u16 S 0 S.length [] = .ret (utf16_of S) := by
  have h := u32_to_u16_loop_run S [] [] (S.length + 1) (by omega)
  simpa [u32_to_u16] using h

theorem length_le_utf8_of (S : List Nat) : S.length ≤ (utf8_of S).length := by
  induction S with
  | nil => simp [utf8_of]
  | cons c S ih =>
    have := code_point_size_u8_pos c
    simp [utf8_of, append_u32_to_u8_length]
    omega

/-- Each code point of `S` below `2 ^ 21` is decoded back by the loop of `u8_to_u32`. -/
theorem u8_to_u32_loop_utf8_of (S : List Nat) (hS : ∀ c ∈ S, c < 0x200000) :
    ∀ (pre out : List Nat) (fuel : Nat), S.length ≤ fuel →
    u8_to_u32_loop (pre ++ utf8_of S) (pre.length + (utf8_of S).length) fuel pre.length out
      = .ret (out ++ S) := by
  induction S with
  | nil =>
    intro pre out fuel _
    cases fuel <;> simp [u8_to_u32_loop, utf8_of]
  | cons c S ih =>
    intro pre out fuel hf
    obtain ⟨f, rfl⟩ : ∃ f, fuel = f + 1 := ⟨fuel - 1, by simp at hf; omega⟩
    have hc : c < 0x200000 := hS c (by simp)
    have hpos := code_point_size_u8_pos c
    have hlt : pre.length < pre.length + (utf8_of (c :: S)).length := by
      simp [utf8_of, append_u32_to_u8_length]; omega
    have e : pre ++ utf8_of (c :: S) = pre ++ append_u32_to_u8 c [] ++ utf8_of S := by
      simp [utf8_of]
    rw [u8_to_u32_loop, if_pos hlt, e, next_u8_to_u32_append c hc]
    have e2 : pre.length + (utf8_of (c :: S)).length
        = (pre ++ append_u32_to_u8 c []).length + (utf8_of S).length := by
      simp [utf8_of]; omega
    have e3 : pre.length + code_point_size_u8 c = (pre ++ append_u32_to_u8 c []).length := by
      simp [append_u32_to_u8_length]
    simp only []
    rw [e2, e3, ih (fun x hx => hS x (by simp [hx])) _ _ f (by simp at hf; omega)]
    simp

/-! ## UTF-16 -/

theorem k_surrogate_offset_eq : detail.k_surrogate_offset = 4238353408 := by decide

theorem k_lead_offset_eq : detail.k_lead_offset = 0xD7C0 := by decide

theorem is_high_surrogate_iff (u : Nat) (hu : u < 65536) :
    detail.is_high_surrogate u = true ↔ 0xD800 ≤ u ∧ u ≤ 0xDBFF := by
  unfold detail.is_high_surrogate detail.cast_16 detail.k_lead_surrogate_min
  rw [Nat.mod_eq_of_lt hu, and_FFFFFC00 u (by omega), beq_iff_eq]
  omega

theorem is_low_surrogate_iff (u : Nat) (hu : u < 65536) :
    detail.is_low_surrogate u = true ↔ 0xDC00 ≤ u ∧ u ≤ 0xDFFF := by
  unfold detail.is_low_surrogate detail.cast_16 detail.k_trail_surrogate_min
  rw [Nat.mod_eq_of_lt hu, and_FFFFFC00 u (by omega), beq_iff_eq]
  omega

/-- The units `u32_to_u16` writes for a code point, by range. -/
theorem u32_to_u16_units_bmp (cp : Nat) (h : cp ≤ 0xFFFF) (hs : ¬ (0xD800 ≤ cp ∧ cp ≤ 0xDFFF)) :
    u32_to_u16_units cp = [cp] := by
  have h32 : to_u32 cp = cp := Nat.mod_eq_of_lt (by omega)
  have h16 : detail.cast_16 cp = cp := Nat.mod_eq_of_lt (by omega)
  unfold u32_to_u16_units
  simp only [h32, h16]
  rw [if_pos h, if_neg (by omega)]

theorem u32_to_u16_units_pair (cp : Nat) (h1 : 0x10000 ≤ cp) (h2 : cp ≤ 0x10FFFF) :
    u32_to_u16_units cp = [(cp - 0x10000) / 1024 + 0xD800, (cp - 0x10000) % 1024 + 0xDC00] := by
  have h32 : to_u32 cp = cp := Nat.mod_eq_of_lt (by omega)
  unfold u32_to_u16_units
  simp only [h32]
  rw [if_neg (by omega), if_neg (by omega)]
  simp only [Nat.shiftRight_eq_div_pow, and_3FF, detail.cast_16]
  rw [Nat.mod_eq_of_lt (by omega), Nat.mod_eq_of_lt (by omega)]

theorem u32_to_u16_units_subst (cp : Nat) (h : (0xD800 ≤ to_u32 cp ∧ to_u32 cp ≤ 0xDFFF) ∨ 0x10FFFF < to_u32 cp) :
    u32_to_u16_units cp = [0xFFFD] := by
  unfold u32_to_u16_units
  simp only []
  rcases h with h | h
  · rw [if_pos (by omega), if_pos (by omega)]
  · rw [if_neg (by omega), if_pos (by omega)]
    rfl

theorem next_u16_units (cp : Nat) (hcp : cp ≤ 0x10FFFF) (hs : ¬ (0xD800 ≤ cp ∧ cp ≤ 0xDFFF))
    (pre post : List Nat) :
    next_u16 (pre ++ u32_to_u16_units cp ++ post) pre.length
      = .ret (cp, pre.length + (u32_to_u16_units cp).length) := by
  have hidx := getElem?_mid pre (u32_to_u16_units cp) post
  have h0 := hidx 0
  have h1 := hidx 1
  clear hidx
  unfold next_u16
  by_cases hb : cp ≤ 0xFFFF
  · rw [u32_to_u16_units_bmp cp hb hs] at h0 h1 ⊢
    have h16 : detail.cast_16 cp = cp := Nat.mod_eq_of_lt (by omega)
    have hh : detail.is_high_surrogate cp = false := by
      rw [Bool.eq_false_iff, Ne, is_high_surrogate_iff cp (by omega)]
      omega
    simp only [Nat.add_zero] at h0
    rw [h0 (by simp)]
    simp [h16, hh]
  · rw [u32_to_u16_units_pair cp (by omega) hcp] at h0 h1 ⊢
    have hlt : (cp - 0x10000) / 1024 + 0xD800 < 65536 := by omega
    have h16 : detail.cast_16 ((cp - 0x10000) / 1024 + 0xD800) = (cp - 0x10000) / 1024 + 0xD800 :=
      Nat.mod_eq_of_lt hlt
    have h16l : detail.cast_16 ((cp - 0x10000) % 1024 + 0xDC00) = (cp - 0x10000) % 1024 + 0xDC00 :=
      Nat.mod_eq_of_lt (by omega)
    have hh : detail.is_high_surrogate ((cp - 0x10000) / 1024 + 0xD800) = true := by
      rw [is_high_surrogate_iff _ hlt]
      omega
    simp only [Nat.add_zero] at h0
    rw [h0 (by simp), h1 (by simp)]
    simp only [List.getElem?_cons_zero, List.getElem?_cons_succ, h16, h16l, hh, if_true,
      k_surrogate_offset_eq, Nat.shiftLeft_eq, to_u32, List.length_cons, List.length_nil]
    have hv : (((cp - 65536) / 1024 + 55296) * 2 ^ 10 + ((cp - 65536) % 1024 + 56320)
        + 4238353408) % 4294967296 = cp := by omega
    rw [hv]

theorem u32_to_u16_units_length_pos (c : Nat) : 0 < (u32_to_u16_units c).length := by
  unfold u32_to_u16_units
  simp only []
  split_ifs <;> simp

theorem length_le_utf16_of (S : List Nat) : S.length ≤ (utf16_of S).length := by
  induction S with
  | nil => simp [utf16_of]
  | cons c S ih =>
    have := u32_to_u16_units_length_pos c
    simp [utf16_of]
    omega

theorem u16_to_u32_loop_utf16_of (S : List Nat)
    (hS : ∀ cp ∈ S, cp ≤ 0x10FFFF ∧ ¬ (0xD800 ≤ cp ∧ cp ≤ 0xDFFF)) :
    ∀ (pre out : List Nat) (fuel : Nat), S.length ≤ fuel →
    u16_to_u32_loop (pre ++ utf16_of S) (pre.length + (utf16_of S).length) fuel pre.length out
      = .ret (out ++ S) := by
  induction S with
  | nil =>
    intro pre out fuel _
    cases fuel <;> simp [u16_to_u32_loop, utf16_of]
  | cons c S ih =>
    intro pre out fuel hf
    obtain ⟨f, rfl⟩ : ∃ f, fuel = f + 1 := ⟨fuel - 1, by simp at hf; omega⟩
    obtain ⟨hc1, hc2⟩ := hS c (by simp)
    have hpos := u32_to_u16_units_length_pos c
    have hlen : (utf16_of (c :: S)).length
        = (u32_to_u16_units c).length + (utf16_of S).length := by
      simp [utf16_of]
    have hne : pre.length ≠ pre.length + (utf16_of (c :: S)).length := by omega
    have e : pre ++ utf16_of (c :: S) = pre ++ u32_to_u16_units c ++ utf16_of S := by
      simp [utf16_of]
    rw [u16_to_u32_loop, if_pos hne, e, next_u16_units c hc1 hc2]
    have e2 : pre.length + (utf16_of (c :: S)).length
        = (pre ++ u32_to_u16_units c).length + (utf16_of S).length := by
      simp [utf16_of]; omega
    have e3 : pre.length + (u32_to_u16_units c).length = (pre ++ u32_to_u16_units c).length := by
      simp
    simp only []
    rw [e2, e3, ih (fun x hx => hS x (by simp [hx])) _ _ f (by simp at hf; omega)]
    simp


/-! ## Well-formed UTF-8 input and the length pre-computations -/

theorem sequence_length_le (b : Nat) : detail.sequence_length b ≤ 4 := by
  unfold detail.sequence_length
  simp only []
  split_ifs <;> omega

/-- On a complete sequence (a lead byte followed by as many bytes as its sequence length asks
for) `next_u8_to_u32` returns and moves the iterator to the end of the sequence. -/
theorem next_u8_to_u32_complete (lead : Nat) (trail : List Nat)
    (hlen : detail.sequence_length lead = trail.length + 1) (pre post : List Nat) :
    ∃ cp, next_u8_to_u32 (pre ++ (lead :: trail) ++ post) pre.length
      = .ret (cp, pre.length + (trail.length + 1)) := by
  have hle := sequence_length_le lead
  have hidx := getElem?_mid pre (lead :: trail) post
  have h0 := hidx 0
  have h1 := hidx 1
  have h2 := hidx 2
  have h3 := hidx 3
  clear hidx
  simp only [Nat.add_zero] at h0
  unfold next_u8_to_u32
  rw [h0 (by simp)]
  match trail, hlen, h1, h2, h3 with
  | [], hlen, _, _, _ => simp [hlen]
  | [a], hlen, h1, _, _ =>
    rw [h1 (by simp)]
    simp [hlen]
  | [a, b], hlen, h1, h2, _ =>
    rw [h1 (by simp), h2 (by simp)]
    simp [hlen]
  | [a, b, c], hlen, h1, h2, h3 =>
    rw [h1 (by simp), h2 (by simp), h3 (by simp)]
    simp [hlen]
  | _ :: _ :: _ :: _ :: _, hlen, _, _, _ =>
    simp at hlen
    omega

/-- When `next_u8_to_u32` returns, it has read the byte at `it` and advanced by its sequence
length, or by one when that length is 0. -/
theorem next_u8_to_u32_advance (mem : List Nat) (it cp it' : Nat)
    (h : next_u8_to_u32 mem it = .ret (cp, it')) :
    ∃ b, mem[it]? = some b ∧ it' = it + max 1 (detail.sequence_length b) := by
  unfold next_u8_to_u32 at h
  cases hb : mem[it]? with
  | none => simp [hb] at h
  | some b =>
    refine ⟨b, rfl, ?_⟩
    simp only [hb] at h
    have hle := sequence_length_le b
    split at h
    · next h1 => simp at h; omega
    · next h2 =>
      split at h
      · simp at h; omega
      · simp at h
    · next h3 =>
      split at h
      · simp at h; omega
      · simp at h
    · next h4 =>
      split at h
      · simp at h; omega
      · simp at h
    · next n1 n2 n3 n4 =>
      simp at h
      have e1 : ¬ detail.sequence_length b = 1 := n1
      have e2 : ¬ detail.sequence_length b = 2 := n2
      have e3 : ¬ detail.sequence_length b = 3 := n3
      have e4 : ¬ detail.sequence_length b = 4 := n4
      have : detail.sequence_length b = 0 := by omega
      omega

/-- One iteration of the loop of `u8_to_u32_length`: it reads the byte at `start` only and
advances by its sequence length, or by one when that length is 0. -/
theorem u8_to_u32_length_loop_succ (mem : List Nat) (end_ fuel start count b : Nat)
    (hlt : start < end_) (hb : mem[start]? = some b) :
    u8_to_u32_length_loop mem end_ (fuel + 1) start count
      = u8_to_u32_length_loop mem end_ fuel (start + max 1 (detail.sequence_length b))
          (count + 1) := by
  have hle := sequence_length_le b
  rw [u8_to_u32_length_loop, if_pos hlt, hb]
  simp only []
  congr 1
  split
  · next h => rw [h]; rfl
  · next h => rw [h]; rfl
  · next h => rw [h]; rfl
  · next h => rw [h]; rfl
  · next n1 n2 n3 n4 =>
    have e1 : ¬ detail.sequence_length b = 1 := n1
    have e2 : ¬ detail.sequence_length b = 2 := n2
    have e3 : ¬ detail.sequence_length b = 3 := n3
    have e4 : ¬ detail.sequence_length b = 4 := n4
    have : detail.sequence_length b = 0 := by omega
    rw [this]; rfl

/-- Whenever `u8_to_u32` returns, `u8_to_u32_length` returns the number of units written. -/
theorem u8_to_u32_length_loop_agrees (mem : List Nat) (end_ : Nat) :
    ∀ (fuel start count : Nat) (out out' : List Nat),
    u8_to_u32_loop mem end_ fuel start out = .ret out' →
    out.length ≤ out'.length ∧
      u8_to_u32_length_loop mem end_ fuel start count
        = .ret (count + (out'.length - out.length)) := by
  intro fuel
  induction fuel with
  | zero =>
    intro start count out out' h
    unfold u8_to_u32_loop at h
    unfold u8_to_u32_length_loop
    split_ifs at h ⊢ with hlt
    simp only [Outcome.ret.injEq] at h
    subst h
    simp
  | succ f ih =>
    intro start count out out' h
    rw [u8_to_u32_loop] at h
    by_cases hlt : start < end_
    · rw [if_pos hlt] at h
      cases hn : next_u8_to_u32 mem start with
      | ret p =>
        obtain ⟨cp, start'⟩ := p
        obtain ⟨b, hb, hs⟩ := next_u8_to_u32_advance mem start cp start' hn
        simp only [hn] at h
        obtain ⟨h1, h2⟩ := ih start' (count + 1) _ _ h
        rw [u8_to_u32_length_loop_succ mem end_ f start count b hlt hb, ← hs, h2]
        simp at h1
        refine ⟨by omega, ?_⟩
        congr 1
        simp
        omega
      | fault => simp [hn] at h
      | timeout => simp [hn] at h
    · rw [if_neg hlt] at h
      simp only [Outcome.ret.injEq] at h
      subst h
      rw [u8_to_u32_length_loop, if_neg hlt]
      simp

/-- Whenever `u8_to_u16` returns, `u8_to_u16_length` returns the number of units written. -/
theorem u8_to_u16_length_loop_agrees (mem : List Nat) (end_ : Nat) :
    ∀ (fuel start count : Nat) (out out' : List Nat),
    u8_to_u16_loop mem end_ fuel start out = .ret out' →
    out.length ≤ out'.length ∧
      u8_to_u16_length_loop mem end_ fuel start count
        = .ret (count + (out'.length - out.length)) := by
  intro fuel
  induction fuel with
  | zero =>
    intro start count out out' h
    unfold u8_to_u16_loop at h
    unfold u8_to_u16_length_loop
    split_ifs at h ⊢ with hlt
    simp only [Outcome.ret.injEq] at h
    subst h
    simp
  | succ f ih =>
    intro start count out out' h
    rw [u8_to_u16_loop] at h
    by_cases hlt : start < end_
    · rw [if_pos hlt] at h
      rw [u8_to_u16_length_loop, if_pos hlt]
      cases hn : next_u8_to_u32 mem start with
      | ret p =>
        obtain ⟨cp, start'⟩ := p
        simp only [hn] at h ⊢
        by_cases hc : cp > 0xFFFF
        · rw [if_pos hc] at h
          obtain ⟨h1, h2⟩ := ih start' (count + 2) _ _ h
          rw [if_pos hc, h2]
          simp at h1
          refine ⟨by omega, ?_⟩
          congr 1
          simp
          omega
        · rw [if_neg hc] at h
          obtain ⟨h1, h2⟩ := ih start' (count + 1) _ _ h
          rw [if_neg hc, h2]
          simp at h1
          refine ⟨by omega, ?_⟩
          congr 1
          simp
          omega
      | fault => simp [hn] at h
      | timeout => simp [hn] at h
    · rw [if_neg hlt] at h
      simp only [Outcome.ret.injEq] at h
      subst h
      rw [u8_to_u16_length_loop, if_neg hlt]
      simp


/-- On well-formed input the loop of `u8_to_u32` returns. -/
theorem u8_to_u32_loop_returns {B : List Nat} (h : WellFormedU8 B) :
    ∀ (pre out : List Nat) (fuel : Nat), B.length ≤ fuel →
    ∃ out', u8_to_u32_loop (pre ++ B) (pre.length + B.length) fuel pre.length out
      = .ret out' := by
  induction h with
  | nil =>
    intro pre out fuel _
    cases fuel <;> simp [u8_to_u32_loop]
  | seq lead trail rest hlen _ _ ih =>
    intro pre out fuel hf
    obtain ⟨f, rfl⟩ : ∃ f, fuel = f + 1 := ⟨fuel - 1, by simp at hf; omega⟩
    obtain ⟨cp, hcp⟩ := next_u8_to_u32_complete lead trail hlen pre rest
    have e : pre ++ (lead :: trail ++ rest) = pre ++ (lead :: trail) ++ rest := by simp
    have hlt : pre.length < pre.length + (lead :: trail ++ rest).length := by simp
    have e2 : pre.length + (lead :: trail ++ rest).length
        = (pre ++ (lead :: trail)).length + rest.length := by
      simp; omega
    have e3 : pre.length + (trail.length + 1) = (pre ++ (lead :: trail)).length := by simp
    rw [u8_to_u32_loop, if_pos hlt, e, hcp]
    simp only []
    rw [e2, e3]
    exact ih _ _ f (by simp at hf; omega)

/-- On well-formed input the loop of `u8_to_u16` returns. -/
theorem u8_to_u16_loop_returns {B : List Nat} (h : WellFormedU8 B) :
    ∀ (pre out : List Nat) (fuel : Nat), B.length ≤ fuel →
    ∃ out', u8_to_u16_loop (pre ++ B) (pre.length + B.length) fuel pre.length out
      = .ret out' := by
  induction h with
  | nil =>
    intro pre out fuel _
    cases fuel <;> simp [u8_to_u16_loop]
  | seq lead trail rest hlen _ _ ih =>
    intro pre out fuel hf
    obtain ⟨f, rfl⟩ : ∃ f, fuel = f + 1 := ⟨fuel - 1, by simp at hf; omega⟩
    obtain ⟨cp, hcp⟩ := next_u8_to_u32_complete lead trail hlen pre rest
    have e : pre ++ (lead :: trail ++ rest) = pre ++ (lead :: trail) ++ rest := by simp
    have hlt : pre.length < pre.length + (lead :: trail ++ rest).length := by simp
    have e2 : pre.length + (lead :: trail ++ rest).length
        = (pre ++ (lead :: trail)).length + rest.length := by
      simp; omega
    have e3 : pre.length + (trail.length + 1) = (pre ++ (lead :: trail)).length := by simp
    rw [u8_to_u16_loop, if_pos hlt, e, hcp]
    simp only []
    rw [e2, e3]
    split_ifs
    · exact ih _ _ f (by simp at hf; omega)
    · exact ih _ _ f (by simp at hf; omega)

/-- Every encoder output is structurally well-formed. -/
theorem wellFormedU8_utf8_of (S : List Nat) (hS : ∀ c ∈ S, c < 0x200000) :
    WellFormedU8 (utf8_of S) := by
  induction S with
  | nil => exact WellFormedU8.nil
  | cons c S ih =>
    have hc : c < 0x200000 := hS c (by simp)
    have h32 : to_u32 c = c := Nat.mod_eq_of_lt (by omega)
    have hrest := ih (fun x hx => hS x (by simp [hx]))
    unfold utf8_of append_u32_to_u8
    simp only [h32, List.nil_append]
    by_cases c1 : c < 0x80
    · rw [if_pos c1]
      exact WellFormedU8.seq _ [] _ (by simpa using (lead1_facts c c1).1) (by simp) hrest
    · by_cases c2 : c < 0x800
      · rw [if_neg c1, if_pos c2]
        have ha : c >>> 6 < 32 := by rw [Nat.shiftRight_eq_div_pow]; omega
        have hb : c &&& 0x3F < 64 := by rw [and_3F]; omega
        exact WellFormedU8.seq _ [_] _ (by simpa using (lead2_facts _ ha).1)
          (by simpa using (trail_facts _ hb).1) hrest
      · by_cases c3 : c < 0x10000
        · rw [if_neg c1, if_neg c2, if_pos c3]
          have ha : c >>> 12 < 16 := by rw [Nat.shiftRight_eq_div_pow]; omega
          have hb : (c >>> 6) &&& 0x3F < 64 := by rw [and_3F]; omega
          have hd : c &&& 0x3F < 64 := by rw [and_3F]; omega
          exact WellFormedU8.seq _ [_, _] _ (by simpa using (lead3_facts _ ha).1)
            (by simpa using ⟨(trail_facts _ hb).1, (trail_facts _ hd).1⟩) hrest
        · rw [if_neg c1, if_neg c2, if_neg c3]
          have ha : c >>> 18 < 8 := by rw [Nat.shiftRight_eq_div_pow]; omega
          have hb : (c >>> 12) &&& 0x3F < 64 := by rw [and_3F]; omega
          have hd : (c >>> 6) &&& 0x3F < 64 := by rw [and_3F]; omega
          have he : c &&& 0x3F < 64 := by rw [and_3F]; omega
          exact WellFormedU8.seq _ [_, _, _] _ (by simpa using (lead4_facts _ ha).1)
            (by simpa using ⟨(trail_facts _ hb).1, (trail_facts _ hd).1, (trail_facts _ he).1⟩)
            hrest

/-! ## Well-formed UTF-16 input and the length pre-computations -/

theorem is_high_surrogate_cast_16 (u : Nat) :
    detail.is_high_surrogate (detail.cast_16 u) = detail.is_high_surrogate u := by
  unfold detail.is_high_surrogate detail.cast_16
  rw [Nat.mod_mod]

/-- At a unit that is not a high surrogate `next_u16` returns the unit and advances by one. -/
theorem next_u16_single (u : Nat) (hu : detail.is_high_surrogate u = false)
    (pre rest : List Nat) :
    next_u16 (pre ++ u :: rest) pre.length = .ret (detail.cast_16 u, pre.length + 1) := by
  unfold next_u16
  rw [getElem?_at_length]
  simp [is_high_surrogate_cast_16, hu]

/-- At a high surrogate followed by another unit `next_u16` returns and advances by two. -/
theorem next_u16_pair (h l : Nat) (hh : detail.is_high_surrogate h = true)
    (pre rest : List Nat) :
    ∃ cp, next_u16 (pre ++ h :: l :: rest) pre.length = .ret (cp, pre.length + 2) := by
  have h1 := getElem?_mid pre [h, l] rest 1 (by simp)
  have e : pre ++ h :: l :: rest = pre ++ [h, l] ++ rest := by simp
  unfold next_u16
  rw [getElem?_at_length, e, h1]
  simp [is_high_surrogate_cast_16, hh]

/-- On well-formed input the loop of `u16_to_u8` returns. -/
theorem u16_to_u8_loop_returns {B : List Nat} (h : WellFormedU16 B) :
    ∀ (pre out : List Nat) (fuel : Nat), B.length ≤ fuel →
    ∃ out', u16_to_u8_loop (pre ++ B) (pre.length + B.length) fuel pre.length out
      = .ret out' := by
  induction h with
  | nil =>
    intro pre out fuel _
    cases fuel <;> simp [u16_to_u8_loop]
  | single u rest hu _ ih =>
    intro pre out fuel hf
    obtain ⟨f, rfl⟩ : ∃ f, fuel = f + 1 := ⟨fuel - 1, by simp at hf; omega⟩
    have hne : pre.length ≠ pre.length + (u :: rest).length := by simp
    have e : pre ++ u :: rest = (pre ++ [u]) ++ rest := by simp
    have e2 : pre.length + (u :: rest).length = (pre ++ [u]).length + rest.length := by
      simp; omega
    have e3 : pre.length + 1 = (pre ++ [u]).length := by simp
    rw [u16_to_u8_loop, if_pos hne, next_u16_single u hu]
    simp only []
    rw [e, e2, e3]
    exact ih _ _ f (by simp at hf; omega)
  | pair h l rest hh _ _ ih =>
    intro pre out fuel hf
    obtain ⟨f, rfl⟩ : ∃ f, fuel = f + 1 := ⟨fuel - 1, by simp at hf; omega⟩
    obtain ⟨cp, hcp⟩ := next_u16_pair h l hh pre rest
    have hne : pre.length ≠ pre.length + (h :: l :: rest).length := by simp
    have e : pre ++ h :: l :: rest = (pre ++ [h, l]) ++ rest := by simp
    have e2 : pre.length + (h :: l :: rest).length = (pre ++ [h, l]).length + rest.length := by
      simp; omega
    have e3 : pre.length + 2 = (pre ++ [h, l]).length := by simp
    rw [u16_to_u8_loop, if_pos hne, hcp]
    simp only []
    rw [e, e2, e3]
    exact ih _ _ f (by simp at hf; omega)

/-- On well-formed input the loop of `u16_to_u32` returns. -/
theorem u16_to_u32_loop_returns {B : List Nat} (h : WellFormedU16 B) :
    ∀ (pre out : List Nat) (fuel : Nat), B.length ≤ fuel →
    ∃ out', u16_to_u32_loop (pre ++ B) (pre.length + B.length) fuel pre.length out
      = .ret out' := by
  induction h with
  | nil =>
    intro pre out fuel _
    cases fuel <;> simp [u16_to_u32_loop]
  | single u rest hu _ ih =>
    intro pre out fuel hf
    obtain ⟨f, rfl⟩ : ∃ f, fuel = f + 1 := ⟨fuel - 1, by simp at hf; omega⟩
    have hne : pre.length ≠ pre.length + (u :: rest).length := by simp
    have e : pre ++ u :: rest = (pre ++ [u]) ++ rest := by simp
    have e2 : pre.length + (u :: rest).length = (pre ++ [u]).length + rest.length := by
      simp; omega
    have e3 : pre.length + 1 = (pre ++ [u]).length := by simp
    rw [u16_to_u32_loop, if_pos hne, next_u16_single u hu]
    simp only []
    rw [e, e2, e3]
    exact ih _ _ f (by simp at hf; omega)
  | pair h l rest hh _ _ ih =>
    intro pre out fuel hf
    obtain ⟨f, rfl⟩ : ∃ f, fuel = f + 1 := ⟨fuel - 1, by simp at hf; omega⟩
    obtain ⟨cp, hcp⟩ := next_u16_pair h l hh pre rest
    have hne : pre.length ≠ pre.length + (h :: l :: rest).length := by simp
    have e : pre ++ h :: l :: rest = (pre ++ [h, l]) ++ rest := by simp
    have e2 : pre.length + (h :: l :: rest).length = (pre ++ [h, l]).length + rest.length := by
      simp; omega
    have e3 : pre.length + 2 = (pre ++ [h, l]).length := by simp
    rw [u16_to_u32_loop, if_pos hne, hcp]
    simp only []
    rw [e, e2, e3]
    exact ih _ _ f (by simp at hf; omega)

/-- Whenever `u16_to_u8` returns, `u16_to_u8_length` returns the number of bytes written. -/
theorem u16_to_u8_length_loop_agrees (mem : List Nat) (end_ : Nat) :
    ∀ (fuel start count : Nat) (out out' : List Nat),
    u16_to_u8_loop mem end_ fuel start out = .ret out' →
    out.length ≤ out'.length ∧
      u16_to_u8_length_loop mem end_ fuel start count
        = .ret (count + (out'.length - out.length)) := by
  intro fuel
  induction fuel with
  | zero =>
    intro start count out out' h
    unfold u16_to_u8_loop at h
    unfold u16_to_u8_length_loop
    split_ifs at h ⊢ with hne
    simp only [Outcome.ret.injEq] at h
    subst h
    simp
  | succ f ih =>
    intro start count out out' h
    rw [u16_to_u8_loop] at h
    by_cases hne : start ≠ end_
    · rw [if_pos hne] at h
      rw [u16_to_u8_length_loop, if_pos hne]
      cases hn : next_u16 mem start with
      | ret p =>
        obtain ⟨cp, start'⟩ := p
        simp only [hn] at h ⊢
        obtain ⟨h1, h2⟩ := ih start' (count + code_point_size_u8 cp) _ _ h
        rw [h2]
        rw [append_u32_to_u8_eq, List.length_append, append_u32_to_u8_length] at h1 ⊢
        refine ⟨by omega, ?_⟩
        congr 1
        omega
      | fault => simp [hn] at h
      | timeout => simp [hn] at h
    · rw [if_neg hne] at h
      simp only [Outcome.ret.injEq] at h
      subst h
      rw [u16_to_u8_length_loop, if_neg hne]
      simp

/-- Whenever `u16_to_u32` returns, `u16_to_u32_length` returns the number of units written. -/
theorem u16_to_u32_length_loop_agrees (mem : List Nat) (end_ : Nat) :
    ∀ (fuel start count : Nat) (out out' : List Nat),
    u16_to_u32_loop mem end_ fuel start out = .ret out' →
    out.length ≤ out'.length ∧
      u16_to_u32_length_loop mem end_ fuel start count
        = .ret (count + (out'.length - out.length)) := by
  intro fuel
  induction fuel with
  | zero =>
    intro start count out out' h
    unfold u16_to_u32_loop at h
    unfold u16_to_u32_length_loop
    split_ifs at h ⊢ with hne
    simp only [Outcome.ret.injEq] at h
    subst h
    simp
  | succ f ih =>
    intro start count out out' h
    rw [u16_to_u32_loop] at h
    by_cases hne : start ≠ end_
    · rw [if_pos hne] at h
      rw [u16_to_u32_length_loop, if_pos hne]
      cases hn : next_u16 mem start with
      | ret p =>
        obtain ⟨cp, start'⟩ := p
        simp only [hn] at h ⊢
        obtain ⟨h1, h2⟩ := ih start' (count + 1) _ _ h
        rw [h2]
        rw [List.length_append, List.length_singleton] at h1 ⊢
        refine ⟨by omega, ?_⟩
        congr 1
        omega
      | fault => simp [hn] at h
      | timeout => simp [hn] at h
    · rw [if_neg hne] at h
      simp only [Outcome.ret.injEq] at h
      subst h
      rw [u16_to_u32_length_loop, if_neg hne]
      simp

/-! ## UTF-32 input and the length pre-computations -/

theorem utf8_of_length (S : List Nat) :
    (utf8_of S).length = (S.map code_point_size_u8).sum := by
  induction S with
  | nil => rfl
  | cons c S ih => simp [utf8_of, append_u32_to_u8_length, ih]

theorem u32_to_u8_length_loop_run (S : List Nat) : ∀ (pre : List Nat) (count fuel : Nat),
    S.length ≤ fuel →
    u32_to_u8_length_loop (pre ++ S) (pre.length + S.length) fuel pre.length count
      = .ret (count + (S.map code_point_size_u8).sum) := by
  induction S with
  | nil =>
    intro pre count fuel _
    cases fuel <;> simp [u32_to_u8_length_loop]
  | cons c S ih =>
    intro pre count fuel hf
    obtain ⟨f, rfl⟩ : ∃ f, fuel = f + 1 := ⟨fuel - 1, by simp at hf; omega⟩
    have hne : pre.length ≠ pre.length + (c :: S).length := by simp
    rw [u32_to_u8_length_loop, if_pos hne, getElem?_at_length]
    have e : pre ++ c :: S = (pre ++ [c]) ++ S := by simp
    have e2 : pre.length + (c :: S).length = (pre ++ [c]).length + S.length := by
      simp; omega
    have e3 : pre.length + 1 = (pre ++ [c]).length := by simp
    simp only []
    rw [e, e2, e3, ih _ _ f (by simp at hf; omega)]
    simp [Nat.add_assoc]

/-- The number of units the body of `u32_to_u16` writes is the increment of
`u32_to_u16_length`. -/
theorem u32_to_u16_units_length (c : Nat) :
    (u32_to_u16_units c).length
      = if to_u32 c ≤ 0x0000FFFF ∨ to_u32 c > 0x0010FFFF then 1 else 2 := by
  unfold u32_to_u16_units
  simp only []
  split_ifs <;> first | rfl | omega

theorem u32_to_u16_length_loop_run (S : List Nat) : ∀ (pre : List Nat) (count fuel : Nat),
    S.length ≤ fuel →
    u32_to_u16_length_loop (pre ++ S) (pre.length + S.length) fuel pre.length count
      = .ret (count + (utf16_of S).length) := by
  induction S with
  | nil =>
    intro pre count fuel _
    cases fuel <;> simp [u32_to_u16_length_loop, utf16_of]
  | cons c S ih =>
    intro pre count fuel hf
    obtain ⟨f, rfl⟩ : ∃ f, fuel = f + 1 := ⟨fuel - 1, by simp at hf; omega⟩
    have hne : pre.length ≠ pre.length + (c :: S).length := by simp
    rw [u32_to_u16_length_loop, if_pos hne, getElem?_at_length]
    have e : pre ++ c :: S = (pre ++ [c]) ++ S := by simp
    have e2 : pre.length + (c :: S).length = (pre ++ [c]).length + S.length := by
      simp; omega
    have e3 : pre.length + 1 = (pre ++ [c]).length := by simp
    simp only []
    rw [e, e2, e3, ih _ _ f (by simp at hf; omega), ← u32_to_u16_units_length]
    simp [utf16_of, Nat.add_assoc]

/-! ## The count routine on a malformed lead byte -/

/-- Once the index of `u8_length` stands on a byte of sequence length 0 inside the buffer, the
loop adds 0 to the index on every iteration: whatever the budget, the loop is still running
when the budget is used up. -/
theorem u8_length_loop_stuck_at (str : List Nat) (size i c : Nat) (hi : i < size)
    (hc : str[i]? = some c) (h0 : detail.sequence_length c = 0) :
    ∀ (fuel dist : Nat), u8_length_loop str size fuel i dist = .timeout := by
  intro fuel
  induction fuel with
  | zero =>
    intro dist
    rw [u8_length_loop, if_pos hi]
  | succ f ih =>
    intro dist
    rw [u8_length_loop, if_pos hi, hc]
    simp only [h0, Nat.add_zero]
    exact ih (dist + 1)

/-! ## The iteration budget `mem.length + 1` is never used up

Every iteration of these loops reads the unit at `start` and then moves `start` forward, so
after at most `mem.length` iterations the loop has returned or has read outside the buffer. -/

theorem next_u8_to_u32_ne_timeout (mem : List Nat) (it : Nat) :
    next_u8_to_u32 mem it ≠ .timeout := by
  unfold next_u8_to_u32
  intro h
  split at h
  · simp at h
  · split at h
    · simp at h
    · split at h <;> simp at h
    · split at h <;> simp at h
    · split at h <;> simp at h
    · simp at h

theorem next_u16_ne_timeout (mem : List Nat) (start : Nat) :
    next_u16 mem start ≠ .timeout := by
  unfold next_u16
  intro h
  cases hb : mem[start]? with
  | none => simp [hb] at h
  | some u =>
    simp only [hb] at h
    by_cases hh : detail.is_high_surrogate (detail.cast_16 u) = true
    · rw [if_pos hh] at h
      cases hl : mem[start + 1]? with
      | none => simp [hl] at h
      | some l => simp [hl] at h
    · rw [if_neg hh] at h
      simp at h

/-- When `next_u16` returns, it has read the unit at `start` and advanced. -/
theorem next_u16_advance (mem : List Nat) (start cp start' : Nat)
    (h : next_u16 mem start = .ret (cp, start')) :
    start < mem.length ∧ start < start' := by
  unfold next_u16 at h
  cases hb : mem[start]? with
  | none => simp [hb] at h
  | some u =>
    have hlt : start < mem.length := by
      by_contra hge
      rw [List.getElem?_eq_none (by omega)] at hb
      simp at hb
    refine ⟨hlt, ?_⟩
    simp only [hb] at h
    split at h
    · split at h
      · simp at h
      · simp at h; omega
    · simp at h; omega

theorem lt_length_of_getElem?_eq_some {mem : List Nat} {i b : Nat} (h : mem[i]? = some b) :
    i < mem.length := by
  by_contra hge
  rw [List.getElem?_eq_none (by omega)] at h
  simp at h

theorem u8_to_u32_loop_ne_timeout (mem : List Nat) (end_ : Nat) :
    ∀ (fuel start : Nat) (out : List Nat), 1 ≤ fuel → mem.length + 1 ≤ fuel + start →
    u8_to_u32_loop mem end_ fuel start out ≠ .timeout := by
  intro fuel
  induction fuel with
  | zero => intro start out h1; omega
  | succ f ih =>
    intro start out _ h2
    rw [u8_to_u32_loop]
    split_ifs with hc
    · cases hn : next_u8_to_u32 mem start with
      | ret p =>
        obtain ⟨cp, start'⟩ := p
        obtain ⟨b, hb, hs⟩ := next_u8_to_u32_advance mem start cp start' hn
        have hlt := lt_length_of_getElem?_eq_some hb
        exact ih start' _ (by omega) (by omega)
      | fault => simp
      | timeout => exact absurd hn (next_u8_to_u32_ne_timeout mem start)
    · simp

theorem u8_to_u16_loop_ne_timeout (mem : List Nat) (end_ : Nat) :
    ∀ (fuel start : Nat) (out : List Nat), 1 ≤ fuel → mem.length + 1 ≤ fuel + start →
    u8_to_u16_loop mem end_ fuel start out ≠ .timeout := by
  intro fuel
  induction fuel with
  | zero => intro start out h1; omega
  | succ f ih =>
    intro start out _ h2
    rw [u8_to_u16_loop]
    split_ifs with hc
    · cases hn : next_u8_to_u32 mem start with
      | ret p =>
        obtain ⟨cp, start'⟩ := p
        obtain ⟨b, hb, hs⟩ := next_u8_to_u32_advance mem start cp start' hn
        have hlt := lt_length_of_getElem?_eq_some hb
        simp only []
        split_ifs
        · exact ih start' _ (by omega) (by omega)
        · exact ih start' _ (by omega) (by omega)
      | fault => simp
      | timeout => exact absurd hn (next_u8_to_u32_ne_timeout mem start)
    · simp

theorem u8_to_u16_length_loop_ne_timeout (mem : List Nat) (end_ : Nat) :
    ∀ (fuel start count : Nat), 1 ≤ fuel → mem.length + 1 ≤ fuel + start →
    u8_to_u16_length_loop mem end_ fuel start count ≠ .timeout := by
  intro fuel
  induction fuel with
  | zero => intro start count h1; omega
  | succ f ih =>
    intro start count _ h2
    rw [u8_to_u16_length_loop]
    split_ifs with hc
    · cases hn : next_u8_to_u32 mem start with
      | ret p =>
        obtain ⟨cp, start'⟩ := p
        obtain ⟨b, hb, hs⟩ := next_u8_to_u32_advance mem start cp start' hn
        have hlt := lt_length_of_getElem?_eq_some hb
        exact ih start' _ (by omega) (by omega)
      | fault => simp
      | timeout => exact absurd hn (next_u8_to_u32_ne_timeout mem start)
    · simp

theorem u8_to_u32_length_loop_ne_timeout (mem : List Nat) (end_ : Nat) :
    ∀ (fuel start count : Nat), 1 ≤ fuel → mem.length + 1 ≤ fuel + start →
    u8_to_u32_length_loop mem end_ fuel start count ≠ .timeout := by
  intro fuel
  induction fuel with
  | zero => intro start count h1; omega
  | succ f ih =>
    intro start count _ h2
    by_cases hc : start < end_
    · cases hb : mem[start]? with
      | none => rw [u8_to_u32_length_loop, if_pos hc, hb]; simp
      | some b =>
        have hlt := lt_length_of_getElem?_eq_some hb
        rw [u8_to_u32_length_loop_succ mem end_ f start count b hc hb]
        exact ih _ _ (by omega) (by omega)
    · rw [u8_to_u32_length_loop, if_neg hc]; simp

theorem u16_to_u8_loop_ne_timeout (mem : List Nat) (end_ : Nat) :
    ∀ (fuel start : Nat) (out : List Nat), 1 ≤ fuel → mem.length + 1 ≤ fuel + start →
    u16_to_u8_loop mem end_ fuel start out ≠ .timeout := by
  intro fuel
  induction fuel with
  | zero => intro start out h1; omega
  | succ f ih =>
    intro start out _ h2
    rw [u16_to_u8_loop]
    split_ifs with hc
    · cases hn : next_u16 mem start with
      | ret p =>
        obtain ⟨cp, start'⟩ := p
        obtain ⟨hlt, hs⟩ := next_u16_advance mem start cp start' hn
        exact ih start' _ (by omega) (by omega)
      | fault => simp
      | timeout => exact absurd hn (next_u16_ne_timeout mem start)
    · simp

theorem u16_to_u32_loop_ne_timeout (mem : List Nat) (end_ : Nat) :
    ∀ (fuel start : Nat) (out : List Nat), 1 ≤ fuel → mem.length + 1 ≤ fuel + start →
    u16_to_u32_loop mem end_ fuel start out ≠ .timeout := by
  intro fuel
  induction fuel with
  | zero => intro start out h1; omega
  | succ f ih =>
    intro start out _ h2
    rw [u16_to_u32_loop]
    split_ifs with hc
    · cases hn : next_u16 mem start with
      | ret p =>
        obtain ⟨cp, start'⟩ := p
        obtain ⟨hlt, hs⟩ := next_u16_advance mem start cp start' hn
        exact ih start' _ (by omega) (by omega)
      | fault => simp
      | timeout => exact absurd hn (next_u16_ne_timeout mem start)
    · simp

theorem u16_to_u8_length_loop_ne_timeout (mem : List Nat) (end_ : Nat) :
    ∀ (fuel start count : Nat), 1 ≤ fuel → mem.length + 1 ≤ fuel + start →
    u16_to_u8_length_loop mem end_ fuel start count ≠ .timeout := by
  intro fuel
  induction fuel with
  | zero => intro start count h1; omega
  | succ f ih =>
    intro start count _ h2
    rw [u16_to_u8_length_loop]
    split_ifs with hc
    · cases hn : next_u16 mem start with
      | ret p =>
        obtain ⟨cp, start'⟩ := p
        obtain ⟨hlt, hs⟩ := next_u16_advance mem start cp start' hn
        exact ih start' _ (by omega) (by omega)
      | fault => simp
      | timeout => exact absurd hn (next_u16_ne_timeout mem start)
    · simp

theorem u16_to_u32_length_loop_ne_timeout (mem : List Nat) (end_ : Nat) :
    ∀ (fuel start count : Nat), 1 ≤ fuel → mem.length + 1 ≤ fuel + start →
    u16_to_u32_length_loop mem end_ fuel start count ≠ .timeout := by
  intro fuel
  induction fuel with
  | zero => intro start count h1; omega
  | succ f ih =>
    intro start count _ h2
    rw [u16_to_u32_length_loop]
    split_ifs with hc
    · cases hn : next_u16 mem start with
      | ret p =>
        obtain ⟨cp, start'⟩ := p
        obtain ⟨hlt, hs⟩ := next_u16_advance mem start cp start' hn
        exact ih start' _ (by omega) (by omega)
      | fault => simp
      | timeout => exact absurd hn (next_u16_ne_timeout mem start)
    · simp

theorem u32_to_u8_loop_ne_timeout (mem : List Nat) (end_ : Nat) :
    ∀ (fuel start : Nat) (out : List Nat), 1 ≤ fuel → mem.length + 1 ≤ fuel + start →
    u32_to_u8_loop mem end_ fuel start out ≠ .timeout := by
  intro fuel
  induction fuel with
  | zero => intro start out h1; omega
  | succ f ih =>
    intro start out _ h2
    rw [u32_to_u8_loop]
    split_ifs with hc
    · cases hb : mem[start]? with
      | none => simp
      | some c =>
        have hlt := lt_length_of_getElem?_eq_some hb
        exact ih _ _ (by omega) (by omega)
    · simp

theorem u32_to_u16_loop_ne_timeout (mem : List Nat) (end_ : Nat) :
    ∀ (fuel start : Nat) (out : List Nat), 1 ≤ fuel → mem.length + 1 ≤ fuel + start →
    u32_to_u16_loop mem end_ fuel start out ≠ .timeout := by
  intro fuel
  induction fuel with
  | zero => intro start out h1; omega
  | succ f ih =>
    intro start out _ h2
    rw [u32_to_u16_loop]
    split_ifs with hc
    · cases hb : mem[start]? with
      | none => simp
      | some c =>
        have hlt := lt_length_of_getElem?_eq_some hb
        exact ih _ _ (by omega) (by omega)
    · simp

theorem u32_to_u8_length_loop_ne_timeout (mem : List Nat) (end_ : Nat) :
    ∀ (fuel start count : Nat), 1 ≤ fuel → mem.length + 1 ≤ fuel + start →
    u32_to_u8_length_loop mem end_ fuel start count ≠ .timeout := by
  intro fuel
  induction fuel with
  | zero => intro start count h1; omega
  | succ f ih =>
    intro start count _ h2
    rw [u32_to_u8_length_loop]
    split_ifs with hc
    · cases hb : mem[start]? with
      | none => simp
      | some c =>
        have hlt := lt_length_of_getElem?_eq_some hb
        exact ih _ _ (by omega) (by omega)
    · simp

theorem u32_to_u16_length_loop_ne_timeout (mem : List Nat) (end_ : Nat) :
    ∀ (fuel start count : Nat), 1 ≤ fuel → mem.length + 1 ≤ fuel + start →
    u32_to_u16_length_loop mem end_ fuel start count ≠ .timeout := by
  intro fuel
  induction fuel with
  | zero => intro start count h1; omega
  | succ f ih =>
    intro start count _ h2
    rw [u32_to_u16_length_loop]
    split_ifs with hc
    · cases hb : mem[start]? with
      | none => simp
      | some c =>
        have hlt := lt_length_of_getElem?_eq_some hb
        exact ih _ _ (by omega) (by omega)
    · simp

/-- The budget built into the twelve transcoding and length routines is never used up:
each of them returns or reads outside the buffer. -/
theorem budget_suffices (mem : List Nat) (start end_ : Nat) (out : List Nat) :
    u8_to_u16 mem start end_ out ≠ .timeout ∧ u8_to_u32 mem start end_ out ≠ .timeout
    ∧ u16_to_u8 mem start end_ out ≠ .timeout ∧ u16_to_u32 mem start end_ out ≠ .timeout
    ∧ u32_to_u8 mem start end_ out ≠ .timeout ∧ u32_to_u16 mem start end_ out ≠ .timeout
    ∧ u8_to_u16_length mem start end_ ≠ .timeout ∧ u8_to_u32_length mem start end_ ≠ .timeout
    ∧ u16_to_u8_length mem start end_ ≠ .timeout ∧ u16_to_u32_length mem start end_ ≠ .timeout
    ∧ u32_to_u8_length mem start end_ ≠ .timeout
    ∧ u32_to_u16_length mem start end_ ≠ .timeout :=
  ⟨u8_to_u16_loop_ne_timeout mem end_ _ start out (by omega) (by omega),
    u8_to_u32_loop_ne_timeout mem end_ _ start out (by omega) (by omega),
    u16_to_u8_loop_ne_timeout mem end_ _ start out (by omega) (by omega),
    u16_to_u32_loop_ne_timeout mem end_ _ start out (by omega) (by omega),
    u32_to_u8_loop_ne_timeout mem end_ _ start out (by omega) (by omega),
    u32_to_u16_loop_ne_timeout mem end_ _ start out (by omega) (by omega),
    u8_to_u16_length_loop_ne_timeout mem end_ _ start 0 (by omega) (by omega),
    u8_to_u32_length_loop_ne_timeout mem end_ _ start 0 (by omega) (by omega),
    u16_to_u8_length_loop_ne_timeout mem end_ _ start 0 (by omega) (by omega),
    u16_to_u32_length_loop_ne_timeout mem end_ _ start 0 (by omega) (by omega),
    u32_to_u8_length_loop_ne_timeout mem end_ _ start 0 (by omega) (by omega),
    u32_to_u16_length_loop_ne_timeout mem end_ _ start 0 (by omega) (by omega)⟩

/-! ## Forward progress of the UTF-8 length pre-computations -/

/-- At a byte of sequence length 0 `next_u8_to_u32` returns the byte and advances by one. -/
theorem next_u8_to_u32_zero_length (mem : List Nat) (it b : Nat) (hb : mem[it]? = some b)
    (h0 : detail.sequence_length b = 0) :
    next_u8_to_u32 mem it = .ret (detail.cast_8 b, it + 1) := by
  unfold next_u8_to_u32
  rw [hb]
  simp only [h0]

/-- With a budget of one iteration per remaining byte, `u8_to_u32_length` over a buffer that
holds its range returns, and it counts at most one code point per byte. -/
theorem u8_to_u32_length_loop_returns (mem : List Nat) (end_ : Nat) (hend : end_ ≤ mem.length) :
    ∀ (fuel start count : Nat), end_ ≤ fuel + start →
    ∃ c, u8_to_u32_length_loop mem end_ fuel start count = .ret c
      ∧ c ≤ count + (end_ - start) := by
  intro fuel
  induction fuel with
  | zero =>
    intro start count h
    refine ⟨count, ?_, by omega⟩
    rw [u8_to_u32_length_loop, if_neg (by omega)]
  | succ f ih =>
    intro start count h
    by_cases hc : start < end_
    · obtain ⟨b, hb⟩ : ∃ b, mem[start]? = some b :=
        ⟨mem[start], List.getElem?_eq_getElem (by omega)⟩
      rw [u8_to_u32_length_loop_succ mem end_ f start count b hc hb]
      obtain ⟨c, h1, h2⟩ := ih (start + max 1 (detail.sequence_length b)) (count + 1)
        (by omega)
      exact ⟨c, h1, by omega⟩
    · refine ⟨count, ?_, by omega⟩
      rw [u8_to_u32_length_loop, if_neg hc]

/-- With a budget of one iteration per remaining byte, the loop of `u8_to_u16_length` is never
still running when the budget is used up. -/
theorem u8_to_u16_length_loop_within (mem : List Nat) (end_ : Nat) :
    ∀ (fuel start count : Nat), end_ ≤ fuel + start →
    u8_to_u16_length_loop mem end_ fuel start count ≠ .timeout := by
  intro fuel
  induction fuel with
  | zero =>
    intro start count h
    rw [u8_to_u16_length_loop, if_neg (by omega)]
    simp
  | succ f ih =>
    intro start count h
    rw [u8_to_u16_length_loop]
    split_ifs with hc
    · cases hn : next_u8_to_u32 mem start with
      | ret p =>
        obtain ⟨cp, start'⟩ := p
        obtain ⟨b, hb, hs⟩ := next_u8_to_u32_advance mem start cp start' hn
        exact ih start' _ (by omega)
      | fault => simp
      | timeout => exact absurd hn (next_u8_to_u32_ne_timeout mem start)
    · simp

/-- When the three units after `it` can be read, `next_u8_to_u32` returns. -/
theorem next_u8_to_u32_returns (mem : List Nat) (it : Nat) (h : it + 3 < mem.length) :
    ∃ cp it', next_u8_to_u32 mem it = .ret (cp, it') := by
  have h0 : mem[it]? = some mem[it] := List.getElem?_eq_getElem (by omega)
  have h1 : mem[it + 1]? = some mem[it + 1] := List.getElem?_eq_getElem (by omega)
  have h2 : mem[it + 2]? = some mem[it + 2] := List.getElem?_eq_getElem (by omega)
  have h3 : mem[it + 3]? = some mem[it + 3] := List.getElem?_eq_getElem (by omega)
  unfold next_u8_to_u32
  rw [h0, h1, h2, h3]
  simp only []
  split <;> exact ⟨_, _, rfl⟩

/-- With a budget of one iteration per remaining byte, `u8_to_u16_length` returns whenever three
readable units follow the range. -/
theorem u8_to_u16_length_loop_returns_of_room (mem : List Nat) (end_ : Nat)
    (hend : end_ + 3 ≤ mem.length) :
    ∀ (fuel start count : Nat), end_ ≤ fuel + start →
    ∃ c, u8_to_u16_length_loop mem end_ fuel start count = .ret c := by
  intro fuel
  induction fuel with
  | zero =>
    intro start count h
    exact ⟨count, by rw [u8_to_u16_length_loop, if_neg (by omega)]⟩
  | succ f ih =>
    intro start count h
    rw [u8_to_u16_length_loop]
    split_ifs with hc
    · obtain ⟨cp, start', hn⟩ := next_u8_to_u32_returns mem start (by omega)
      obtain ⟨b, hb, hs⟩ := next_u8_to_u32_advance mem start cp start' hn
      rw [hn]
      exact ih start' _ (by omega)
    · exact ⟨count, rfl⟩

/-! ## The code-point iterator on a malformed lead byte -/

/-- Once the iterator stands on a byte of sequence length 0, `operator++` leaves it there, and
the traversal is still running when any budget is used up. -/
theorem iterate_positions_stuck_at (mem : List Nat) (end_ it c : Nat) (hne : it ≠ end_)
    (hc : mem[it]? = some c) (h0 : detail.sequence_length c = 0) :
    ∀ (fuel : Nat) (visited : List Nat),
      iterate_positions .utf8 mem end_ fuel it visited = .timeout := by
  have hinc : basic_iterator.increment .utf8 mem it = .ret it := by
    simp [basic_iterator.increment, detail.base_iterator.advance, hc,
      detail.iterator_sequence_length, h0]
  intro fuel
  induction fuel with
  | zero =>
    intro visited
    rw [iterate_positions, if_pos hne]
  | succ f ih =>
    intro visited
    rw [iterate_positions, if_pos hne, hinc]
    exact ih _


/-! ## Counting code points -/

/-- The first byte that `append_u32_to_u8` writes has the sequence length of the whole
encoding. -/
theorem append_u32_to_u8_lead (cp : Nat) (hcp : cp < 0x200000) :
    ∃ lead tail, append_u32_to_u8 cp [] = lead :: tail
      ∧ detail.sequence_length lead = code_point_size_u8 cp := by
  have h32 : to_u32 cp = cp := Nat.mod_eq_of_lt (by omega)
  unfold append_u32_to_u8 code_point_size_u8
  simp only [h32, List.nil_append]
  by_cases c1 : cp < 0x80
  · rw [if_pos c1, if_pos c1]
    exact ⟨_, _, rfl, (lead1_facts cp c1).1⟩
  · by_cases c2 : cp < 0x800
    · rw [if_neg c1, if_pos c2, if_neg c1, if_pos c2]
      have ha : cp >>> 6 < 32 := by rw [Nat.shiftRight_eq_div_pow]; omega
      exact ⟨_, _, rfl, (lead2_facts _ ha).1⟩
    · by_cases c3 : cp < 0x10000
      · rw [if_neg c1, if_neg c2, if_pos c3, if_neg c1, if_neg c2, if_pos c3]
        have ha : cp >>> 12 < 16 := by rw [Nat.shiftRight_eq_div_pow]; omega
        exact ⟨_, _, rfl, (lead3_facts _ ha).1⟩
      · rw [if_neg c1, if_neg c2, if_neg c3, if_neg c1, if_neg c2, if_neg c3]
        have ha : cp >>> 18 < 8 := by rw [Nat.shiftRight_eq_div_pow]; omega
        exact ⟨_, _, rfl, (lead4_facts _ ha).1⟩

/-- On the encoding of `S` the loop of `u8_length` steps from lead byte to lead byte and counts
one per code point. -/
theorem u8_length_loop_utf8_of (S : List Nat) (hS : ∀ c ∈ S, c < 0x200000) (tail : List Nat) :
    ∀ (pre : List Nat) (dist fuel : Nat), S.length ≤ fuel →
    u8_length_loop (pre ++ utf8_of S ++ tail) (pre.length + (utf8_of S).length) fuel
        pre.length dist
      = .ret (dist + S.length) := by
  induction S with
  | nil =>
    intro pre dist fuel _
    cases fuel <;> simp [u8_length_loop, utf8_of]
  | cons c S ih =>
    intro pre dist fuel hf
    obtain ⟨f, rfl⟩ : ∃ f, fuel = f + 1 := ⟨fuel - 1, by simp at hf; omega⟩
    have hc : c < 0x200000 := hS c (by simp)
    obtain ⟨lead, t, he, hl⟩ := append_u32_to_u8_lead c hc
    have hlen := append_u32_to_u8_length c
    rw [he] at hlen
    have hlt : pre.length < pre.length + (utf8_of (c :: S)).length := by
      simp [utf8_of, he]
    have e : pre ++ utf8_of (c :: S) ++ tail
        = pre ++ lead :: (t ++ utf8_of S ++ tail) := by
      simp [utf8_of, he]
    have e1 : pre ++ utf8_of (c :: S) ++ tail = (pre ++ lead :: t) ++ utf8_of S ++ tail := by
      simp [utf8_of, he]
    have e2 : pre.length + (utf8_of (c :: S)).length
        = (pre ++ lead :: t).length + (utf8_of S).length := by
      simp [utf8_of, he]; omega
    have e3 : pre.length + detail.sequence_length lead = (pre ++ lead :: t).length := by
      rw [hl, ← hlen]; simp
    rw [u8_length_loop, if_pos hlt]
    rw [e, getElem?_at_length, ← e, e1, e2]
    simp only []
    rw [e3, ih (fun x hx => hS x (by simp [hx])) _ _ f (by simp at hf; omega)]
    simp only [List.length_cons, Outcome.ret.injEq]
    omega

/-- On the UTF-16 form of valid code points the loop of `u16_length` counts one per code
point. -/
theorem u16_length_loop_utf16_of (S : List Nat)
    (hS : ∀ cp ∈ S, cp ≤ 0x10FFFF ∧ ¬ (0xD800 ≤ cp ∧ cp ≤ 0xDFFF)) (tail : List Nat) :
    ∀ (pre : List Nat) (dist fuel : Nat), S.length ≤ fuel →
    u16_length_loop (pre ++ utf16_of S ++ tail) (pre.length + (utf16_of S).length) fuel
        pre.length dist
      = .ret (dist + S.length) := by
  induction S with
  | nil =>
    intro pre dist fuel _
    cases fuel <;> simp [u16_length_loop, utf16_of]
  | cons c S ih =>
    intro pre dist fuel hf
    obtain ⟨f, rfl⟩ : ∃ f, fuel = f + 1 := ⟨fuel - 1, by simp at hf; omega⟩
    obtain ⟨hc1, hc2⟩ := hS c (by simp)
    have ih' := ih (fun x hx => hS x (by simp [hx]))
    by_cases hb : c ≤ 0xFFFF
    · have hu := u32_to_u16_units_bmp c hb hc2
      have hh : detail.is_high_surrogate (detail.cast_16 c) = false := by
        rw [is_high_surrogate_cast_16, Bool.eq_false_iff, Ne, is_high_surrogate_iff c (by omega)]
        omega
      have hlt : pre.length < pre.length + (utf16_of (c :: S)).length := by
        simp [utf16_of, hu]
      have e : pre ++ utf16_of (c :: S) ++ tail = pre ++ c :: (utf16_of S ++ tail) := by
        simp [utf16_of, hu]
      have e1 : pre ++ utf16_of (c :: S) ++ tail = (pre ++ [c]) ++ utf16_of S ++ tail := by
        simp [utf16_of, hu]
      have e2 : pre.length + (utf16_of (c :: S)).length
          = (pre ++ [c]).length + (utf16_of S).length := by
        simp [utf16_of, hu]; omega
      have e3 : pre.length + 1 = (pre ++ [c]).length := by simp
      rw [u16_length_loop, if_pos hlt]
      rw [e, getElem?_at_length, ← e, e1, e2]
      simp only [hh]
      rw [if_neg (by simp), e3, ih' _ _ f (by simp at hf; omega)]
      simp only [List.length_cons, Outcome.ret.injEq]
      omega
    · have hu := u32_to_u16_units_pair c (by omega) hc1
      have hlt16 : (c - 0x10000) / 1024 + 0xD800 < 65536 := by omega
      have hh : detail.is_high_surrogate (detail.cast_16 ((c - 0x10000) / 1024 + 0xD800))
          = true := by
        rw [is_high_surrogate_cast_16, is_high_surrogate_iff _ hlt16]
        omega
      have hlt : pre.length < pre.length + (utf16_of (c :: S)).length := by
        simp [utf16_of, hu]
      have e : pre ++ utf16_of (c :: S) ++ tail
          = pre ++ ((c - 0x10000) / 1024 + 0xD800)
              :: (((c - 0x10000) % 1024 + 0xDC00) :: (utf16_of S ++ tail)) := by
        simp [utf16_of, hu]
      have e1 : pre ++ utf16_of (c :: S) ++ tail
          = (pre ++ [(c - 0x10000) / 1024 + 0xD800, (c - 0x10000) % 1024 + 0xDC00])
              ++ utf16_of S ++ tail := by
        simp [utf16_of, hu]
      have e2 : pre.length + (utf16_of (c :: S)).length
          = (pre ++ [(c - 0x10000) / 1024 + 0xD800, (c - 0x10000) % 1024 + 0xDC00]).length
              + (utf16_of S).length := by
        simp [utf16_of, hu]; omega
      have e3 : pre.length + 1 + 1
          = (pre ++ [(c - 0x10000) / 1024 + 0xD800, (c - 0x10000) % 1024 + 0xDC00]).length := by
        simp
      rw [u16_length_loop, if_pos hlt]
      rw [e, getElem?_at_length, ← e, e1, e2]
      simp only [hh]
      rw [if_pos trivial, e3, ih' _ _ f (by simp at hf; omega)]
      simp only [List.length_cons, Outcome.ret.injEq]
      omega

/-- On the UTF-8 form of valid code points the loop of `u8_to_u16` writes what `u32_to_u16`
writes for them. -/
theorem u8_to_u16_loop_utf8_of (S : List Nat)
    (hS : ∀ cp ∈ S, cp ≤ 0x10FFFF ∧ ¬ (0xD800 ≤ cp ∧ cp ≤ 0xDFFF)) :
    ∀ (pre out : List Nat) (fuel : Nat), S.length ≤ fuel →
    u8_to_u16_loop (pre ++ utf8_of S) (pre.length + (utf8_of S).length) fuel pre.length out
      = .ret (out ++ utf16_of S) := by
  induction S with
  | nil =>
    intro pre out fuel _
    cases fuel <;> simp [u8_to_u16_loop, utf8_of, utf16_of]
  | cons c S ih =>
    intro pre out fuel hf
    obtain ⟨f, rfl⟩ : ∃ f, fuel = f + 1 := ⟨fuel - 1, by simp at hf; omega⟩
    obtain ⟨hc1, hc2⟩ := hS c (by simp)
    have hpos := code_point_size_u8_pos c
    have hlen : (utf8_of (c :: S)).length = code_point_size_u8 c + (utf8_of S).length := by
      simp [utf8_of, append_u32_to_u8_length]
    have hlt : pre.length < pre.length + (utf8_of (c :: S)).length := by omega
    have e : pre ++ utf8_of (c :: S) = pre ++ append_u32_to_u8 c [] ++ utf8_of S := by
      simp [utf8_of]
    have e2 : pre.length + (utf8_of (c :: S)).length
        = (pre ++ append_u32_to_u8 c []).length + (utf8_of S).length := by
      simp [utf8_of]; omega
    have e3 : pre.length + code_point_size_u8 c = (pre ++ append_u32_to_u8 c []).length := by
      simp [append_u32_to_u8_length]
    have ih' := ih (fun x hx => hS x (by simp [hx]))
    rw [u8_to_u16_loop, if_pos hlt, e, next_u8_to_u32_append c (by omega)]
    simp only []
    rw [e2, e3]
    by_cases hb : c ≤ 0xFFFF
    · rw [if_neg (by omega), ih' _ _ f (by simp at hf; omega), utf16_of,
        u32_to_u16_units_bmp c hb hc2]
      have h16 : detail.cast_16 c = c := Nat.mod_eq_of_lt (by omega)
      rw [h16, List.append_assoc]
    · rw [if_pos (by omega), ih' _ _ f (by simp at hf; omega), utf16_of,
        u32_to_u16_units_pair c (by omega) hc1]
      have k1 : detail.cast_16 ((c >>> 10) + detail.k_lead_offset)
          = (c - 0x10000) / 1024 + 0xD800 := by
        rw [k_lead_offset_eq, Nat.shiftRight_eq_div_pow]
        unfold detail.cast_16
        omega
      have k2 : detail.cast_16 ((c &&& 0x3FF) + detail.k_trail_surrogate_min)
          = (c - 0x10000) % 1024 + 0xDC00 := by
        rw [and_3FF]
        unfold detail.cast_16 detail.k_trail_surrogate_min
        omega
      rw [k1, k2, List.append_assoc]

theorem utf8_of_ascii (S : List Nat) (hS : ∀ c ∈ S, c < 0x80) : utf8_of S = S := by
  induction S with
  | nil => rfl
  | cons c S ih =>
    have hc : c < 0x80 := hS c (by simp)
    have h32 : to_u32 c = c := Nat.mod_eq_of_lt (by omega)
    have h8 : detail.cast_8 c = c := Nat.mod_eq_of_lt (by omega)
    rw [utf8_of, ih (fun x hx => hS x (by simp [hx]))]
    unfold append_u32_to_u8
    simp only [h32]
    rw [if_pos hc, h8]
    rfl

theorem utf16_of_ascii (S : List Nat) (hS : ∀ c ∈ S, c < 0x80) : utf16_of S = S := by
  induction S with
  | nil => rfl
  | cons c S ih =>
    have hc : c < 0x80 := hS c (by simp)
    rw [utf16_of, ih (fun x hx => hS x (by simp [hx])),
      u32_to_u16_units_bmp c (by omega) (by omega)]
    rfl

/-! ## The accessors of the view -/

/-- The three widths that `sizeof` takes on the character types. -/
theorem sizeof_char_cases (w : wchar_width) (c : char_type) :
    sizeof_char w c = 1 ∨ sizeof_char w c = 2 ∨ sizeof_char w c = 4 := by
  cases c <;> cases w <;> simp [sizeof_char]

/-- What `count()` computes on a view tagged with width 1. -/
theorem count_of_char_size_one (w : wchar_width) (fuel : Nat) (v : string_view)
    (h : v.m_charSize = 1) :
    v.count w fuel = u8_length fuel (v.m_data.getD []) v.m_size := by
  simp [string_view.count, string_view.encoding, string_view.char_size, h, length, encoding_of,
    sizeof_char, string_view.view, basic_string_view.mem]

/-- The loop of `u16_length` moves its index on every iteration: a budget of `size` iterations
is never used up. -/
theorem u16_length_loop_within (str : List Nat) (size : Nat) :
    ∀ (fuel i dist : Nat), size ≤ fuel + i → u16_length_loop str size fuel i dist ≠ .timeout := by
  intro fuel
  induction fuel with
  | zero =>
    intro i dist h
    rw [u16_length_loop, if_neg (by omega)]
    simp
  | succ f ih =>
    intro i dist h
    rw [u16_length_loop]
    split_ifs with hc
    · cases hb : str[i]? with
      | none => simp
      | some c =>
        simp only []
        split_ifs
        · exact ih _ _ (by omega)
        · exact ih _ _ (by omega)
    · simp

/-- The budget built into `u16_length` is never used up. -/
theorem u16_length_returns_or_faults (str : List Nat) (size : Nat) :
    u16_length str size ≠ .timeout :=
  u16_length_loop_within str size size 0 0 (by omega)

theorem basic_string_from_ne_timeout (ptr : Option (List Nat)) (n : Nat) :
    basic_string_from ptr n ≠ .timeout := by
  unfold basic_string_from
  cases ptr with
  | none => simp only []; split_ifs <;> simp
  | some mem => simp only []; split_ifs <;> simp

/-- Copying the `size()` units of a readable view gives its units. -/
theorem basic_string_from_readable (v : string_view) (hr : v.readable) :
    basic_string_from v.m_data v.m_size = .ret v.units ∧ v.units.length = v.m_size := by
  unfold string_view.readable at hr
  unfold basic_string_from string_view.units
  cases hd : v.m_data with
  | none =>
    rw [hd] at hr
    have h0 : v.m_size = 0 := by simpa using hr
    simp [h0]
  | some mem =>
    rw [hd] at hr
    have hle : v.m_size ≤ mem.length := by simpa using hr
    simp [hle]

theorem convert_as_ne_timeout (w : wchar_width) (output input : char_type)
    (sv : basic_string_view) : convert_as w output input sv ≠ .timeout := by
  have hb := budget_suffices sv.mem 0 sv.size []
  have hs := basic_string_from_ne_timeout sv.data sv.size
  unfold convert_as
  split
  · exact hs
  · exact hb.1
  · exact hb.2.1
  · exact hb.2.2.1
  · exact hs
  · exact hb.2.2.2.1
  · exact hb.2.2.2.2.1
  · exact hb.2.2.2.2.2.1
  · exact hs

/-- The view accessors on a view tagged with one of the widths 1, 2, 4: the encoding and the
result of `view<CharT>()` for the character type of that width. -/
theorem view_of_char_size (w : wchar_width) (v : string_view) :
    (v.m_charSize = 1 → v.encoding = .utf8
      ∧ v.view w .char = { data := v.m_data, size := v.m_size }
      ∧ v.data w .char = v.m_data)
    ∧ (v.m_charSize = 2 → v.encoding = .utf16
      ∧ v.view w .char16_t = { data := v.m_data, size := v.m_size }
      ∧ v.data w .char16_t = v.m_data)
    ∧ (v.m_charSize = 4 → v.encoding = .utf32
      ∧ v.view w .char32_t = { data := v.m_data, size := v.m_size }
      ∧ v.data w .char32_t = v.m_data) := by
  refine ⟨fun h => ?_, fun h => ?_, fun h => ?_⟩ <;>
    simp [string_view.encoding, string_view.view, string_view.data, string_view.char_size, h]

/-- The length that `std::basic_string_view<CharT>(s)` computes for characters without a zero
unit followed by the terminator. -/
theorem traits_length_terminated (chars : List Nat) (hz : ∀ u ∈ chars, u ≠ 0) :
    traits_length (chars ++ [0]) = chars.length := by
  unfold traits_length
  induction chars with
  | nil => simp
  | cons c cs ih =>
    have hc : c ≠ 0 := hz c (by simp)
    have := ih (fun u hu => hz u (by simp [hu]))
    simp [List.takeWhile_cons, hc, this]

/-- The length field of a view built from an owned string: its length in 32 bits. -/
theorem make_string_size (w : wchar_width) (c : char_type) (str : List Nat) :
    (string_view.make w (.string c str)).size = str.length % 4294967296 := rfl
theorem traits_length_le (mem : List Nat) : traits_length mem ≤ mem.length := by
  unfold traits_length
  exact (List.takeWhile_sublist _).length_le

/-- The units of every view that a constructor builds are readable, provided that a borrowed
`std::basic_string_view` source is itself over readable units. -/
theorem make_readable (w : wchar_width) (c : char_type) (str chars : List Nat)
    (sv : basic_string_view) (hsv : sv.size ≤ (sv.data.getD []).length) :
    string_view.default_view.readable
    ∧ (string_view.make w (.string c str)).readable
    ∧ (string_view.make w (.borrowed c sv)).readable
    ∧ (string_view.make w (.pointer c chars)).readable
    ∧ (string_view.make w (.literal c chars)).readable := by
  have hmod : ∀ n : Nat, to_u32 n ≤ n := fun n => Nat.mod_le n _
  have ht := traits_length_le (chars ++ [0])
  refine ⟨by decide, ?_, ?_, ?_, ?_⟩
  · have := hmod str.length
    simp only [string_view.readable, string_view.make, string_view.from_string,
      Option.getD_some, List.length_append, List.length_singleton]
    omega
  · have := hmod sv.size
    simp only [string_view.readable, string_view.make, string_view.from_view]
    omega
  · have := hmod (traits_length (chars ++ [0]))
    simp only [string_view.readable, string_view.make, string_view.from_view_null_terminated,
      Option.getD_some]
    omega
  · have := hmod (traits_length (chars ++ [0]))
    simp only [string_view.readable, string_view.make, string_view.from_view_null_terminated,
      Option.getD_some]
    omega

/-! ## The tag of a constructed view -/

/-- A view whose width is 1, 2 or 4 satisfies the tag consistency invariant. -/
theorem tag_consistent_of_char_size (v : string_view)
    (h : v.m_charSize = 1 ∨ v.m_charSize = 2 ∨ v.m_charSize = 4) : v.tag_consistent := by
  unfold string_view.tag_consistent
  rcases h with h | h | h <;>
    simp [string_view.char_size, string_view.encoding, string_view.size_bytes,
      string_view.empty, string_view.size, h]

/-- The width and the encoding that `make` records are those of the argument's character
type. -/
theorem make_char_size (w : wchar_width) (src : source) :
    (string_view.make w src).m_charSize = sizeof_char w src.char := by
  cases src <;> rfl

theorem encoding_of_char_size (w : wchar_width) (v : string_view) (c : char_type)
    (h : v.m_charSize = sizeof_char w c) : v.encoding = encoding_of w c := by
  unfold string_view.encoding encoding_of string_view.char_size
  rw [h]
  cases c <;> cases w <;> simp [sizeof_char]

/-! ## Classification of bytes -/

set_option maxRecDepth 100000 in
/-- The classification of the 256 byte values by `sequence_length` and `is_trail`. -/
theorem byte_classes : ∀ b < 256,
    detail.sequence_length b
        = (if b < 0x80 then 1 else if 0xC0 ≤ b ∧ b ≤ 0xDF then 2
          else if 0xE0 ≤ b ∧ b ≤ 0xEF then 3 else if 0xF0 ≤ b ∧ b ≤ 0xF7 then 4 else 0)
    ∧ (detail.sequence_length b = 0 ↔ (0x80 ≤ b ∧ b ≤ 0xBF) ∨ (0xF8 ≤ b ∧ b ≤ 0xFF))
    ∧ (detail.is_trail b = true ↔ 0x80 ≤ b ∧ b ≤ 0xBF) := by
  decide

theorem sequence_length_mod (b : Nat) :
    detail.sequence_length (b % 256) = detail.sequence_length b := by
  unfold detail.sequence_length detail.cast_8
  rw [Nat.mod_mod]

theorem is_trail_mod (b : Nat) : detail.is_trail (b % 256) = detail.is_trail b := by
  unfold detail.is_trail detail.cast_8
  rw [Nat.mod_mod]

/-- A continuation byte has sequence length 0, so a byte with a sequence length is not a
continuation byte. -/
theorem not_is_trail_of_sequence_length (b : Nat) (h : detail.sequence_length b ≠ 0) :
    detail.is_trail b = false := by
  have hb := byte_classes (b % 256) (Nat.mod_lt _ (by decide))
  rw [sequence_length_mod, is_trail_mod] at hb
  obtain ⟨_, h0, ht⟩ := hb
  cases hc : detail.is_trail b with
  | false => rfl
  | true =>
    exfalso
    have h1 := ht.mp hc
    exact h (h0.mpr (Or.inl h1))


/-! ## The bytes of one encoded code point -/

set_option maxRecDepth 100000 in
/-- Reducing a lead or continuation byte to 8 bits changes nothing. -/
theorem cast_8_prefixed : (∀ a < 32, detail.cast_8 (a ||| 0xC0) = 0xC0 ||| a)
    ∧ (∀ a < 16, detail.cast_8 (a ||| 0xE0) = 0xE0 ||| a)
    ∧ (∀ a < 8, detail.cast_8 (a ||| 0xF0) = 0xF0 ||| a)
    ∧ (∀ b < 64, detail.cast_8 (b ||| 0x80) = 0x80 ||| b) := by
  decide

/-- The shape of what `append_u32_to_u8` writes for a value below `2 ^ 21`: a lead byte whose
sequence length is the number of bytes written, then continuation bytes. -/
theorem append_u32_to_u8_shape (cp : Nat) (hcp : cp < 0x200000) :
    ∃ lead tail, append_u32_to_u8 cp [] = lead :: tail
      ∧ detail.sequence_length lead = tail.length + 1
      ∧ (∀ t ∈ tail, detail.is_trail t = true) := by
  have h32 : to_u32 cp = cp := Nat.mod_eq_of_lt (by omega)
  unfold append_u32_to_u8
  simp only [h32, List.nil_append]
  by_cases c1 : cp < 0x80
  · rw [if_pos c1]
    exact ⟨_, [], rfl, (lead1_facts cp c1).1, by simp⟩
  · by_cases c2 : cp < 0x800
    · rw [if_neg c1, if_pos c2]
      have ha : cp >>> 6 < 32 := by rw [Nat.shiftRight_eq_div_pow]; omega
      have hb : cp &&& 0x3F < 64 := by rw [and_3F]; omega
      exact ⟨_, [_], rfl, (lead2_facts _ ha).1, by simpa using (trail_facts _ hb).1⟩
    · by_cases c3 : cp < 0x10000
      · rw [if_neg c1, if_neg c2, if_pos c3]
        have ha : cp >>> 12 < 16 := by rw [Nat.shiftRight_eq_div_pow]; omega
        have hb : (cp >>> 6) &&& 0x3F < 64 := by rw [and_3F]; omega
        have hd : cp &&& 0x3F < 64 := by rw [and_3F]; omega
        exact ⟨_, [_, _], rfl, (lead3_facts _ ha).1,
          by simpa using ⟨(trail_facts _ hb).1, (trail_facts _ hd).1⟩⟩
      · rw [if_neg c1, if_neg c2, if_neg c3]
        have ha : cp >>> 18 < 8 := by rw [Nat.shiftRight_eq_div_pow]; omega
        have hb : (cp >>> 12) &&& 0x3F < 64 := by rw [and_3F]; omega
        have hd : (cp >>> 6) &&& 0x3F < 64 := by rw [and_3F]; omega
        have he : cp &&& 0x3F < 64 := by rw [and_3F]; omega
        exact ⟨_, [_, _, _], rfl, (lead4_facts _ ha).1,
          by simpa using ⟨(trail_facts _ hb).1, (trail_facts _ hd).1, (trail_facts _ he).1⟩⟩

/-- The bytes that `append_u32_to_u8` writes for a value below `2 ^ 21`, without the
reductions to 8 bits. -/
theorem append_u32_to_u8_bytes (cp : Nat) (hcp : cp < 0x200000) :
    append_u32_to_u8 cp []
      = (if cp < 0x80 then [cp]
        else if cp < 0x800 then [0xC0 ||| (cp >>> 6), 0x80 ||| (cp &&& 0x3F)]
        else if cp < 0x10000 then
          [0xE0 ||| (cp >>> 12), 0x80 ||| ((cp >>> 6) &&& 0x3F), 0x80 ||| (cp &&& 0x3F)]
        else
          [0xF0 ||| (cp >>> 18), 0x80 ||| ((cp >>> 12) &&& 0x3F),
            0x80 ||| ((cp >>> 6) &&& 0x3F), 0x80 ||| (cp &&& 0x3F)]) := by
  have h32 : to_u32 cp = cp := Nat.mod_eq_of_lt (by omega)
  obtain ⟨f2, f3, f4, ft⟩ := cast_8_prefixed
  unfold append_u32_to_u8
  simp only [h32, List.nil_append]
  by_cases c1 : cp < 0x80
  · rw [if_pos c1, if_pos c1, (lead1_facts cp c1).2.symm]
    unfold detail.cast_8
    rw [Nat.mod_mod]
  · by_cases c2 : cp < 0x800
    · rw [if_neg c1, if_pos c2, if_neg c1, if_pos c2]
      have ha : cp >>> 6 < 32 := by rw [Nat.shiftRight_eq_div_pow]; omega
      have hb : cp &&& 0x3F < 64 := by rw [and_3F]; omega
      rw [f2 _ ha, ft _ hb]
    · by_cases c3 : cp < 0x10000
      · rw [if_neg c1, if_neg c2, if_pos c3, if_neg c1, if_neg c2, if_pos c3]
        have ha : cp >>> 12 < 16 := by rw [Nat.shiftRight_eq_div_pow]; omega
        have hb : (cp >>> 6) &&& 0x3F < 64 := by rw [and_3F]; omega
        have hd : cp &&& 0x3F < 64 := by rw [and_3F]; omega
        rw [f3 _ ha, ft _ hb, ft _ hd]
      · rw [if_neg c1, if_neg c2, if_neg c3, if_neg c1, if_neg c2, if_neg c3]
        have ha : cp >>> 18 < 8 := by rw [Nat.shiftRight_eq_div_pow]; omega
        have hb : (cp >>> 12) &&& 0x3F < 64 := by rw [and_3F]; omega
        have hd : (cp >>> 6) &&& 0x3F < 64 := by rw [and_3F]; omega
        have he : cp &&& 0x3F < 64 := by rw [and_3F]; omega
        rw [f4 _ ha, ft _ hb, ft _ hd, ft _ he]

/-! ## Reconstruction of a surrogate pair -/

/-- The value that the UTF-16 readers compute from a high and a low surrogate. -/
theorem surrogate_pair_value (h l : Nat) (hh : 0xD800 ≤ h ∧ h ≤ 0xDBFF)
    (hl : 0xDC00 ≤ l ∧ l ≤ 0xDFFF) :
    to_u32 ((h <<< 10) + l + detail.k_surrogate_offset)
      = 0x10000 + ((h - 0xD800) <<< 10) + (l - 0xDC00) := by
  rw [k_surrogate_offset_eq]
  simp only [Nat.shiftLeft_eq, to_u32]
  omega

/-- The read step of the UTF-16 readers at a high surrogate followed by a unit below
`2 ^ 16`. -/
theorem next_u16_at_pair (h l : Nat) (rest : List Nat) (hh : 0xD800 ≤ h ∧ h ≤ 0xDBFF)
    (hl : l < 65536) :
    next_u16 (h :: l :: rest) 0
      = .ret (to_u32 ((h <<< 10) + l + detail.k_surrogate_offset), 2) := by
  have h16 : detail.cast_16 h = h := Nat.mod_eq_of_lt (by omega)
  have l16 : detail.cast_16 l = l := Nat.mod_eq_of_lt hl
  have hs : detail.is_high_surrogate h = true := (is_high_surrogate_iff h (by omega)).mpr hh
  simp [next_u16, h16, l16, hs]

/-- The read step of the UTF-16 readers at a unit that is not a high surrogate. -/
theorem next_u16_at_single (u : Nat) (rest : List Nat) (hu : u < 65536)
    (hn : ¬ (0xD800 ≤ u ∧ u ≤ 0xDBFF)) :
    next_u16 (u :: rest) 0 = .ret (u, 1) := by
  have h16 : detail.cast_16 u = u := Nat.mod_eq_of_lt hu
  have hs : detail.is_high_surrogate u = false := by
    rw [Bool.eq_false_iff, Ne, is_high_surrogate_iff u hu]
    exact hn
  simp [next_u16, h16, hs]

/-! ## The UTF-16 readers on input with no truncated pair -/

/-- The read step at a unit that is not a high surrogate, whatever follows in memory. -/
theorem next_u16_single_post (u : Nat) (hu : detail.is_high_surrogate u = false)
    (pre rest post : List Nat) :
    next_u16 (pre ++ u :: rest ++ post) pre.length = .ret (detail.cast_16 u, pre.length + 1) := by
  rw [List.append_assoc, List.cons_append]
  exact next_u16_single u hu pre (rest ++ post)

/-- The read step at a high surrogate followed by another unit, whatever follows in memory. -/
theorem next_u16_pair_post (h l : Nat) (hh : detail.is_high_surrogate h = true)
    (pre rest post : List Nat) :
    next_u16 (pre ++ h :: l :: rest ++ post) pre.length
      = .ret (to_u32 ((detail.cast_16 h <<< 10) + detail.cast_16 l
          + detail.k_surrogate_offset), pre.length + 2) := by
  have h1 := getElem?_mid pre [h, l] (rest ++ post) 1 (by simp)
  have e : pre ++ h :: l :: rest ++ post = pre ++ [h, l] ++ (rest ++ post) := by simp
  have e0 : pre ++ [h, l] ++ (rest ++ post) = pre ++ h :: (l :: (rest ++ post)) := by simp
  unfold next_u16
  rw [e, h1, e0, getElem?_at_length]
  simp [is_high_surrogate_cast_16, hh]

/-- On input with no truncated pair the loop of `u16_to_u8` returns, with a result that does
not depend on the memory after the range. -/
theorem u16_to_u8_loop_complete {B : List Nat} (h : CompleteU16 B) :
    ∀ (pre out : List Nat), ∃ out', ∀ (post : List Nat) (fuel : Nat), B.length ≤ fuel →
      u16_to_u8_loop (pre ++ B ++ post) (pre.length + B.length) fuel pre.length out
        = .ret out' := by
  induction h with
  | nil =>
    intro pre out
    refine ⟨out, fun post fuel _ => ?_⟩
    cases fuel <;> simp [u16_to_u8_loop]
  | single u rest hu _ ih =>
    intro pre out
    obtain ⟨out', ho⟩ := ih (pre ++ [u]) (append_u32_to_u8 (detail.cast_16 u) out)
    refine ⟨out', fun post fuel hf => ?_⟩
    obtain ⟨f, rfl⟩ : ∃ f, fuel = f + 1 := ⟨fuel - 1, by simp at hf; omega⟩
    have hne : pre.length ≠ pre.length + (u :: rest).length := by simp
    have e : pre ++ u :: rest ++ post = (pre ++ [u]) ++ rest ++ post := by simp
    have e2 : pre.length + (u :: rest).length = (pre ++ [u]).length + rest.length := by
      simp; omega
    have e3 : pre.length + 1 = (pre ++ [u]).length := by simp
    rw [u16_to_u8_loop, if_pos hne, next_u16_single_post u hu]
    simp only []
    rw [e, e2, e3]
    exact ho post f (by simp at hf; omega)
  | pair h l rest hh _ ih =>
    intro pre out
    obtain ⟨out', ho⟩ := ih (pre ++ [h, l])
      (append_u32_to_u8 (to_u32 ((detail.cast_16 h <<< 10) + detail.cast_16 l
        + detail.k_surrogate_offset)) out)
    refine ⟨out', fun post fuel hf => ?_⟩
    obtain ⟨f, rfl⟩ : ∃ f, fuel = f + 1 := ⟨fuel - 1, by simp at hf; omega⟩
    have hne : pre.length ≠ pre.length + (h :: l :: rest).length := by simp
    have e : pre ++ h :: l :: rest ++ post = (pre ++ [h, l]) ++ rest ++ post := by simp
    have e2 : pre.length + (h :: l :: rest).length = (pre ++ [h, l]).length + rest.length := by
      simp; omega
    have e3 : pre.length + 2 = (pre ++ [h, l]).length := by simp
    rw [u16_to_u8_loop, if_pos hne, next_u16_pair_post h l hh]
    simp only []
    rw [e, e2, e3]
    exact ho post f (by simp at hf; omega)

/-- On input with no truncated pair the loop of `u16_to_u32` returns, with a result that does
not depend on the memory after the range. -/
theorem u16_to_u32_loop_complete {B : List Nat} (h : CompleteU16 B) :
    ∀ (pre out : List Nat), ∃ out', ∀ (post : List Nat) (fuel : Nat), B.length ≤ fuel →
      u16_to_u32_loop (pre ++ B ++ post) (pre.length + B.length) fuel pre.length out
        = .ret out' := by
  induction h with
  | nil =>
    intro pre out
    refine ⟨out, fun post fuel _ => ?_⟩
    cases fuel <;> simp [u16_to_u32_loop]
  | single u rest hu _ ih =>
    intro pre out
    obtain ⟨out', ho⟩ := ih (pre ++ [u]) (out ++ [detail.cast_16 u])
    refine ⟨out', fun post fuel hf => ?_⟩
    obtain ⟨f, rfl⟩ : ∃ f, fuel = f + 1 := ⟨fuel - 1, by simp at hf; omega⟩
    have hne : pre.length ≠ pre.length + (u :: rest).length := by simp
    have e : pre ++ u :: rest ++ post = (pre ++ [u]) ++ rest ++ post := by simp
    have e2 : pre.length + (u :: rest).length = (pre ++ [u]).length + rest.length := by
      simp; omega
    have e3 : pre.length + 1 = (pre ++ [u]).length := by simp
    rw [u16_to_u32_loop, if_pos hne, next_u16_single_post u hu]
    simp only []
    rw [e, e2, e3]
    exact ho post f (by simp at hf; omega)
  | pair h l rest hh _ ih =>
    intro pre out
    obtain ⟨out', ho⟩ := ih (pre ++ [h, l])
      (out ++ [to_u32 ((detail.cast_16 h <<< 10) + detail.cast_16 l
        + detail.k_surrogate_offset)])
    refine ⟨out', fun post fuel hf => ?_⟩
    obtain ⟨f, rfl⟩ : ∃ f, fuel = f + 1 := ⟨fuel - 1, by simp at hf; omega⟩
    have hne : pre.length ≠ pre.length + (h :: l :: rest).length := by simp
    have e : pre ++ h :: l :: rest ++ post = (pre ++ [h, l]) ++ rest ++ post := by simp
    have e2 : pre.length + (h :: l :: rest).length = (pre ++ [h, l]).length + rest.length := by
      simp; omega
    have e3 : pre.length + 2 = (pre ++ [h, l]).length := by simp
    rw [u16_to_u32_loop, if_pos hne, next_u16_pair_post h l hh]
    simp only []
    rw [e, e2, e3]
    exact ho post f (by simp at hf; omega)

/-- Well-formed UTF-16 has no truncated pair. -/
theorem completeU16_of_wellFormedU16 {B : List Nat} (h : WellFormedU16 B) : CompleteU16 B := by
  induction h with
  | nil => exact .nil
  | single u rest hu _ ih => exact .single u rest hu ih
  | pair h l rest hh _ _ ih => exact .pair h l rest hh ih

/-! ## The decode step in arithmetic form -/

theorem and_7FF (x : Nat) : x &&& 0x7FF = x % 2048 := Nat.and_pow_two_sub_one_eq_mod x 11
theorem and_FFF (x : Nat) : x &&& 0xFFF = x % 4096 := Nat.and_pow_two_sub_one_eq_mod x 12
theorem and_FFFF (x : Nat) : x &&& 0xFFFF = x % 65536 := Nat.and_pow_two_sub_one_eq_mod x 16
theorem and_3FFFF (x : Nat) : x &&& 0x3FFFF = x % 262144 := Nat.and_pow_two_sub_one_eq_mod x 18
theorem and_1FFFFF (x : Nat) : x &&& 0x1FFFFF = x % 2097152 :=
  Nat.and_pow_two_sub_one_eq_mod x 21

/-- The three ways a continuation byte enters the decoded value use its low 6 bits only. -/
theorem trail_contribution (a : Nat) :
    a &&& 0x3F = a % 64
    ∧ (detail.cast_8 a <<< 6) &&& 0xFFF = a % 64 * 64
    ∧ (detail.cast_8 a <<< 12) &&& 0x3FFFF = a % 64 * 4096 := by
  refine ⟨and_3F a, ?_, ?_⟩
  · rw [and_FFF, Nat.shiftLeft_eq]
    unfold detail.cast_8
    omega
  · rw [and_3FFFF, Nat.shiftLeft_eq]
    unfold detail.cast_8
    omega

/-- The masked lead-byte fields are multiples of the weight of the first continuation byte. -/
theorem lead_contribution (b : Nat) :
    (detail.cast_8 b <<< 6) &&& 0x7FF = b % 32 * 64
    ∧ (detail.cast_8 b <<< 12) &&& 0xFFFF = b % 16 * 4096
    ∧ (detail.cast_8 b <<< 18) &&& 0x1FFFFF = b % 8 * 262144 := by
  refine ⟨?_, ?_, ?_⟩
  · rw [and_7FF, Nat.shiftLeft_eq]
    unfold detail.cast_8
    omega
  · rw [and_FFFF, Nat.shiftLeft_eq]
    unfold detail.cast_8
    omega
  · rw [and_1FFFFF, Nat.shiftLeft_eq]
    unfold detail.cast_8
    omega

/-- The decode step at a byte of sequence length 1. -/
theorem next_u8_to_u32_len1 (mem : List Nat) (it b : Nat) (hb : mem[it]? = some b)
    (hs : detail.sequence_length b = 1) :
    next_u8_to_u32 mem it = .ret (detail.cast_8 b, it + 1) := by
  unfold next_u8_to_u32
  rw [hb]
  simp only [hs]

/-- The decode step at a byte of sequence length 2. -/
theorem next_u8_to_u32_len2 (mem : List Nat) (it b b1 : Nat) (hb : mem[it]? = some b)
    (hs : detail.sequence_length b = 2) (h1 : mem[it + 1]? = some b1) :
    next_u8_to_u32 mem it = .ret (b % 32 * 64 + b1 % 64, it + 2) := by
  unfold next_u8_to_u32
  rw [hb]
  simp only [hs, h1, (lead_contribution b).1, and_3F]

/-- The decode step at a byte of sequence length 3. -/
theorem next_u8_to_u32_len3 (mem : List Nat) (it b b1 b2 : Nat) (hb : mem[it]? = some b)
    (hs : detail.sequence_length b = 3) (h1 : mem[it + 1]? = some b1)
    (h2 : mem[it + 2]? = some b2) :
    next_u8_to_u32 mem it = .ret (b % 16 * 4096 + b1 % 64 * 64 + b2 % 64, it + 3) := by
  unfold next_u8_to_u32
  rw [hb]
  simp only [hs, h1, h2, (lead_contribution b).2.1, (trail_contribution b1).2.1, and_3F]

/-- The decode step at a byte of sequence length 4. -/
theorem next_u8_to_u32_len4 (mem : List Nat) (it b b1 b2 b3 : Nat) (hb : mem[it]? = some b)
    (hs : detail.sequence_length b = 4) (h1 : mem[it + 1]? = some b1)
    (h2 : mem[it + 2]? = some b2) (h3 : mem[it + 3]? = some b3) :
    next_u8_to_u32 mem it
      = .ret (b % 8 * 262144 + b1 % 64 * 4096 + b2 % 64 * 64 + b3 % 64, it + 4) := by
  unfold next_u8_to_u32
  rw [hb]
  simp only [hs, h1, h2, h3, (lead_contribution b).2.2, (trail_contribution b1).2.2,
    (trail_contribution b2).2.1, and_3F]

/-- A byte of sequence length 0 has a value in `[0x80, 0xFF]`. -/
theorem cast_8_of_sequence_length_zero (b : Nat) (h0 : detail.sequence_length b = 0) :
    0x80 ≤ detail.cast_8 b ∧ detail.cast_8 b ≤ 0xFF := by
  have hlt : detail.cast_8 b < 256 := Nat.mod_lt _ (by decide)
  refine ⟨?_, by omega⟩
  by_contra hc
  unfold detail.sequence_length at h0
  simp only [] at h0
  rw [if_pos (by omega)] at h0
  omega

/-! ## Decoding the UTF-8 form of values below `0x10000` without validation -/

/-- On the encoding of values up to `0xFFFF`, surrogate values included, `u8_to_u16` writes
each value as one unit. -/
theorem u8_to_u16_loop_bmp (S : List Nat) (hS : ∀ cp ∈ S, cp ≤ 0xFFFF) :
    ∀ (pre out : List Nat) (fuel : Nat), S.length ≤ fuel →
    u8_to_u16_loop (pre ++ utf8_of S) (pre.length + (utf8_of S).length) fuel pre.length out
      = .ret (out ++ S) := by
  induction S with
  | nil =>
    intro pre out fuel _
    cases fuel <;> simp [u8_to_u16_loop, utf8_of]
  | cons c S ih =>
    intro pre out fuel hf
    obtain ⟨f, rfl⟩ : ∃ f, fuel = f + 1 := ⟨fuel - 1, by simp at hf; omega⟩
    have hc := hS c (by simp)
    have hpos := code_point_size_u8_pos c
    have hlen : (utf8_of (c :: S)).length = code_point_size_u8 c + (utf8_of S).length := by
      simp [utf8_of, append_u32_to_u8_length]
    have hlt : pre.length < pre.length + (utf8_of (c :: S)).length := by omega
    have e : pre ++ utf8_of (c :: S) = pre ++ append_u32_to_u8 c [] ++ utf8_of S := by
      simp [utf8_of]
    have e2 : pre.length + (utf8_of (c :: S)).length
        = (pre ++ append_u32_to_u8 c []).length + (utf8_of S).length := by
      simp [utf8_of]; omega
    have e3 : pre.length + code_point_size_u8 c = (pre ++ append_u32_to_u8 c []).length := by
      simp [append_u32_to_u8_length]
    have ih' := ih (fun x hx => hS x (by simp [hx]))
    have h16 : detail.cast_16 c = c := Nat.mod_eq_of_lt (by omega)
    rw [u8_to_u16_loop, if_pos hlt, e, next_u8_to_u32_append c (by omega)]
    simp only []
    rw [e2, e3, if_neg (by omega), ih' _ _ f (by simp at hf; omega), h16, List.append_assoc]
    rfl

/-- A value in the surrogate range is encoded on three bytes. -/
theorem code_point_size_u8_surrogate (cp : Nat) (h : 0xD800 ≤ cp ∧ cp ≤ 0xDFFF) :
    code_point_size_u8 cp = 3 := by
  have h32 : to_u32 cp = cp := Nat.mod_eq_of_lt (by omega)
  unfold code_point_size_u8
  simp only [h32]
  rw [if_neg (by omega), if_neg (by omega), if_pos (by omega)]

/-! ## Overlong two-byte forms -/

set_option maxRecDepth 100000 in
/-- The decode step on the overlong two-byte form and on the one-byte form of the values
below `0x80`. -/
theorem overlong_facts : ∀ cp < 0x80,
    next_u8_to_u32 [0xC0 ||| (cp >>> 6), 0x80 ||| (cp &&& 0x3F)] 0 = .ret (cp, 2)
    ∧ next_u8_to_u32 [cp] 0 = .ret (cp, 1)
    ∧ u8_to_u32 [0xC0 ||| (cp >>> 6), 0x80 ||| (cp &&& 0x3F)] 0 2 [] = .ret [cp]
    ∧ u8_to_u32 [cp] 0 1 [] = .ret [cp]
    ∧ [0xC0 ||| (cp >>> 6), 0x80 ||| (cp &&& 0x3F)] ≠ [cp] := by
  decide

/-! ## Scanning back to the first byte of a sequence -/

theorem utf8_of_append (A B : List Nat) : utf8_of (A ++ B) = utf8_of A ++ utf8_of B := by
  induction A with
  | nil => rfl
  | cons a A ih => simp [utf8_of, ih]

/-- Started anywhere after the lead byte of a sequence and at most at its end, the backward
scan of `prior_u8_to_u32` stops at the lead byte. -/
theorem prior_u8_to_u32_loop_scan (pre : List Nat) (lead : Nat) (trails post : List Nat)
    (hl : detail.is_trail lead = false) (ht : ∀ t ∈ trails, detail.is_trail t = true) :
    ∀ k, k ≤ trails.length →
      prior_u8_to_u32_loop (pre ++ (lead :: trails) ++ post) (pre.length + 1 + k)
        = .ret pre.length := by
  intro k
  induction k with
  | zero =>
    intro _
    have h0 := getElem?_mid pre (lead :: trails) post 0 (by simp)
    simp only [Nat.add_zero] at h0
    rw [Nat.add_zero, prior_u8_to_u32_loop, h0]
    simp [hl]
  | succ k ih =>
    intro hk
    have hk' : k < trails.length := by omega
    have h1 := getElem?_mid pre (lead :: trails) post (k + 1) (by simp; omega)
    have h2 : (lead :: trails)[k + 1]? = some trails[k] := by
      simp [List.getElem?_eq_getElem hk']
    have e : pre.length + 1 + (k + 1) = (pre.length + (k + 1)) + 1 := by omega
    rw [e, prior_u8_to_u32_loop, h1, h2]
    simp only [ht trails[k] (List.getElem_mem _)]
    have e2 : pre.length + (k + 1) = pre.length + 1 + k := by omega
    rw [if_pos trivial, e2]
    exact ih (by omega)

/-- Reverse decoding of one encoded code point between arbitrary bytes: from the end of its
bytes `prior_u8_to_u32` goes back to its first byte and returns it; the forward step from
there returns it again and restores the position. -/
theorem prior_u8_to_u32_append (cp : Nat) (hcp : cp < 0x200000) (pre post : List Nat) :
    prior_u8_to_u32 (pre ++ append_u32_to_u8 cp [] ++ post)
        (pre.length + code_point_size_u8 cp) = .ret (cp, pre.length)
    ∧ prior_u8_to_u32_loop (pre ++ append_u32_to_u8 cp [] ++ post)
        (pre.length + code_point_size_u8 cp) = .ret pre.length
    ∧ next_u8_to_u32 (pre ++ append_u32_to_u8 cp [] ++ post) pre.length
        = .ret (cp, pre.length + code_point_size_u8 cp) := by
  obtain ⟨lead, tail, hshape, hsl, htr⟩ := append_u32_to_u8_shape cp hcp
  have hnl : detail.is_trail lead = false :=
    not_is_trail_of_sequence_length lead (by omega)
  have hsize : code_point_size_u8 cp = tail.length + 1 := by
    rw [← append_u32_to_u8_length, hshape]
    simp
  have hscan := prior_u8_to_u32_loop_scan pre lead tail post hnl htr tail.length (le_refl _)
  have hnext := next_u8_to_u32_append cp hcp pre post
  have e : pre.length + code_point_size_u8 cp = pre.length + 1 + tail.length := by omega
  have hloop : prior_u8_to_u32_loop (pre ++ append_u32_to_u8 cp [] ++ post)
      (pre.length + code_point_size_u8 cp) = .ret pre.length := by
    rw [hshape, e]
    exact hscan
  refine ⟨?_, hloop, hnext⟩
  unfold prior_u8_to_u32
  rw [hloop]
  simp only []
  rw [hnext]

/-! ## The two computations of a surrogate pair -/

/-- For a code point above `0xFFFF` the pair that `u8_to_u16` computes, without subtracting
`0x10000`, is the pair that the body of `u32_to_u16` computes. -/
theorem u8_to_u16_pair_eq (cp : Nat) (h1 : 0x10000 ≤ cp) (h2 : cp ≤ 0x10FFFF) :
    [detail.cast_16 ((cp >>> 10) + detail.k_lead_offset),
      detail.cast_16 ((cp &&& 0x3FF) + detail.k_trail_surrogate_min)]
      = u32_to_u16_units cp := by
  have k1 : detail.cast_16 ((cp >>> 10) + detail.k_lead_offset)
      = (cp - 0x10000) / 1024 + 0xD800 := by
    rw [k_lead_offset_eq, Nat.shiftRight_eq_div_pow]
    unfold detail.cast_16
    omega
  have k2 : detail.cast_16 ((cp &&& 0x3FF) + detail.k_trail_surrogate_min)
      = (cp - 0x10000) % 1024 + 0xDC00 := by
    rw [and_3FF]
    unfold detail.cast_16 detail.k_trail_surrogate_min
    omega
  rw [k1, k2, u32_to_u16_units_pair cp h1 h2]

/-! ## Surrogate predicates and the byte-order mark -/

theorem is_surrogate_iff (u : Nat) (hu : u < 65536) :
    detail.is_surrogate u = true ↔ 0xD800 ≤ u ∧ u ≤ 0xDFFF := by
  unfold detail.is_surrogate detail.cast_16 detail.k_lead_surrogate_min
  rw [Nat.mod_eq_of_lt hu, decide_eq_true_iff]
  omega

theorem u16_sequence_length_eq (u : Nat) :
    detail.u16_sequence_length u = if detail.is_high_surrogate u = true then 2 else 1 := by
  unfold detail.u16_sequence_length
  simp only [is_high_surrogate_cast_16]

/-- The test of `starts_with_bom` on a range of at least three bytes. -/
theorem starts_with_bom_three (pre post rest : List Nat) (b0 b1 b2 : Nat) :
    detail.starts_with_bom (pre ++ (b0 :: b1 :: b2 :: rest) ++ post) pre.length
        (pre.length + (b0 :: b1 :: b2 :: rest).length)
      = .ret (decide (detail.cast_8 b0 = 0xEF ∧ detail.cast_8 b1 = 0xBB
          ∧ detail.cast_8 b2 = 0xBF)) := by
  have hidx := getElem?_mid pre (b0 :: b1 :: b2 :: rest) post
  have h0 := hidx 0 (by simp)
  have h1 := hidx 1 (by simp)
  have h2 := hidx 2 (by simp)
  simp only [Nat.add_zero] at h0
  unfold detail.starts_with_bom
  rw [h0, h1, h2]
  simp only [List.length_cons, detail.bom, List.getD_cons_zero, List.getD_cons_succ]
  by_cases e0 : detail.cast_8 b0 = 0xEF
  · by_cases e1 : detail.cast_8 b1 = 0xBB
    · by_cases e2 : detail.cast_8 b2 = 0xBF
      · simp [e0, e1, e2]
      · simp [e0, e1, e2]
    · simp [e0, e1]
  · simp [e0]

/-- The test of `starts_with_bom` on a range of fewer than three bytes: false, whatever
memory holds from the end of the range on. -/
theorem starts_with_bom_short (pre B post : List Nat) (hB : B.length < 3) :
    detail.starts_with_bom (pre ++ B ++ post) pre.length (pre.length + B.length)
      = .ret false := by
  match B, hB with
  | [], _ =>
    unfold detail.starts_with_bom
    simp
  | [b0], _ =>
    have h0 := getElem?_mid pre [b0] post 0 (by simp)
    simp only [Nat.add_zero] at h0
    unfold detail.starts_with_bom
    rw [h0]
    by_cases e0 : detail.cast_8 b0 = 0xEF
    · simp [detail.bom, e0]
    · simp [detail.bom, e0]
  | [b0, b1], _ =>
    have h0 := getElem?_mid pre [b0, b1] post 0 (by simp)
    have h1 := getElem?_mid pre [b0, b1] post 1 (by simp)
    simp only [Nat.add_zero] at h0
    unfold detail.starts_with_bom
    rw [h0, h1]
    by_cases e0 : detail.cast_8 b0 = 0xEF
    · by_cases e1 : detail.cast_8 b1 = 0xBB
      · simp [detail.bom, e0, e1]
      · simp [detail.bom, e0, e1]
    · simp [detail.bom, e0]
  | _ :: _ :: _ :: _, h => simp at h; omega

/-! ## The 32-bit length field of a view -/

/-- The length field of a constructed view is the source's number of units in 32 bits. -/
theorem make_size (w : wchar_width) (src : source) :
    (string_view.make w src).m_size = src.size % 4294967296 := by
  cases src <;> rfl

/-- Through a view of width `sizeof(CharT)` the three conversions are `convert_as` on the
stored pointer and the stored size, unless the stored size is 0. -/
theorem conversions_of_make (w : wchar_width) (src : source) :
    (string_view.make w src).to_utf8 w
        = (if src.size % 4294967296 = 0 then .ret []
          else convert_as w .char src.char
            { data := (string_view.make w src).m_data, size := src.size % 4294967296 })
    ∧ (string_view.make w src).to_utf16 w
        = (if src.size % 4294967296 = 0 then .ret []
          else convert_as w .char16_t src.char
            { data := (string_view.make w src).m_data, size := src.size % 4294967296 })
    ∧ (string_view.make w src).to_utf32 w
        = (if src.size % 4294967296 = 0 then .ret []
          else convert_as w .char32_t src.char
            { data := (string_view.make w src).m_data, size := src.size % 4294967296 }) := by
  have hs := make_size w src
  have hc := make_char_size w src
  by_cases h0 : src.size % 4294967296 = 0
  · have he : (string_view.make w src).empty = true := by
      simp [string_view.empty, hs, h0]
    simp [string_view.to_utf8, string_view.to_utf16, string_view.to_utf32, he, h0]
  · have he : (string_view.make w src).empty = false := by
      simp [string_view.empty, hs, h0]
    simp only [string_view.to_utf8, string_view.to_utf16, string_view.to_utf32, he, if_neg h0,
      Bool.false_eq_true, if_false, string_view.encoding, string_view.char_size,
      string_view.view, string_view.data, string_view.size, hs, hc]
    cases w <;> cases hch : src.char <;>
      simp [sizeof_char, convert_as, encoding_of, basic_string_view.mem]

theorem source_string_size (c : char_type) (str : List Nat) :
    (source.string c str).size = str.length := rfl

theorem make_size_bytes (w : wchar_width) (src : source) :
    (string_view.make w src).size_bytes = src.size % 4294967296 * sizeof_char w src.char := by
  unfold string_view.size_bytes string_view.char_size
  rw [make_char_size, make_size]

/-! ## The two UTF-8 counters -/

/-- Where the scan meets no byte of sequence length 0, the loops of `u8_length` and of
`u8_to_u32_length` return the same count, with a budget of one iteration per byte of the
range or per byte of the buffer. -/
theorem u8_length_loops_agree {str : List Nat} {size i : Nat} (h : ScanMeetsNoZero str size i) :
    ∃ k, k ≤ size - i ∧ ∀ (fuel dist : Nat), size ≤ fuel + i ∨ str.length + 1 ≤ fuel + i →
      u8_length_loop str size fuel i dist = .ret (dist + k)
      ∧ u8_to_u32_length_loop str size fuel i dist = .ret (dist + k) := by
  induction h with
  | done i hi =>
    refine ⟨0, by omega, fun fuel dist _ => ⟨?_, ?_⟩⟩
    · cases fuel <;> rw [u8_length_loop, if_neg hi] <;> rfl
    · cases fuel <;> rw [u8_to_u32_length_loop, if_neg hi] <;> rfl
  | step i c hi hc hz _ ih =>
    obtain ⟨k, hk, hloop⟩ := ih
    have hlen := lt_length_of_getElem?_eq_some hc
    have hmax : max 1 (detail.sequence_length c) = detail.sequence_length c := by omega
    refine ⟨k + 1, by omega, fun fuel dist hf => ?_⟩
    obtain ⟨f, rfl⟩ : ∃ f, fuel = f + 1 := ⟨fuel - 1, by omega⟩
    obtain ⟨h1, h2⟩ := hloop f (dist + 1) (by omega)
    have e : dist + (k + 1) = dist + 1 + k := by omega
    refine ⟨?_, ?_⟩
    · rw [u8_length_loop, if_pos hi, hc, e]
      exact h1
    · rw [u8_to_u32_length_loop_succ str size f i dist c hi hc, hmax, e]
      exact h2

/-! ## The output of `u32_to_u16` -/

/-- In paired UTF-16 every unit is below `2 ^ 16`, every high surrogate is followed by a low
surrogate and every low surrogate is preceded by a high surrogate. -/
theorem pairedU16_positions {L : List Nat} (h : PairedU16 L) :
    ∀ (i u : Nat), L[i]? = some u →
      u < 65536
      ∧ (0xD800 ≤ u ∧ u ≤ 0xDBFF → ∃ l, L[i + 1]? = some l ∧ 0xDC00 ≤ l ∧ l ≤ 0xDFFF)
      ∧ (0xDC00 ≤ u ∧ u ≤ 0xDFFF →
          ∃ j hi, i = j + 1 ∧ L[j]? = some hi ∧ 0xD800 ≤ hi ∧ hi ≤ 0xDBFF) := by
  induction h with
  | nil =>
    intro i u hu
    simp at hu
  | single v rest hv hns _ ih =>
    intro i u hu
    cases i with
    | zero =>
      simp only [List.getElem?_cons_zero, Option.some.injEq] at hu
      subst hu
      exact ⟨hv, fun hh => absurd (show 0xD800 ≤ v ∧ v ≤ 0xDFFF by omega) hns,
        fun hl => absurd (show 0xD800 ≤ v ∧ v ≤ 0xDFFF by omega) hns⟩
    | succ i =>
      simp only [List.getElem?_cons_succ] at hu
      obtain ⟨h1, h2, h3⟩ := ih i u hu
      refine ⟨h1, fun hh => ?_, fun hl => ?_⟩
      · simpa only [List.getElem?_cons_succ] using h2 hh
      · obtain ⟨j, hi, rfl, hj, hr⟩ := h3 hl
        exact ⟨j + 1, hi, rfl, by simpa only [List.getElem?_cons_succ] using hj, hr⟩
  | pair a b rest ha hb _ ih =>
    intro i u hu
    cases i with
    | zero =>
      simp only [List.getElem?_cons_zero, Option.some.injEq] at hu
      subst hu
      exact ⟨by omega, fun _ => ⟨b, by simp, hb⟩, fun hl => by omega⟩
    | succ i =>
      cases i with
      | zero =>
        simp only [List.getElem?_cons_succ, List.getElem?_cons_zero, Option.some.injEq] at hu
        subst hu
        exact ⟨by omega, fun hh => by omega, fun _ => ⟨0, a, rfl, by simp, ha⟩⟩
      | succ i =>
        simp only [List.getElem?_cons_succ] at hu
        obtain ⟨h1, h2, h3⟩ := ih i u hu
        refine ⟨h1, fun hh => ?_, fun hl => ?_⟩
        · simpa only [List.getElem?_cons_succ] using h2 hh
        · obtain ⟨j, hi, rfl, hj, hr⟩ := h3 hl
          exact ⟨j + 1 + 1, hi, rfl, by simpa only [List.getElem?_cons_succ] using hj, hr⟩

/-- The units that the body of `u32_to_u16` writes for a 32-bit value are those it writes
for the value after substitution, which is a valid code point. -/
theorem u32_to_u16_units_replace_invalid (c : Nat) (hc : c < 4294967296) :
    u32_to_u16_units c = u32_to_u16_units (replace_invalid c)
    ∧ replace_invalid c ≤ 0x10FFFF
    ∧ ¬ (0xD800 ≤ replace_invalid c ∧ replace_invalid c ≤ 0xDFFF) := by
  unfold replace_invalid
  by_cases hv : c ≤ 0x10FFFF ∧ ¬ (0xD800 ≤ c ∧ c ≤ 0xDFFF)
  · rw [if_pos hv]
    exact ⟨rfl, hv.1, hv.2⟩
  · rw [if_neg hv]
    have h32 : to_u32 c = c := Nat.mod_eq_of_lt hc
    refine ⟨?_, by omega, by omega⟩
    rw [u32_to_u16_units_subst c (by rw [h32]; omega),
      u32_to_u16_units_bmp 0xFFFD (by omega) (by omega)]

theorem utf16_of_replace_invalid (S : List Nat) (hS : ∀ c ∈ S, c < 4294967296) :
    utf16_of S = utf16_of (S.map replace_invalid) := by
  induction S with
  | nil => rfl
  | cons c S ih =>
    rw [List.map_cons, utf16_of, utf16_of, ih (fun x hx => hS x (by simp [hx])),
      (u32_to_u16_units_replace_invalid c (hS c (by simp))).1]

/-- What `u32_to_u16` writes for valid code points is paired UTF-16. -/
theorem pairedU16_utf16_of (S : List Nat)
    (hS : ∀ cp ∈ S, cp ≤ 0x10FFFF ∧ ¬ (0xD800 ≤ cp ∧ cp ≤ 0xDFFF)) :
    PairedU16 (utf16_of S) := by
  induction S with
  | nil => exact .nil
  | cons c S ih =>
    obtain ⟨hc1, hc2⟩ := hS c (by simp)
    have ih' := ih (fun x hx => hS x (by simp [hx]))
    rw [utf16_of]
    by_cases hb : c ≤ 0xFFFF
    · rw [u32_to_u16_units_bmp c hb hc2]
      exact .single c _ (by omega) hc2 ih'
    · rw [u32_to_u16_units_pair c (by omega) hc1]
      exact .pair _ _ _ (by omega) (by omega) ih'

/-! ## The positions read by the UTF-8 decoders -/

/-- On the encoding of `S` the decoding loop starts its iterations at the first bytes of the
code points of `S` and ends at the end of the buffer. -/
theorem u8_decode_positions_utf8_of (S : List Nat) (hS : ∀ c ∈ S, c < 0x200000) :
    ∀ (pre visited : List Nat) (fuel : Nat), S.length ≤ fuel →
    u8_decode_positions (pre ++ utf8_of S) (pre.length + (utf8_of S).length) fuel pre.length
        visited
      = .ret (visited ++ code_point_starts pre.length S, pre.length + (utf8_of S).length) := by
  induction S with
  | nil =>
    intro pre visited fuel _
    cases fuel <;> simp [u8_decode_positions, utf8_of, code_point_starts]
  | cons c S ih =>
    intro pre visited fuel hf
    obtain ⟨f, rfl⟩ : ∃ f, fuel = f + 1 := ⟨fuel - 1, by simp at hf; omega⟩
    have hc : c < 0x200000 := hS c (by simp)
    have hpos := code_point_size_u8_pos c
    have hlt : pre.length < pre.length + (utf8_of (c :: S)).length := by
      simp [utf8_of, append_u32_to_u8_length]; omega
    have e : pre ++ utf8_of (c :: S) = pre ++ append_u32_to_u8 c [] ++ utf8_of S := by
      simp [utf8_of]
    rw [u8_decode_positions, if_pos hlt, e, next_u8_to_u32_append c hc]
    have e2 : pre.length + (utf8_of (c :: S)).length
        = (pre ++ append_u32_to_u8 c []).length + (utf8_of S).length := by
      simp [utf8_of]; omega
    have e3 : pre.length + code_point_size_u8 c = (pre ++ append_u32_to_u8 c []).length := by
      simp [append_u32_to_u8_length]
    simp only []
    rw [e2, e3, ih (fun x hx => hS x (by simp [hx])) _ _ f (by simp at hf; omega)]
    simp [code_point_starts, append_u32_to_u8_length]

/-- At the first byte of each code point of `S` the decode step returns a code point of `S`
and stays inside the encoding of `S`. -/
theorem next_u8_to_u32_at_starts (S : List Nat) (hS : ∀ c ∈ S, c < 0x200000) :
    ∀ (pre : List Nat) (p : Nat), p ∈ code_point_starts pre.length S →
    ∃ cp, cp ∈ S ∧ pre.length ≤ p
      ∧ next_u8_to_u32 (pre ++ utf8_of S) p = .ret (cp, p + code_point_size_u8 cp)
      ∧ p + code_point_size_u8 cp ≤ pre.length + (utf8_of S).length := by
  induction S with
  | nil =>
    intro pre p hp
    simp [code_point_starts] at hp
  | cons c S ih =>
    intro pre p hp
    have hc : c < 0x200000 := hS c (by simp)
    have e : pre ++ utf8_of (c :: S) = pre ++ append_u32_to_u8 c [] ++ utf8_of S := by
      simp [utf8_of]
    have hlen : (utf8_of (c :: S)).length = code_point_size_u8 c + (utf8_of S).length := by
      simp [utf8_of, append_u32_to_u8_length]
    rw [code_point_starts, List.mem_cons] at hp
    rcases hp with rfl | hp
    · refine ⟨c, by simp, le_refl _, ?_, by omega⟩
      rw [e]
      exact next_u8_to_u32_append c hc pre (utf8_of S)
    · have e3 : pre.length + code_point_size_u8 c = (pre ++ append_u32_to_u8 c []).length := by
        simp [append_u32_to_u8_length]
      rw [e3] at hp
      obtain ⟨cp, hcp, hle, hn, hb⟩ := ih (fun x hx => hS x (by simp [hx])) _ p hp
      refine ⟨cp, by simp [hcp], by omega, ?_, ?_⟩
      · rw [e]
        exact hn
      · rw [← e3] at hb
        omega

/-! ## Transcoding one slice of the iterator -/

/-- The decode step returns when the bytes that the lead byte announces are in memory. -/
theorem next_u8_to_u32_of_room (mem : List Nat) (it b : Nat) (hb : mem[it]? = some b)
    (hr : it + detail.sequence_length b ≤ mem.length) :
    ∃ cp, next_u8_to_u32 mem it = .ret (cp, it + max 1 (detail.sequence_length b)) := by
  have hle := sequence_length_le b
  have hcases : detail.sequence_length b = 0 ∨ detail.sequence_length b = 1
      ∨ detail.sequence_length b = 2 ∨ detail.sequence_length b = 3
      ∨ detail.sequence_length b = 4 := by omega
  rcases hcases with hs | hs | hs | hs | hs
  · exact ⟨_, by rw [hs]; exact next_u8_to_u32_zero_length mem it b hb hs⟩
  · exact ⟨_, by rw [hs]; exact next_u8_to_u32_len1 mem it b hb hs⟩
  · have h1 : mem[it + 1]? = some mem[it + 1] := List.getElem?_eq_getElem (by omega)
    exact ⟨_, by rw [hs]; exact next_u8_to_u32_len2 mem it b _ hb hs h1⟩
  · have h1 : mem[it + 1]? = some mem[it + 1] := List.getElem?_eq_getElem (by omega)
    have h2 : mem[it + 2]? = some mem[it + 2] := List.getElem?_eq_getElem (by omega)
    exact ⟨_, by rw [hs]; exact next_u8_to_u32_len3 mem it b _ _ hb hs h1 h2⟩
  · have h1 : mem[it + 1]? = some mem[it + 1] := List.getElem?_eq_getElem (by omega)
    have h2 : mem[it + 2]? = some mem[it + 2] := List.getElem?_eq_getElem (by omega)
    have h3 : mem[it + 3]? = some mem[it + 3] := List.getElem?_eq_getElem (by omega)
    exact ⟨_, by rw [hs]; exact next_u8_to_u32_len4 mem it b _ _ _ hb hs h1 h2 h3⟩

theorem u8_to_u16_loop_done (m : List Nat) (end_ f : Nat) (out : List Nat) :
    u8_to_u16_loop m end_ f end_ out = .ret out := by
  cases f <;> rw [u8_to_u16_loop, if_neg (lt_irrefl _)]

theorem u8_to_u32_loop_done (m : List Nat) (end_ f : Nat) (out : List Nat) :
    u8_to_u32_loop m end_ f end_ out = .ret out := by
  cases f <;> rw [u8_to_u32_loop, if_neg (lt_irrefl _)]

theorem u16_to_u8_loop_done (m : List Nat) (end_ f : Nat) (out : List Nat) :
    u16_to_u8_loop m end_ f end_ out = .ret out := by
  cases f <;> rw [u16_to_u8_loop, if_neg (fun h => h rfl)]

theorem u16_to_u32_loop_done (m : List Nat) (end_ f : Nat) (out : List Nat) :
    u16_to_u32_loop m end_ f end_ out = .ret out := by
  cases f <;> rw [u16_to_u32_loop, if_neg (fun h => h rfl)]

theorem u32_to_u8_loop_done (m : List Nat) (end_ f : Nat) (out : List Nat) :
    u32_to_u8_loop m end_ f end_ out = .ret out := by
  cases f <;> rw [u32_to_u8_loop, if_neg (fun h => h rfl)]

theorem u32_to_u16_loop_done (m : List Nat) (end_ f : Nat) (out : List Nat) :
    u32_to_u16_loop m end_ f end_ out = .ret out := by
  cases f <;> rw [u32_to_u16_loop, if_neg (fun h => h rfl)]

theorem code_point_size_u8_le (cp : Nat) : code_point_size_u8 cp ≤ 4 := by
  unfold code_point_size_u8
  simp only []
  split_ifs <;> omega

/-- A UTF-8 slice of the iterator (the bytes announced by its first byte) gives at most two
UTF-16 units and at most one UTF-32 unit. -/
theorem u8_slice_bound (m : List Nat) (c : Nat) (hc : m[0]? = some c)
    (hn : detail.sequence_length c ≤ m.length) :
    (∃ out, u8_to_u16 m 0 (detail.sequence_length c) [] = .ret out ∧ out.length ≤ 2)
    ∧ (∃ out, u8_to_u32 m 0 (detail.sequence_length c) [] = .ret out ∧ out.length ≤ 1) := by
  have hlen := lt_length_of_getElem?_eq_some hc
  obtain ⟨f, hf⟩ : ∃ f, m.length = f + 1 := ⟨m.length - 1, by omega⟩
  by_cases h0 : detail.sequence_length c = 0
  · rw [h0]
    exact ⟨⟨[], by simp [u8_to_u16, u8_to_u16_loop], by simp⟩,
      ⟨[], by simp [u8_to_u32, u8_to_u32_loop], by simp⟩⟩
  · obtain ⟨cp, hcp⟩ := next_u8_to_u32_of_room m 0 c hc (by omega)
    have hmax : 0 + max 1 (detail.sequence_length c) = detail.sequence_length c := by omega
    rw [hmax] at hcp
    have hpos : 0 < detail.sequence_length c := by omega
    have hnn : ¬ detail.sequence_length c < detail.sequence_length c := lt_irrefl _
    refine ⟨?_, ?_⟩
    · unfold u8_to_u16
      rw [hf, u8_to_u16_loop, if_pos hpos, hcp]
      simp only []
      by_cases hbig : cp > 0xFFFF
      · rw [if_pos hbig]
        rw [u8_to_u16_loop_done]
        refine ⟨_, rfl, ?_⟩
        simp
      · rw [if_neg hbig]
        rw [u8_to_u16_loop_done]
        refine ⟨_, rfl, ?_⟩
        simp
    · unfold u8_to_u32
      rw [hf, u8_to_u32_loop, if_pos hpos, hcp]
      simp only []
      rw [u8_to_u32_loop_done]
      refine ⟨_, rfl, ?_⟩
      simp

/-- A UTF-16 slice of the iterator (one unit, or two when the first is a high surrogate)
gives at most four UTF-8 bytes and one UTF-32 unit. -/
theorem u16_slice_bound (m : List Nat) (c : Nat) (hc : m[0]? = some c)
    (hn : detail.u16_sequence_length (detail.cast_16 c) ≤ m.length) :
    (∃ out, u16_to_u8 m 0 (detail.u16_sequence_length (detail.cast_16 c)) [] = .ret out
      ∧ out.length ≤ 4)
    ∧ (∃ out, u16_to_u32 m 0 (detail.u16_sequence_length (detail.cast_16 c)) [] = .ret out
      ∧ out.length ≤ 1) := by
  have hlen := lt_length_of_getElem?_eq_some hc
  obtain ⟨f, hf⟩ : ∃ f, m.length = f + 1 := ⟨m.length - 1, by omega⟩
  have hseq := u16_sequence_length_eq (detail.cast_16 c)
  rw [is_high_surrogate_cast_16] at hseq
  have hstep : ∃ cp, next_u16 m 0
      = .ret (cp, detail.u16_sequence_length (detail.cast_16 c)) := by
    unfold next_u16
    rw [hc]
    simp only [is_high_surrogate_cast_16]
    by_cases hh : detail.is_high_surrogate c = true
    · rw [if_pos hh] at hseq
      rw [hseq] at hn ⊢
      have h1 : m[0 + 1]? = some m[1] := List.getElem?_eq_getElem (by omega)
      rw [if_pos hh, h1]
      exact ⟨_, rfl⟩
    · rw [if_neg hh] at hseq
      rw [hseq, if_neg hh]
      exact ⟨_, rfl⟩
  obtain ⟨cp, hcp⟩ := hstep
  have hne : (0 : Nat) ≠ detail.u16_sequence_length (detail.cast_16 c) := by
    rw [hseq]
    split_ifs <;> omega
  have hnn : ¬ detail.u16_sequence_length (detail.cast_16 c)
      ≠ detail.u16_sequence_length (detail.cast_16 c) := fun h => h rfl
  refine ⟨?_, ?_⟩
  · unfold u16_to_u8
    rw [hf, u16_to_u8_loop, if_pos hne, hcp]
    simp only []
    rw [u16_to_u8_loop_done]
    refine ⟨_, rfl, ?_⟩
    rw [append_u32_to_u8_length]
    exact code_point_size_u8_le cp
  · unfold u16_to_u32
    rw [hf, u16_to_u32_loop, if_pos hne, hcp]
    simp only []
    rw [u16_to_u32_loop_done]
    refine ⟨_, rfl, ?_⟩
    simp

/-- A UTF-32 slice of the iterator (one unit) gives at most four UTF-8 bytes and at most two
UTF-16 units. -/
theorem u32_slice_bound (m : List Nat) (c : Nat) (hc : m[0]? = some c) :
    (∃ out, u32_to_u8 m 0 1 [] = .ret out ∧ out.length ≤ 4)
    ∧ (∃ out, u32_to_u16 m 0 1 [] = .ret out ∧ out.length ≤ 2) := by
  have hlen := lt_length_of_getElem?_eq_some hc
  obtain ⟨f, hf⟩ : ∃ f, m.length = f + 1 := ⟨m.length - 1, by omega⟩
  have hne : (0 : Nat) ≠ 1 := by decide
  have hnn : ¬ (0 + 1 : Nat) ≠ 1 := fun h => h rfl
  refine ⟨?_, ?_⟩
  · unfold u32_to_u8
    rw [hf, u32_to_u8_loop, if_pos hne, hc]
    simp only []
    rw [u32_to_u8_loop_done]
    refine ⟨_, rfl, ?_⟩
    rw [append_u32_to_u8_length]
    exact code_point_size_u8_le c
  · unfold u32_to_u16
    rw [hf, u32_to_u16_loop, if_pos hne, hc]
    simp only []
    rw [u32_to_u16_loop_done]
    refine ⟨_, rfl, ?_⟩
    rw [List.nil_append, u32_to_u16_units_length]
    split_ifs <;> omega

/-- With differing encodings, `copy` on one slice of the iterator returns at most
`encoding_to_max_char_count` units of the target encoding. -/
theorem copy_slice_bound (w : wchar_width) (input output : char_type)
    (hne : encoding_of w input ≠ encoding_of w output) (m : List Nat) (c : Nat)
    (hc : m[0]? = some c)
    (hn : detail.iterator_sequence_length (encoding_of w input) c ≤ m.length) :
    ∃ written,
      copy w output input
          { data := some m, size := detail.iterator_sequence_length (encoding_of w input) c } []
        = .ret written
      ∧ written.length ≤ encoding_to_max_char_count (encoding_of w output) := by
  unfold copy
  cases hi : encoding_of w input <;> cases ho : encoding_of w output <;>
    rw [hi] at hn <;>
    simp only [detail.iterator_sequence_length, basic_string_view.mem, Option.getD_some,
      encoding_to_max_char_count] at hn ⊢
  · exact absurd (hi.trans ho.symm) hne
  · exact (u8_slice_bound m c hc hn).1
  · exact (u8_slice_bound m c hc hn).2
  · exact (u16_slice_bound m c hc hn).1
  · exact absurd (hi.trans ho.symm) hne
  · exact (u16_slice_bound m c hc hn).2
  · exact (u32_slice_bound m c hc).1
  · exact (u32_slice_bound m c hc).2
  · exact absurd (hi.trans ho.symm) hne

/-! ## Strings that encode a sequence of code points -/

theorem encode_utf8 (S : List Nat) : encode .utf8 S = utf8_of S := by
  induction S with
  | nil => rfl
  | cons c S ih => rw [encode, utf8_of, ih]; rfl

theorem encode_utf16 (S : List Nat) : encode .utf16 S = utf16_of S := by
  induction S with
  | nil => rfl
  | cons c S ih => rw [encode, utf16_of, ih]; rfl

theorem encode_utf32 (S : List Nat) : encode .utf32 S = S := by
  induction S with
  | nil => rfl
  | cons c S ih => rw [encode, ih]; rfl

theorem encode_one_length_pos (e : encoding) (c : Nat) : 0 < (encode_one e c).length := by
  cases e
  · rw [encode_one, append_u32_to_u8_length]
    exact code_point_size_u8_pos c
  · exact u32_to_u16_units_length_pos c
  · simp [encode_one]

theorem length_le_encode (e : encoding) (S : List Nat) : S.length ≤ (encode e S).length := by
  induction S with
  | nil => simp [encode]
  | cons c S ih =>
    have := encode_one_length_pos e c
    simp only [encode, List.length_append, List.length_cons]
    omega

/-- On the UTF-16 form of valid code points `u16_to_u8` writes their UTF-8 form. -/
theorem u16_to_u8_loop_utf16_of (S : List Nat)
    (hS : ∀ cp ∈ S, cp ≤ 0x10FFFF ∧ ¬ (0xD800 ≤ cp ∧ cp ≤ 0xDFFF)) :
    ∀ (pre out : List Nat) (fuel : Nat), S.length ≤ fuel →
    u16_to_u8_loop (pre ++ utf16_of S) (pre.length + (utf16_of S).length) fuel pre.length out
      = .ret (out ++ utf8_of S) := by
  induction S with
  | nil =>
    intro pre out fuel _
    cases fuel <;> simp [u16_to_u8_loop, utf16_of, utf8_of]
  | cons c S ih =>
    intro pre out fuel hf
    obtain ⟨f, rfl⟩ : ∃ f, fuel = f + 1 := ⟨fuel - 1, by simp at hf; omega⟩
    obtain ⟨hc1, hc2⟩ := hS c (by simp)
    have hpos := u32_to_u16_units_length_pos c
    have hlen : (utf16_of (c :: S)).length
        = (u32_to_u16_units c).length + (utf16_of S).length := by
      simp [utf16_of]
    have hne : pre.length ≠ pre.length + (utf16_of (c :: S)).length := by omega
    have e : pre ++ utf16_of (c :: S) = pre ++ u32_to_u16_units c ++ utf16_of S := by
      simp [utf16_of]
    rw [u16_to_u8_loop, if_pos hne, e, next_u16_units c hc1 hc2]
    have e2 : pre.length + (utf16_of (c :: S)).length
        = (pre ++ u32_to_u16_units c).length + (utf16_of S).length := by
      simp [utf16_of]; omega
    have e3 : pre.length + (u32_to_u16_units c).length = (pre ++ u32_to_u16_units c).length := by
      simp
    simp only []
    rw [e2, e3, ih (fun x hx => hS x (by simp [hx])) _ _ f (by simp at hf; omega),
      append_u32_to_u8_eq c out, utf8_of, List.append_assoc]

/-- The conversion `convert_as` of the string that encodes valid code points is the string
that encodes them in the target encoding. -/
theorem convert_as_encode (w : wchar_width) (input output : char_type) (S : List Nat)
    (hS : ∀ cp ∈ S, cp ≤ 0x10FFFF ∧ ¬ (0xD800 ≤ cp ∧ cp ≤ 0xDFFF)) :
    convert_as w output input
        { data := some (encode (encoding_of w input) S),
          size := (encode (encoding_of w input) S).length }
      = .ret (encode (encoding_of w output) S) := by
  have hS' : ∀ c ∈ S, c < 0x200000 := fun c hc => by have := (hS c hc).1; omega
  have h8 : S.length ≤ (utf8_of S).length + 1 := by have := length_le_utf8_of S; omega
  have h16 : S.length ≤ (utf16_of S).length + 1 := by have := length_le_utf16_of S; omega
  unfold convert_as
  cases hi : encoding_of w input <;> cases ho : encoding_of w output <;>
    simp only [encode_utf8, encode_utf16, encode_utf32, basic_string_view.mem,
      Option.getD_some, basic_string_from, le_refl, if_true, List.take_length]
  · have h := u8_to_u16_loop_utf8_of S hS [] [] _ h8
    simpa [u8_to_u16] using h
  · have h := u8_to_u32_loop_utf8_of S hS' [] [] _ h8
    simpa [u8_to_u32] using h
  · have h := u16_to_u8_loop_utf16_of S hS [] [] _ h16
    simpa [u16_to_u8] using h
  · have h := u16_to_u32_loop_utf16_of S hS [] [] _ h16
    simpa [u16_to_u32] using h
  · exact u32_to_u8_run S
  · exact u32_to_u16_run S

/-- The function `length` counts the code points of the string that encodes them. -/
theorem length_encode (w : wchar_width) (input : char_type) (S : List Nat)
    (hS : ∀ cp ∈ S, cp ≤ 0x10FFFF ∧ ¬ (0xD800 ≤ cp ∧ cp ≤ 0xDFFF)) (fuel : Nat)
    (hf : (encode (encoding_of w input) S).length ≤ fuel) :
    length w input fuel
        { data := some (encode (encoding_of w input) S),
          size := (encode (encoding_of w input) S).length }
      = .ret S.length := by
  have hS' : ∀ c ∈ S, c < 0x200000 := fun c hc => by have := (hS c hc).1; omega
  have hle := length_le_encode (encoding_of w input) S
  unfold length
  cases hi : encoding_of w input <;> rw [hi] at hf hle <;>
    simp only [encode_utf8, encode_utf16, encode_utf32, basic_string_view.mem,
      Option.getD_some] at hf hle ⊢
  · have h := u8_length_loop_utf8_of S hS' [] [] 0 fuel (by omega)
    simpa [u8_length] using h
  · have h := u16_length_loop_utf16_of S hS [] [] 0 (utf16_of S).length (by omega)
    simpa [u16_length] using h
  · rfl

/-! ## One step of the transcoding iterator on an encoded code point -/

/-- The first unit of an encoded valid code point announces the number of its units. -/
theorem encode_one_lead (e : encoding) (c : Nat)
    (hc : c ≤ 0x10FFFF ∧ ¬ (0xD800 ≤ c ∧ c ≤ 0xDFFF)) :
    ∃ lead tail, encode_one e c = lead :: tail
      ∧ detail.iterator_sequence_length e lead = (encode_one e c).length := by
  cases e
  · obtain ⟨lead, tail, he, hl⟩ := append_u32_to_u8_lead c (by omega)
    refine ⟨lead, tail, he, ?_⟩
    simp only [encode_one, detail.iterator_sequence_length, append_u32_to_u8_length]
    exact hl
  · simp only [encode_one, detail.iterator_sequence_length, u16_sequence_length_eq,
      is_high_surrogate_cast_16]
    by_cases hb : c ≤ 0xFFFF
    · rw [u32_to_u16_units_bmp c hb hc.2]
      refine ⟨c, [], rfl, ?_⟩
      have hn : ¬ detail.is_high_surrogate c = true := by
        rw [is_high_surrogate_iff c (by omega)]
        omega
      rw [if_neg hn]
      rfl
    · rw [u32_to_u16_units_pair c (by omega) hc.1]
      refine ⟨_, [_], rfl, ?_⟩
      have hh : detail.is_high_surrogate ((c - 0x10000) / 1024 + 0xD800) = true := by
        rw [is_high_surrogate_iff _ (by omega)]
        omega
      rw [if_pos hh]
      rfl
  · exact ⟨c, [], rfl, rfl⟩

/-- The increment of the iterator at the first unit of an encoded code point moves past its
units. -/
theorem increment_encode_one (e : encoding) (c : Nat)
    (hc : c ≤ 0x10FFFF ∧ ¬ (0xD800 ≤ c ∧ c ≤ 0xDFFF)) (pre rest : List Nat) :
    basic_iterator.increment e (pre ++ encode_one e c ++ rest) pre.length
      = .ret (pre.length + (encode_one e c).length) := by
  obtain ⟨lead, tail, he, hl⟩ := encode_one_lead e c hc
  unfold basic_iterator.increment detail.base_iterator.advance
  rw [← hl, he, List.append_assoc, List.cons_append, getElem?_at_length]

theorem u8_to_u16_encode_one (c : Nat) (hc : c ≤ 0x10FFFF ∧ ¬ (0xD800 ≤ c ∧ c ≤ 0xDFFF))
    (rest : List Nat) :
    u8_to_u16 (append_u32_to_u8 c [] ++ rest) 0 (append_u32_to_u8 c []).length []
      = .ret (u32_to_u16_units c) := by
  have hpos := code_point_size_u8_pos c
  have hn := next_u8_to_u32_append c (by omega) [] rest
  simp only [List.nil_append, List.length_nil, Nat.zero_add] at hn
  unfold u8_to_u16
  rw [append_u32_to_u8_length, u8_to_u16_loop, if_pos hpos, hn]
  simp only [List.nil_append]
  by_cases hb : c ≤ 0xFFFF
  · have h16 : detail.cast_16 c = c := Nat.mod_eq_of_lt (by omega)
    rw [if_neg (by omega), u8_to_u16_loop_done, h16, u32_to_u16_units_bmp c hb hc.2]
  · rw [if_pos (by omega), u8_to_u16_loop_done, u8_to_u16_pair_eq c (by omega) hc.1]

theorem u8_to_u32_encode_one (c : Nat) (hc : c < 0x200000) (rest : List Nat) :
    u8_to_u32 (append_u32_to_u8 c [] ++ rest) 0 (append_u32_to_u8 c []).length []
      = .ret [c] := by
  have hpos := code_point_size_u8_pos c
  have hn := next_u8_to_u32_append c hc [] rest
  simp only [List.nil_append, List.length_nil, Nat.zero_add] at hn
  unfold u8_to_u32
  rw [append_u32_to_u8_length, u8_to_u32_loop, if_pos hpos, hn]
  simp only [List.nil_append]
  rw [u8_to_u32_loop_done]

theorem u16_to_u8_encode_one (c : Nat) (hc : c ≤ 0x10FFFF ∧ ¬ (0xD800 ≤ c ∧ c ≤ 0xDFFF))
    (rest : List Nat) :
    u16_to_u8 (u32_to_u16_units c ++ rest) 0 (u32_to_u16_units c).length []
      = .ret (append_u32_to_u8 c []) := by
  have hpos := u32_to_u16_units_length_pos c
  have hn := next_u16_units c hc.1 hc.2 [] rest
  simp only [List.nil_append, List.length_nil, Nat.zero_add] at hn
  unfold u16_to_u8
  rw [u16_to_u8_loop, if_pos (by omega), hn]
  simp only []
  rw [u16_to_u8_loop_done]

theorem u16_to_u32_encode_one (c : Nat) (hc : c ≤ 0x10FFFF ∧ ¬ (0xD800 ≤ c ∧ c ≤ 0xDFFF))
    (rest : List Nat) :
    u16_to_u32 (u32_to_u16_units c ++ rest) 0 (u32_to_u16_units c).length []
      = .ret [c] := by
  have hpos := u32_to_u16_units_length_pos c
  have hn := next_u16_units c hc.1 hc.2 [] rest
  simp only [List.nil_append, List.length_nil, Nat.zero_add] at hn
  unfold u16_to_u32
  rw [u16_to_u32_loop, if_pos (by omega), hn]
  simp only [List.nil_append]
  rw [u16_to_u32_loop_done]

theorem u32_to_u8_encode_one (c : Nat) (rest : List Nat) :
    u32_to_u8 (c :: rest) 0 1 [] = .ret (append_u32_to_u8 c []) := by
  unfold u32_to_u8
  rw [u32_to_u8_loop, if_pos (by decide)]
  simp only [List.getElem?_cons_zero]
  rw [u32_to_u8_loop_done]

theorem u32_to_u16_encode_one (c : Nat) (rest : List Nat) :
    u32_to_u16 (c :: rest) 0 1 [] = .ret (u32_to_u16_units c) := by
  unfold u32_to_u16
  rw [u32_to_u16_loop, if_pos (by decide)]
  simp only [List.getElem?_cons_zero, List.nil_append]
  rw [u32_to_u16_loop_done]

/-- With differing encodings, `copy` on the units of one encoded code point writes its units
in the target encoding. -/
theorem copy_encode_one (w : wchar_width) (input output : char_type)
    (hne : encoding_of w input ≠ encoding_of w output) (c : Nat)
    (hc : c ≤ 0x10FFFF ∧ ¬ (0xD800 ≤ c ∧ c ≤ 0xDFFF)) (rest : List Nat) :
    copy w output input
        { data := some (encode_one (encoding_of w input) c ++ rest),
          size := (encode_one (encoding_of w input) c).length } []
      = .ret (encode_one (encoding_of w output) c) := by
  unfold copy
  cases hi : encoding_of w input <;> cases ho : encoding_of w output <;>
    simp only [encode_one, basic_string_view.mem, Option.getD_some]
  · exact absurd (hi.trans ho.symm) hne
  · exact u8_to_u16_encode_one c hc rest
  · exact u8_to_u32_encode_one c (by omega) rest
  · exact u16_to_u8_encode_one c hc rest
  · exact absurd (hi.trans ho.symm) hne
  · exact u16_to_u32_encode_one c hc rest
  · exact u32_to_u8_encode_one c rest
  · exact u32_to_u16_encode_one c rest
  · exact absurd (hi.trans ho.symm) hne

theorem encode_one_length_le (e : encoding) (c : Nat) :
    (encode_one e c).length ≤ encoding_to_max_char_count e := by
  cases e
  · rw [encode_one, append_u32_to_u8_length]
    exact code_point_size_u8_le c
  · rw [encode_one, u32_to_u16_units_length]
    simp only [encoding_to_max_char_count]
    split_ifs <;> omega
  · simp [encode_one, encoding_to_max_char_count]

/-- Dereferencing the iterator at the first unit of an encoded code point gives a view whose
units are the code point in the target encoding. -/
theorem get_encode_one (w : wchar_width) (input output : char_type) (c : Nat)
    (hc : c ≤ 0x10FFFF ∧ ¬ (0xD800 ≤ c ∧ c ≤ 0xDFFF)) (pre rest : List Nat) :
    ∃ v, detail.base_iterator.get w input output
          (pre ++ encode_one (encoding_of w input) c ++ rest) pre.length = .ret v
      ∧ basic_string_from v.data v.size = .ret (encode_one (encoding_of w output) c) := by
  obtain ⟨lead, tail, he, hl⟩ := encode_one_lead (encoding_of w input) c hc
  have hmem : (pre ++ encode_one (encoding_of w input) c ++ rest)[pre.length]? = some lead := by
    rw [he, List.append_assoc, List.cons_append, getElem?_at_length]
  have hdrop : (pre ++ encode_one (encoding_of w input) c ++ rest).drop pre.length
      = encode_one (encoding_of w input) c ++ rest := by
    rw [List.append_assoc, List.drop_left]
  unfold detail.base_iterator.get
  rw [hmem]
  simp only [hl, hdrop]
  by_cases heq : encoding_of w input = encoding_of w output
  · rw [if_pos heq]
    refine ⟨_, rfl, ?_⟩
    simp only [basic_string_from, List.length_append]
    rw [if_pos (by omega), List.take_left, heq]
  · rw [if_neg heq, copy_encode_one w input output heq c hc rest]
    simp only [if_pos (encode_one_length_le (encoding_of w output) c)]
    refine ⟨_, rfl, ?_⟩
    simp [basic_string_from]

/-- The traversal of `iterate_as` over the string that encodes valid code points collects
their encoding in the target encoding and visits one position per code point. -/
theorem iterate_collect_encode (w : wchar_width) (input output : char_type) (S : List Nat)
    (hS : ∀ cp ∈ S, cp ≤ 0x10FFFF ∧ ¬ (0xD800 ≤ cp ∧ cp ≤ 0xDFFF)) :
    ∀ (pre result : List Nat) (visited fuel : Nat), S.length ≤ fuel →
    iterate_collect w input output (pre ++ encode (encoding_of w input) S)
        (pre.length + (encode (encoding_of w input) S).length) fuel pre.length result visited
      = .ret (result ++ encode (encoding_of w output) S, visited + S.length) := by
  induction S with
  | nil =>
    intro pre result visited fuel _
    cases fuel <;> simp [iterate_collect, encode]
  | cons c S ih =>
    intro pre result visited fuel hf
    obtain ⟨f, rfl⟩ : ∃ f, fuel = f + 1 := ⟨fuel - 1, by simp at hf; omega⟩
    have hc := hS c (by simp)
    have hpos := encode_one_length_pos (encoding_of w input) c
    have hlen : (encode (encoding_of w input) (c :: S)).length
        = (encode_one (encoding_of w input) c).length
          + (encode (encoding_of w input) S).length := by
      simp [encode]
    have hne : pre.length ≠ pre.length + (encode (encoding_of w input) (c :: S)).length := by
      omega
    have e : pre ++ encode (encoding_of w input) (c :: S)
        = pre ++ encode_one (encoding_of w input) c ++ encode (encoding_of w input) S := by
      simp [encode]
    obtain ⟨v, hget, hunits⟩ := get_encode_one w input output c hc pre
      (encode (encoding_of w input) S)
    have hinc := increment_encode_one (encoding_of w input) c hc pre
      (encode (encoding_of w input) S)
    have e2 : pre.length + (encode (encoding_of w input) (c :: S)).length
        = (pre ++ encode_one (encoding_of w input) c).length
          + (encode (encoding_of w input) S).length := by
      simp [encode]; omega
    have e3 : pre.length + (encode_one (encoding_of w input) c).length
        = (pre ++ encode_one (encoding_of w input) c).length := by
      simp
    rw [iterate_collect, if_pos hne, e, hget]
    simp only [hunits, hinc]
    rw [e2, e3, ih (fun x hx => hS x (by simp [hx])) _ _ _ f (by simp at hf; omega)]
    simp [encode]
    omega
/-! ## The length of a pointer or literal source -/

/-- The units before the first zero unit of an array are what `takeWhile` keeps. -/
theorem takeWhile_first_zero (P rest : List Nat) (hz : ∀ u ∈ P, u ≠ 0) :
    (P ++ 0 :: rest).takeWhile (fun u => u != 0) = P := by
  induction P with
  | nil => simp
  | cons p P ih =>
    have hp : p ≠ 0 := hz p (by simp)
    have := ih (fun u hu => hz u (by simp [hu]))
    simp [List.takeWhile_cons, hp, this]

/-- The length that `std::basic_string_view<CharT>(s)` computes for an array is the number of
its units before the first zero unit. -/
theorem traits_length_first_zero (P rest : List Nat) (hz : ∀ u ∈ P, u ≠ 0) :
    traits_length (P ++ 0 :: rest) = P.length := by
  unfold traits_length
  rw [takeWhile_first_zero P rest hz]

/-- The decomposition of an array at its first zero unit is unique: when the characters
before the terminator hold no zero unit, they are the units before the first zero unit. -/
theorem first_zero_unique (chars P rest : List Nat) (hP : chars ++ [0] = P ++ 0 :: rest)
    (hz : ∀ u ∈ P, u ≠ 0) (hc : ∀ u ∈ chars, u ≠ 0) : P = chars := by
  have h1 := takeWhile_first_zero P rest hz
  have h2 := takeWhile_first_zero chars [] hc
  rw [← hP, h2] at h1
  exact h1.symm

/-- The view built from a pointer or from a literal: its members, with the length counted
up to the first zero unit. -/
theorem from_array_members (w : wchar_width) (c : char_type) (chars P rest : List Nat)
    (hP : chars ++ [0] = P ++ 0 :: rest) (hz : ∀ u ∈ P, u ≠ 0) :
    (string_view.from_view_null_terminated w c
        { data := some (chars ++ [0]), size := traits_length (chars ++ [0]) }).size
      = P.length % 4294967296
    ∧ (P.length < 4294967296 →
        (string_view.from_view_null_terminated w c
          { data := some (chars ++ [0]), size := traits_length (chars ++ [0]) }).size = P.length
        ∧ (string_view.from_view_null_terminated w c
          { data := some (chars ++ [0]), size := traits_length (chars ++ [0]) }).units = P) := by
  have ht : traits_length (chars ++ [0]) = P.length := by
    rw [hP]
    exact traits_length_first_zero P rest hz
  refine ⟨?_, fun h => ⟨?_, ?_⟩⟩
  · simp only [string_view.from_view_null_terminated, string_view.size, to_u32, ht]
  · simp only [string_view.from_view_null_terminated, string_view.size, to_u32, ht,
      Nat.mod_eq_of_lt h]
  · simp only [string_view.from_view_null_terminated, string_view.units, to_u32, ht,
      Nat.mod_eq_of_lt h, Option.getD_some]
    rw [hP, List.take_left]

/-- Every array that ends with a terminator has a first zero unit: it splits into units that
are not zero, a zero unit and the rest. -/
theorem first_zero_exists (chars : List Nat) :
    ∃ P rest, chars ++ [0] = P ++ 0 :: rest ∧ ∀ u ∈ P, u ≠ 0 := by
  induction chars with
  | nil => exact ⟨[], [], rfl, by simp⟩
  | cons a t ih =>
    by_cases ha : a = 0
    · subst ha
      exact ⟨[], t ++ [0], by simp, by simp⟩
    · obtain ⟨P, rest, hP, hz⟩ := ih
      refine ⟨a :: P, rest, by simp [hP], ?_⟩
      intro u hu
      rcases List.mem_cons.mp hu with rfl | h
      · exact ha
      · exact hz u h

/-! ## The properties of the specification -/

/-- C1. UTF-8 round trip: for every sequence `S` of code points, each in `[0, 0x10FFFF]` and
outside the surrogate range `[0xD800, 0xDFFF]`, `u32_to_u8` returns a buffer `B` and `u8_to_u32`
on `B` returns `S`. -/
theorem utf8_round_trip (S : List Nat)
    (hS : ∀ cp ∈ S, cp ≤ 0x10FFFF ∧ ¬ (0xD800 ≤ cp ∧ cp ≤ 0xDFFF)) :
    ∃ B, u32_to_u8 S 0 S.length [] = .ret B ∧ u8_to_u32 B 0 B.length [] = .ret S := by
  refine ⟨utf8_of S, u32_to_u8_run S, ?_⟩
  have h := u8_to_u32_loop_utf8_of S (fun c hc => by have := (hS c hc).1; omega) [] []
    ((utf8_of S).length + 1) (by have := length_le_utf8_of S; omega)
  simpa [u8_to_u32] using h

/-- Witness for C1: one code point of each encoded length (1, 2, 3 and 4 bytes). -/
theorem utf8_round_trip_witness :
    ∃ B, u32_to_u8 [0x41, 0xE9, 0x20AC, 0x1F600] 0 [0x41, 0xE9, 0x20AC, 0x1F600].length [] = .ret B
      ∧ u8_to_u32 B 0 B.length [] = .ret [0x41, 0xE9, 0x20AC, 0x1F600] :=
  utf8_round_trip [0x41, 0xE9, 0x20AC, 0x1F600] (by decide)

/-- C2. UTF-16 round trip: for every sequence `S` of code points, each in `[0, 0x10FFFF]` and
outside the surrogate range `[0xD800, 0xDFFF]`, `u32_to_u16` returns a buffer `B` and
`u16_to_u32` on `B` returns `S`. -/
theorem utf16_round_trip (S : List Nat)
    (hS : ∀ cp ∈ S, cp ≤ 0x10FFFF ∧ ¬ (0xD800 ≤ cp ∧ cp ≤ 0xDFFF)) :
    ∃ B, u32_to_u16 S 0 S.length [] = .ret B ∧ u16_to_u32 B 0 B.length [] = .ret S := by
  refine ⟨utf16_of S, u32_to_u16_run S, ?_⟩
  have h := u16_to_u32_loop_utf16_of S hS [] []
    ((utf16_of S).length + 1) (by have := length_le_utf16_of S; omega)
  simpa [u16_to_u32] using h

/-- Witness for C2: three one-unit code points and one surrogate pair. -/
theorem utf16_round_trip_witness :
    ∃ B, u32_to_u16 [0x41, 0xE9, 0xFFFF, 0x1F600] 0 [0x41, 0xE9, 0xFFFF, 0x1F600].length []
        = .ret B
      ∧ u16_to_u32 B 0 B.length [] = .ret [0x41, 0xE9, 0xFFFF, 0x1F600] :=
  utf16_round_trip [0x41, 0xE9, 0xFFFF, 0x1F600] (by decide)


/-- C3 (defect in the code). The specification asks that `u8_length` terminates on the one-byte buffer
`[0xFF]`, advancing by at least one unit at the malformed byte.  The loop
`for (i = 0; i < size; i += sequence_length(str[i]))` adds `sequence_length(0xFF) = 0` to `i`:
for every iteration budget the call has not returned when the budget is used up. -/
theorem u8_length_invalid_lead_never_returns :
    detail.sequence_length 0xFF = 0 ∧ ∀ fuel, u8_length fuel [0xFF] 1 = .timeout :=
  ⟨by decide, fun fuel =>
    u8_length_loop_stuck_at [0xFF] 1 0 0xFF (by decide) (by decide) (by decide) fuel 0⟩

/-- C4. Length agreement UTF-8 to UTF-32: for every well-formed UTF-8 input, `u8_to_u32` returns
and `u8_to_u32_length`, which only skips by lead-byte sequence length, returns the number of
units that `u8_to_u32` wrote. -/
theorem u8_to_u32_length_agreement (B : List Nat) (hB : WellFormedU8 B) :
    ∃ out, u8_to_u32 B 0 B.length [] = .ret out
      ∧ u8_to_u32_length B 0 B.length = .ret out.length := by
  obtain ⟨out, h⟩ := u8_to_u32_loop_returns hB [] [] (B.length + 1) (by omega)
  simp only [List.nil_append, List.length_nil, Nat.zero_add] at h
  refine ⟨out, h, ?_⟩
  have h2 := (u8_to_u32_length_loop_agrees B B.length (B.length + 1) 0 0 [] out h).2
  simpa [u8_to_u32_length] using h2

/-- Witness for C4: the bytes of U+0041, U+00E9, U+20AC and U+1F600. -/
theorem u8_to_u32_length_agreement_witness :
    ∃ out, u8_to_u32 [0x41, 0xC3, 0xA9, 0xE2, 0x82, 0xAC, 0xF0, 0x9F, 0x98, 0x80] 0
          [0x41, 0xC3, 0xA9, 0xE2, 0x82, 0xAC, 0xF0, 0x9F, 0x98, 0x80].length [] = .ret out
      ∧ u8_to_u32_length [0x41, 0xC3, 0xA9, 0xE2, 0x82, 0xAC, 0xF0, 0x9F, 0x98, 0x80] 0
          [0x41, 0xC3, 0xA9, 0xE2, 0x82, 0xAC, 0xF0, 0x9F, 0x98, 0x80].length = .ret out.length :=
  u8_to_u32_length_agreement [0x41, 0xC3, 0xA9, 0xE2, 0x82, 0xAC, 0xF0, 0x9F, 0x98, 0x80]
    (WellFormedU8.seq 0x41 [] _ (by decide) (by decide)
      (WellFormedU8.seq 0xC3 [0xA9] _ (by decide) (by decide)
        (WellFormedU8.seq 0xE2 [0x82, 0xAC] _ (by decide) (by decide)
          (WellFormedU8.seq 0xF0 [0x9F, 0x98, 0x80] [] (by decide) (by decide)
            WellFormedU8.nil))))

/-- C5. Length agreement UTF-8 to UTF-16: for every well-formed UTF-8 input, `u8_to_u16` returns
and `u8_to_u16_length` returns the number of 16-bit units that `u8_to_u16` wrote. -/
theorem u8_to_u16_length_agreement (B : List Nat) (hB : WellFormedU8 B) :
    ∃ out, u8_to_u16 B 0 B.length [] = .ret out
      ∧ u8_to_u16_length B 0 B.length = .ret out.length := by
  obtain ⟨out, h⟩ := u8_to_u16_loop_returns hB [] [] (B.length + 1) (by omega)
  simp only [List.nil_append, List.length_nil, Nat.zero_add] at h
  refine ⟨out, h, ?_⟩
  have h2 := (u8_to_u16_length_loop_agrees B B.length (B.length + 1) 0 0 [] out h).2
  simpa [u8_to_u16_length] using h2

/-- Witness for C5: the bytes of U+0041, U+20AC and U+1F600 (1, 1 and 2 units). -/
theorem u8_to_u16_length_agreement_witness :
    ∃ out, u8_to_u16 [0x41, 0xE2, 0x82, 0xAC, 0xF0, 0x9F, 0x98, 0x80] 0
          [0x41, 0xE2, 0x82, 0xAC, 0xF0, 0x9F, 0x98, 0x80].length [] = .ret out
      ∧ u8_to_u16_length [0x41, 0xE2, 0x82, 0xAC, 0xF0, 0x9F, 0x98, 0x80] 0
          [0x41, 0xE2, 0x82, 0xAC, 0xF0, 0x9F, 0x98, 0x80].length = .ret out.length :=
  u8_to_u16_length_agreement [0x41, 0xE2, 0x82, 0xAC, 0xF0, 0x9F, 0x98, 0x80]
    (WellFormedU8.seq 0x41 [] _ (by decide) (by decide)
      (WellFormedU8.seq 0xE2 [0x82, 0xAC] _ (by decide) (by decide)
        (WellFormedU8.seq 0xF0 [0x9F, 0x98, 0x80] [] (by decide) (by decide)
          WellFormedU8.nil)))

/-- C6. Length agreement for UTF-16 sources: for every well-formed UTF-16 input (every high
surrogate immediately followed by a low surrogate), `u16_to_u8` returns and `u16_to_u8_length`
returns the number of bytes it wrote, and `u16_to_u32` returns and `u16_to_u32_length` returns
the number of units it wrote. -/
theorem u16_length_agreement (B : List Nat) (hB : WellFormedU16 B) :
    (∃ out, u16_to_u8 B 0 B.length [] = .ret out
      ∧ u16_to_u8_length B 0 B.length = .ret out.length)
    ∧ (∃ out, u16_to_u32 B 0 B.length [] = .ret out
      ∧ u16_to_u32_length B 0 B.length = .ret out.length) := by
  constructor
  · obtain ⟨out, h⟩ := u16_to_u8_loop_returns hB [] [] (B.length + 1) (by omega)
    simp only [List.nil_append, List.length_nil, Nat.zero_add] at h
    refine ⟨out, h, ?_⟩
    have h2 := (u16_to_u8_length_loop_agrees B B.length (B.length + 1) 0 0 [] out h).2
    simpa [u16_to_u8_length] using h2
  · obtain ⟨out, h⟩ := u16_to_u32_loop_returns hB [] [] (B.length + 1) (by omega)
    simp only [List.nil_append, List.length_nil, Nat.zero_add] at h
    refine ⟨out, h, ?_⟩
    have h2 := (u16_to_u32_length_loop_agrees B B.length (B.length + 1) 0 0 [] out h).2
    simpa [u16_to_u32_length] using h2

/-- Witness for C6: U+0041, the pair of U+1F600, and U+20AC. -/
theorem u16_length_agreement_witness :
    (∃ out, u16_to_u8 [0x41, 0xD83D, 0xDE00, 0x20AC] 0 [0x41, 0xD83D, 0xDE00, 0x20AC].length []
        = .ret out
      ∧ u16_to_u8_length [0x41, 0xD83D, 0xDE00, 0x20AC] 0 [0x41, 0xD83D, 0xDE00, 0x20AC].length
        = .ret out.length)
    ∧ (∃ out, u16_to_u32 [0x41, 0xD83D, 0xDE00, 0x20AC] 0 [0x41, 0xD83D, 0xDE00, 0x20AC].length []
        = .ret out
      ∧ u16_to_u32_length [0x41, 0xD83D, 0xDE00, 0x20AC] 0 [0x41, 0xD83D, 0xDE00, 0x20AC].length
        = .ret out.length) :=
  u16_length_agreement [0x41, 0xD83D, 0xDE00, 0x20AC]
    (WellFormedU16.single 0x41 _ (by decide)
      (WellFormedU16.pair 0xD83D 0xDE00 _ (by decide) (by decide)
        (WellFormedU16.single 0x20AC [] (by decide) WellFormedU16.nil)))

/-- C7. Length agreement UTF-32 to UTF-8: for every UTF-32 input, `u32_to_u8` returns,
`u32_to_u8_length` returns the number of bytes it wrote, and that number is the sum of
`code_point_size_u8` over the input. -/
theorem u32_to_u8_length_agreement (S : List Nat) :
    ∃ out, u32_to_u8 S 0 S.length [] = .ret out
      ∧ u32_to_u8_length S 0 S.length = .ret out.length
      ∧ out.length = (S.map code_point_size_u8).sum := by
  refine ⟨utf8_of S, u32_to_u8_run S, ?_, utf8_of_length S⟩
  have h := u32_to_u8_length_loop_run S [] 0 (S.length + 1) (by omega)
  rw [utf8_of_length]
  simpa [u32_to_u8_length] using h

/-- C8. Length agreement UTF-32 to UTF-16: for every UTF-32 input, surrogate values and values
above `0x10FFFF` included, `u32_to_u16` returns and `u32_to_u16_length` returns the number of
16-bit units it wrote. -/
theorem u32_to_u16_length_agreement (S : List Nat) :
    ∃ out, u32_to_u16 S 0 S.length [] = .ret out
      ∧ u32_to_u16_length S 0 S.length = .ret out.length := by
  refine ⟨utf16_of S, u32_to_u16_run S, ?_⟩
  have h := u32_to_u16_length_loop_run S [] 0 (S.length + 1) (by omega)
  simpa [u32_to_u16_length] using h

/-- C9. Substitution: for every 32-bit value `cp` in the surrogate range `[0xD800, 0xDFFF]` or
above `0x10FFFF`, `u32_to_u16` on the one-element input `[cp]` writes exactly the single unit
`0xFFFD`. -/
theorem u32_to_u16_substitution (cp : Nat) (h32 : cp < 4294967296)
    (hcp : (0xD800 ≤ cp ∧ cp ≤ 0xDFFF) ∨ 0x10FFFF < cp) :
    u32_to_u16 [cp] 0 1 [] = .ret [0xFFFD] := by
  have e : to_u32 cp = cp := Nat.mod_eq_of_lt h32
  have h := u32_to_u16_run [cp]
  rw [utf16_of, utf16_of, u32_to_u16_units_subst cp (by rw [e]; exact hcp)] at h
  simpa using h

/-- Witness for C9: transcoding `0xD800` yields `[0xFFFD]`. -/
theorem u32_to_u16_substitution_witness : u32_to_u16 [0xD800] 0 1 [] = .ret [0xFFFD] :=
  u32_to_u16_substitution 0xD800 (by decide) (by decide)

/-- C10. Surrogate pairing: for every code point `cp` in `[0x10000, 0x10FFFF]`, `u32_to_u16` on
`[cp]` writes exactly two units, `((cp - 0x10000) >> 10) + 0xD800` in `[0xD800, 0xDBFF]` and
`((cp - 0x10000) & 0x3FF) + 0xDC00` in `[0xDC00, 0xDFFF]`; for `0x1F600` the units are
`0xD83D, 0xDE00`, and `u16_to_u32` on `[0xD83D, 0xDE00]` gives `[0x1F600]`. -/
theorem u32_to_u16_surrogate_pairing :
    (∀ cp, 0x10000 ≤ cp → cp ≤ 0x10FFFF →
      u32_to_u16 [cp] 0 1 []
          = .ret [((cp - 0x10000) >>> 10) + 0xD800, ((cp - 0x10000) &&& 0x3FF) + 0xDC00]
        ∧ 0xD800 ≤ ((cp - 0x10000) >>> 10) + 0xD800
        ∧ ((cp - 0x10000) >>> 10) + 0xD800 ≤ 0xDBFF
        ∧ 0xDC00 ≤ ((cp - 0x10000) &&& 0x3FF) + 0xDC00
        ∧ ((cp - 0x10000) &&& 0x3FF) + 0xDC00 ≤ 0xDFFF)
    ∧ u32_to_u16 [0x1F600] 0 1 [] = .ret [0xD83D, 0xDE00]
    ∧ u16_to_u32 [0xD83D, 0xDE00] 0 2 [] = .ret [0x1F600] := by
  refine ⟨?_, by decide, by decide⟩
  intro cp h1 h2
  have h := u32_to_u16_run [cp]
  rw [utf16_of, utf16_of, u32_to_u16_units_pair cp h1 h2] at h
  simp only [Nat.shiftRight_eq_div_pow, and_3FF]
  refine ⟨by simpa using h, ?_, ?_, ?_, ?_⟩ <;> omega

/-- Witness for C10: the general statement at `0x1F600`. -/
theorem u32_to_u16_surrogate_pairing_witness :
    u32_to_u16 [0x1F600] 0 1 []
      = .ret [((0x1F600 - 0x10000) >>> 10) + 0xD800, ((0x1F600 - 0x10000) &&& 0x3FF) + 0xDC00] :=
  (u32_to_u16_surrogate_pairing.1 0x1F600 (by decide) (by decide)).1


/-- C11. Malformed-input liveness of the length pre-computation: on every byte buffer of `n`
bytes, malformed or not, the loops of `u8_to_u32_length` and `u8_to_u16_length` make at most `n`
iterations (a budget of `n` iterations is never used up): `u8_to_u32_length` returns a count of
at most `n`, and `u8_to_u16_length` returns unless its decoding step reads past the buffer (it
returns whenever three readable units follow the `n` bytes).
Each decoding step advances the read position by at least one byte, by exactly one at a lead
byte of sequence length 0, and on the one-byte buffer `[0xFF]` both routines return 1. -/
theorem u8_length_precomputations_terminate (mem : List Nat) :
    (∃ c, u8_to_u32_length_loop mem mem.length mem.length 0 0 = .ret c ∧ c ≤ mem.length)
    ∧ ((∃ c, u8_to_u16_length_loop mem mem.length mem.length 0 0 = .ret c)
        ∨ u8_to_u16_length_loop mem mem.length mem.length 0 0 = .fault)
    ∧ (∀ tail : List Nat, 3 ≤ tail.length →
        ∃ c, u8_to_u16_length_loop (mem ++ tail) mem.length mem.length 0 0 = .ret c)
    ∧ (∀ it cp it', next_u8_to_u32 mem it = .ret (cp, it') → it < it')
    ∧ (∀ it b, mem[it]? = some b → detail.sequence_length b = 0 →
        next_u8_to_u32 mem it = .ret (detail.cast_8 b, it + 1))
    ∧ u8_to_u32_length [0xFF] 0 1 = .ret 1
    ∧ u8_to_u16_length [0xFF] 0 1 = .ret 1 := by
  refine ⟨?_, ?_, ?_, ?_, ?_, by decide, by decide⟩
  · obtain ⟨c, h1, h2⟩ :=
      u8_to_u32_length_loop_returns mem mem.length (le_refl _) mem.length 0 0 (by omega)
    exact ⟨c, h1, by omega⟩
  · have h := u8_to_u16_length_loop_within mem mem.length mem.length 0 0 (by omega)
    cases hr : u8_to_u16_length_loop mem mem.length mem.length 0 0 with
    | ret c => exact Or.inl ⟨c, rfl⟩
    | fault => exact Or.inr rfl
    | timeout => exact absurd hr h
  · intro tail ht
    exact u8_to_u16_length_loop_returns_of_room (mem ++ tail) mem.length
      (by rw [List.length_append]; omega) mem.length 0 0 (by omega)
  · intro it cp it' h
    obtain ⟨b, _, hs⟩ := next_u8_to_u32_advance mem it cp it' h
    omega
  · intro it b hb h0
    exact next_u8_to_u32_zero_length mem it b hb h0

/-- Witness for C11: on the truncated buffer `[0xC3]` the loop of `u8_to_u32_length` returns
within one iteration. -/
theorem u8_length_precomputations_terminate_witness :
    ∃ c, u8_to_u32_length_loop [0xC3] [0xC3].length [0xC3].length 0 0 = .ret c
      ∧ c ≤ [0xC3].length :=
  (u8_length_precomputations_terminate [0xC3]).1

/-- C12 (defect in the code). The specification asks that one increment of the code-point
iterator moves the position forward by at least one code unit, also at a malformed lead byte.
`base_iterator::advance` adds `sequence_length(*it)`, which is 0 at the byte `0xFF`: the
increment leaves the position where it is, and a traversal of the one-byte buffer `[0xFF]` is
still running when any iteration budget is used up. -/
theorem iterator_increment_stalls_on_invalid_lead :
    detail.iterator_sequence_length .utf8 0xFF = 0
    ∧ detail.base_iterator.advance .utf8 [0xFF] 0 = .ret 0
    ∧ basic_iterator.increment .utf8 [0xFF] 0 = .ret 0
    ∧ ∀ fuel, iterate_positions .utf8 [0xFF] 1 fuel 0 [] = .timeout :=
  ⟨by decide, by decide, by decide, fun fuel =>
    iterate_positions_stuck_at [0xFF] 1 0 0xFF (by decide) (by decide) (by decide) fuel []⟩

/-- C13. Code-point count for UTF-8: for every sequence `S` of valid code points (in
`[0, 0x10FFFF]`, not surrogates), `u32_to_u8` returns a buffer `B` with `u8_length(B) = |S|`
(for every budget of at least `|S|` iterations), and that is what `count()` returns for every
UTF-8 view of those bytes (width 1, `size()` equal to the number of bytes of `B`, pointer to
`B` possibly followed by a terminator), in particular for the view built from an owned string
holding `B` when `B` has fewer than `2 ^ 32` bytes. -/
theorem u8_length_counts_code_points (S : List Nat)
    (hS : ∀ cp ∈ S, cp ≤ 0x10FFFF ∧ ¬ (0xD800 ≤ cp ∧ cp ≤ 0xDFFF))
    (fuel : Nat) (hf : S.length ≤ fuel) :
    ∃ B, u32_to_u8 S 0 S.length [] = .ret B
      ∧ u8_length fuel B B.length = .ret S.length
      ∧ (∀ (w : wchar_width) (v : string_view) (tail : List Nat), v.m_charSize = 1 →
          v.m_data = some (B ++ tail) → v.m_size = B.length →
          v.count w fuel = .ret S.length)
      ∧ (∀ w : wchar_width, B.length < 4294967296 →
          (string_view.make w (.string .char B)).count w fuel = .ret S.length) := by
  have hS' : ∀ c ∈ S, c < 0x200000 := fun c hc => by have := (hS c hc).1; omega
  have key : ∀ tail : List Nat,
      u8_length fuel (utf8_of S ++ tail) (utf8_of S).length = .ret S.length := by
    intro tail
    have h := u8_length_loop_utf8_of S hS' tail [] 0 fuel hf
    simpa [u8_length] using h
  refine ⟨utf8_of S, u32_to_u8_run S, ?_, ?_, ?_⟩
  · simpa using key []
  · intro w v tail hc hd hn
    rw [count_of_char_size_one w fuel v hc, hd, hn]
    exact key tail
  · intro w hlt
    rw [count_of_char_size_one w fuel _ (by simp [string_view.make, string_view.from_string,
      sizeof_char])]
    simp only [string_view.make, string_view.from_string, Option.getD_some, to_u32,
      Nat.mod_eq_of_lt hlt]
    exact key [0]

/-- Witness for C13: code points of 1, 2, 3 and 4 bytes, counted with a budget of 4. -/
theorem u8_length_counts_code_points_witness :
    ∃ B, u32_to_u8 [0x41, 0xE9, 0x20AC, 0x1F600] 0 [0x41, 0xE9, 0x20AC, 0x1F600].length []
        = .ret B
      ∧ u8_length 4 B B.length = .ret [0x41, 0xE9, 0x20AC, 0x1F600].length
      ∧ (∀ (w : wchar_width) (v : string_view) (tail : List Nat), v.m_charSize = 1 →
          v.m_data = some (B ++ tail) → v.m_size = B.length →
          v.count w 4 = .ret [0x41, 0xE9, 0x20AC, 0x1F600].length)
      ∧ (∀ w : wchar_width, B.length < 4294967296 →
          (string_view.make w (.string .char B)).count w 4
            = .ret [0x41, 0xE9, 0x20AC, 0x1F600].length) :=
  u8_length_counts_code_points [0x41, 0xE9, 0x20AC, 0x1F600] (by decide) 4 (by decide)

/-- C14. Code-point count for UTF-16 and UTF-32: for every sequence `S` of valid code points,
`u32_to_u16` returns a buffer `B` with `u16_length(B) = |S|`; for every UTF-32 buffer of `n`
units `u32_length` returns `n`; and `count()` equals `size()` on every UTF-32 view. -/
theorem u16_u32_length_count_code_points (S : List Nat)
    (hS : ∀ cp ∈ S, cp ≤ 0x10FFFF ∧ ¬ (0xD800 ≤ cp ∧ cp ≤ 0xDFFF)) :
    (∃ B, u32_to_u16 S 0 S.length [] = .ret B ∧ u16_length B B.length = .ret S.length)
    ∧ (∀ (mem : List Nat) (n : Nat), u32_length mem n = n)
    ∧ (∀ (w : wchar_width) (fuel : Nat) (v : string_view), v.encoding = .utf32 →
        v.count w fuel = .ret v.size) := by
  refine ⟨⟨utf16_of S, u32_to_u16_run S, ?_⟩, fun _ _ => rfl, ?_⟩
  · have h := u16_length_loop_utf16_of S hS [] [] 0 (utf16_of S).length (length_le_utf16_of S)
    simpa [u16_length] using h
  · intro w fuel v hv
    simp [string_view.count, hv]

/-- Witness for C14: three one-unit code points and one surrogate pair. -/
theorem u16_u32_length_count_code_points_witness :
    (∃ B, u32_to_u16 [0x41, 0xE9, 0xFFFF, 0x1F600] 0 [0x41, 0xE9, 0xFFFF, 0x1F600].length []
        = .ret B
      ∧ u16_length B B.length = .ret [0x41, 0xE9, 0xFFFF, 0x1F600].length)
    ∧ (∀ (mem : List Nat) (n : Nat), u32_length mem n = n)
    ∧ (∀ (w : wchar_width) (fuel : Nat) (v : string_view), v.encoding = .utf32 →
        v.count w fuel = .ret v.size) :=
  u16_u32_length_count_code_points [0x41, 0xE9, 0xFFFF, 0x1F600] (by decide)

/-- C15. ASCII fast path: for every sequence `S` whose code points are all below `0x80`, every
encoding uses one unit per code point and every unit equals the code point: the UTF-8 and the
UTF-16 form of `S` are `S` itself, `u32_to_u8_length(S) = u32_to_u16_length(S) = |S|`, and on
the UTF-8 form `u8_to_u16` and `u8_to_u32` return it unchanged and `u8_to_u16_length`,
`u8_to_u32_length` and `u8_length` return its number of bytes. -/
theorem ascii_fast_path (S : List Nat) (hS : ∀ c ∈ S, c < 0x80) (fuel : Nat)
    (hf : S.length ≤ fuel) :
    u32_to_u8 S 0 S.length [] = .ret S
    ∧ u32_to_u16 S 0 S.length [] = .ret S
    ∧ u32_to_u8_length S 0 S.length = .ret S.length
    ∧ u32_to_u16_length S 0 S.length = .ret S.length
    ∧ u8_to_u16 S 0 S.length [] = .ret S
    ∧ u8_to_u32 S 0 S.length [] = .ret S
    ∧ u8_to_u16_length S 0 S.length = .ret S.length
    ∧ u8_to_u32_length S 0 S.length = .ret S.length
    ∧ u8_length fuel S S.length = .ret S.length := by
  have h8 := utf8_of_ascii S hS
  have h16 := utf16_of_ascii S hS
  have hv : ∀ cp ∈ S, cp ≤ 0x10FFFF ∧ ¬ (0xD800 ≤ cp ∧ cp ≤ 0xDFFF) :=
    fun c hc => by have := hS c hc; omega
  have hv' : ∀ c ∈ S, c < 0x200000 := fun c hc => by have := hS c hc; omega
  have a1 : u32_to_u8 S 0 S.length [] = .ret S := by
    have h := u32_to_u8_run S
    rwa [h8] at h
  have a2 : u32_to_u16 S 0 S.length [] = .ret S := by
    have h := u32_to_u16_run S
    rwa [h16] at h
  have a3 : u32_to_u8_length S 0 S.length = .ret S.length := by
    have h := u32_to_u8_length_loop_run S [] 0 (S.length + 1) (by omega)
    rw [← utf8_of_length, h8] at h
    simpa [u32_to_u8_length] using h
  have a4 : u32_to_u16_length S 0 S.length = .ret S.length := by
    have h := u32_to_u16_length_loop_run S [] 0 (S.length + 1) (by omega)
    rw [h16] at h
    simpa [u32_to_u16_length] using h
  have a5 : u8_to_u16 S 0 S.length [] = .ret S := by
    have h := u8_to_u16_loop_utf8_of S hv [] [] (S.length + 1) (by omega)
    rw [h8, h16] at h
    simpa [u8_to_u16] using h
  have a6 : u8_to_u32 S 0 S.length [] = .ret S := by
    have h := u8_to_u32_loop_utf8_of S hv' [] [] (S.length + 1) (by omega)
    rw [h8] at h
    simpa [u8_to_u32] using h
  have a7 : u8_to_u16_length S 0 S.length = .ret S.length := by
    have h := (u8_to_u16_length_loop_agrees S S.length (S.length + 1) 0 0 [] S a5).2
    simpa [u8_to_u16_length] using h
  have a8 : u8_to_u32_length S 0 S.length = .ret S.length := by
    have h := (u8_to_u32_length_loop_agrees S S.length (S.length + 1) 0 0 [] S a6).2
    simpa [u8_to_u32_length] using h
  have a9 : u8_length fuel S S.length = .ret S.length := by
    have h := u8_length_loop_utf8_of S hv' [] [] 0 fuel hf
    rw [h8] at h
    simpa [u8_length] using h
  exact ⟨a1, a2, a3, a4, a5, a6, a7, a8, a9⟩

/-- Witness for C15: the five ASCII code points of `Hello`, with a budget of 5. -/
theorem ascii_fast_path_witness :
    u32_to_u8 [0x48, 0x65, 0x6C, 0x6C, 0x6F] 0 [0x48, 0x65, 0x6C, 0x6C, 0x6F].length []
        = .ret [0x48, 0x65, 0x6C, 0x6C, 0x6F]
    ∧ u32_to_u16 [0x48, 0x65, 0x6C, 0x6C, 0x6F] 0 [0x48, 0x65, 0x6C, 0x6C, 0x6F].length []
        = .ret [0x48, 0x65, 0x6C, 0x6C, 0x6F]
    ∧ u32_to_u8_length [0x48, 0x65, 0x6C, 0x6C, 0x6F] 0 [0x48, 0x65, 0x6C, 0x6C, 0x6F].length
        = .ret [0x48, 0x65, 0x6C, 0x6C, 0x6F].length
    ∧ u32_to_u16_length [0x48, 0x65, 0x6C, 0x6C, 0x6F] 0 [0x48, 0x65, 0x6C, 0x6C, 0x6F].length
        = .ret [0x48, 0x65, 0x6C, 0x6C, 0x6F].length
    ∧ u8_to_u16 [0x48, 0x65, 0x6C, 0x6C, 0x6F] 0 [0x48, 0x65, 0x6C, 0x6C, 0x6F].length []
        = .ret [0x48, 0x65, 0x6C, 0x6C, 0x6F]
    ∧ u8_to_u32 [0x48, 0x65, 0x6C, 0x6C, 0x6F] 0 [0x48, 0x65, 0x6C, 0x6C, 0x6F].length []
        = .ret [0x48, 0x65, 0x6C, 0x6C, 0x6F]
    ∧ u8_to_u16_length [0x48, 0x65, 0x6C, 0x6C, 0x6F] 0 [0x48, 0x65, 0x6C, 0x6C, 0x6F].length
        = .ret [0x48, 0x65, 0x6C, 0x6C, 0x6F].length
    ∧ u8_to_u32_length [0x48, 0x65, 0x6C, 0x6C, 0x6F] 0 [0x48, 0x65, 0x6C, 0x6C, 0x6F].length
        = .ret [0x48, 0x65, 0x6C, 0x6C, 0x6F].length
    ∧ u8_length 5 [0x48, 0x65, 0x6C, 0x6C, 0x6F] [0x48, 0x65, 0x6C, 0x6C, 0x6F].length
        = .ret [0x48, 0x65, 0x6C, 0x6C, 0x6F].length :=
  ascii_fast_path [0x48, 0x65, 0x6C, 0x6C, 0x6F] (by decide) 5 (by decide)

/-- C16. Null-terminated pointer contract: for every view `v` and every character type `W`,
`c_str<W>()` is the stored pointer when `sizeof(W)` equals `char_size()` and `null_terminated()`
holds, and the null pointer in every other case; for a view whose stored pointer is not null,
`c_str<W>()` returns the stored pointer if and only if both conditions hold. -/
theorem c_str_contract (w : wchar_width) (c : char_type) (v : string_view) :
    v.c_str w c
      = (if sizeof_char w c = v.char_size ∧ v.null_terminated = true then v.m_data else none)
    ∧ (v.m_data ≠ none →
        (v.c_str w c = v.m_data ↔ (sizeof_char w c = v.char_size ∧ v.null_terminated = true))) := by
  have h1 : v.c_str w c
      = (if sizeof_char w c = v.char_size ∧ v.null_terminated = true then v.m_data
          else none) := by
    cases c <;>
      simp only [string_view.c_str, sizeof_char, string_view.char_size,
        string_view.null_terminated, eq_comm]
  refine ⟨h1, fun hne => ?_⟩
  rw [h1]
  split_ifs with hc
  · simp [hc]
  · constructor
    · intro h
      exact absurd h.symm hne
    · intro h
      exact absurd h hc

/-- Witness for C16: a null-terminated UTF-16 view from an owned string, asked for `char16_t`. -/
theorem c_str_contract_witness :
    (string_view.make .four (.string .char16_t [0x48, 0x69])).c_str .four .char16_t
      = some [0x48, 0x69, 0] :=
  ((c_str_contract .four .char16_t (string_view.make .four (.string .char16_t [0x48, 0x69]))).2
    (by decide)).2 (by decide)

/-- C17. Cross-width safety: for every view `v` and every requested character type `W`, when
`sizeof(W)` differs from `char_size()` then `data<W>()` is the null pointer, `view<W>()` is the
empty view and `str<W>()` is the empty string; when `sizeof(W)` equals `char_size()` then
`data<W>()` is the stored pointer, `view<W>()` is the stored pointer with length `size()`, and
`str<W>()` copies `size()` units from the stored pointer, which for a view whose units are
readable are exactly the `size()` stored code units. -/
theorem cross_width_accessors (w : wchar_width) (c : char_type) (v : string_view) :
    (sizeof_char w c ≠ v.char_size →
      v.data w c = none ∧ v.view w c = basic_string_view.empty_view ∧ v.str w c = .ret [])
    ∧ (sizeof_char w c = v.char_size →
      v.data w c = v.m_data
      ∧ v.view w c = { data := v.m_data, size := v.size }
      ∧ v.str w c = basic_string_from v.m_data v.size
      ∧ (v.readable → v.str w c = .ret v.units ∧ v.units.length = v.size)) := by
  constructor
  · intro h
    cases c <;>
      simp only [sizeof_char, string_view.char_size] at h <;>
      simp [string_view.data, string_view.view, string_view.str, Ne.symm h, sizeof_char]
  · intro h
    have hs : v.str w c = basic_string_from v.m_data v.size := by
      cases c <;>
        simp only [sizeof_char, string_view.char_size] at h <;>
        simp [string_view.str, string_view.size, ← h, sizeof_char]
    refine ⟨?_, ?_, hs, ?_⟩
    · cases c <;>
        simp only [sizeof_char, string_view.char_size] at h <;>
        simp [string_view.data, ← h, sizeof_char]
    · cases c <;>
        simp only [sizeof_char, string_view.char_size] at h <;>
        simp [string_view.view, string_view.size, ← h, sizeof_char]
    · intro hr
      rw [hs]
      exact basic_string_from_readable v hr

/-- Witness for C17: a UTF-8 view asked for `char16_t` (mismatch) gives the null pointer, the
empty view and the empty string. -/
theorem cross_width_accessors_witness :
    (string_view.make .four (.string .char [0x48, 0x69])).data .four .char16_t = none
    ∧ (string_view.make .four (.string .char [0x48, 0x69])).view .four .char16_t
        = basic_string_view.empty_view
    ∧ (string_view.make .four (.string .char [0x48, 0x69])).str .four .char16_t = .ret [] :=
  (cross_width_accessors .four .char16_t (string_view.make .four (.string .char [0x48, 0x69]))).1
    (by decide)

/-- C18. Cross-encoding conversion through the view: for every view `v`, on an empty view the
three conversions return the empty string; on a view of width 1 (UTF-8) `to_utf16` and
`to_utf32` are `u8_to_u16` and `u8_to_u32` on the `size()` stored units, on a view of width 2
(UTF-16) `to_utf8` and `to_utf32` are `u16_to_u8` and `u16_to_u32`, on a view of width 4
(UTF-32) `to_utf8` and `to_utf16` are `u32_to_u8` and `u32_to_u16`; and no conversion is still
running when its budget is used up: its outcome is the transcoder's, with no failure value of
its own. -/
theorem view_cross_encoding_conversion (w : wchar_width) (v : string_view) :
    (v.empty = true → v.to_utf8 w = .ret [] ∧ v.to_utf16 w = .ret [] ∧ v.to_utf32 w = .ret [])
    ∧ (v.char_size = 1 → v.encoding = .utf8
        ∧ v.to_utf16 w = u8_to_u16 (v.m_data.getD []) 0 v.size []
        ∧ v.to_utf32 w = u8_to_u32 (v.m_data.getD []) 0 v.size [])
    ∧ (v.char_size = 2 → v.encoding = .utf16
        ∧ v.to_utf8 w = u16_to_u8 (v.m_data.getD []) 0 v.size []
        ∧ v.to_utf32 w = u16_to_u32 (v.m_data.getD []) 0 v.size [])
    ∧ (v.char_size = 4 → v.encoding = .utf32
        ∧ v.to_utf8 w = u32_to_u8 (v.m_data.getD []) 0 v.size []
        ∧ v.to_utf16 w = u32_to_u16 (v.m_data.getD []) 0 v.size [])
    ∧ (v.to_utf8 w ≠ .timeout ∧ v.to_utf16 w ≠ .timeout ∧ v.to_utf32 w ≠ .timeout) := by
  obtain ⟨v1, v2, v4⟩ := view_of_char_size w v
  refine ⟨?_, ?_, ?_, ?_, ?_⟩
  · intro he
    simp [string_view.to_utf8, string_view.to_utf16, string_view.to_utf32, he]
  · intro h
    obtain ⟨e, hv, _⟩ := v1 h
    refine ⟨e, ?_, ?_⟩
    · by_cases he : v.m_size = 0
      · simp [string_view.to_utf16, string_view.empty, string_view.size, he, u8_to_u16,
          u8_to_u16_loop]
      · simp [string_view.to_utf16, string_view.empty, string_view.size, he, e, hv, convert_as,
          encoding_of, sizeof_char, basic_string_view.mem]
    · by_cases he : v.m_size = 0
      · simp [string_view.to_utf32, string_view.empty, string_view.size, he, u8_to_u32,
          u8_to_u32_loop]
      · simp [string_view.to_utf32, string_view.empty, string_view.size, he, e, hv, convert_as,
          encoding_of, sizeof_char, basic_string_view.mem]
  · intro h
    obtain ⟨e, hv, _⟩ := v2 h
    refine ⟨e, ?_, ?_⟩
    · by_cases he : v.m_size = 0
      · simp [string_view.to_utf8, string_view.empty, string_view.size, he, u16_to_u8,
          u16_to_u8_loop]
      · simp [string_view.to_utf8, string_view.empty, string_view.size, he, e, hv, convert_as,
          encoding_of, sizeof_char, basic_string_view.mem]
    · by_cases he : v.m_size = 0
      · simp [string_view.to_utf32, string_view.empty, string_view.size, he, u16_to_u32,
          u16_to_u32_loop]
      · simp [string_view.to_utf32, string_view.empty, string_view.size, he, e, hv, convert_as,
          encoding_of, sizeof_char, basic_string_view.mem]
  · intro h
    obtain ⟨e, hv, _⟩ := v4 h
    refine ⟨e, ?_, ?_⟩
    · by_cases he : v.m_size = 0
      · simp [string_view.to_utf8, string_view.empty, string_view.size, he, u32_to_u8,
          u32_to_u8_loop]
      · simp [string_view.to_utf8, string_view.empty, string_view.size, he, e, hv, convert_as,
          encoding_of, sizeof_char, basic_string_view.mem]
    · by_cases he : v.m_size = 0
      · simp [string_view.to_utf16, string_view.empty, string_view.size, he, u32_to_u16,
          u32_to_u16_loop]
      · simp [string_view.to_utf16, string_view.empty, string_view.size, he, e, hv, convert_as,
          encoding_of, sizeof_char, basic_string_view.mem]
  · have hb := fun n => basic_string_from_ne_timeout (v.m_data) n
    refine ⟨?_, ?_, ?_⟩
    · unfold string_view.to_utf8
      split_ifs
      · simp
      · split
        · exact basic_string_from_ne_timeout _ _
        · exact convert_as_ne_timeout _ _ _ _
        · exact convert_as_ne_timeout _ _ _ _
    · unfold string_view.to_utf16
      split_ifs
      · simp
      · split
        · exact convert_as_ne_timeout _ _ _ _
        · exact basic_string_from_ne_timeout _ _
        · exact convert_as_ne_timeout _ _ _ _
    · unfold string_view.to_utf32
      split_ifs
      · simp
      · split
        · exact convert_as_ne_timeout _ _ _ _
        · exact convert_as_ne_timeout _ _ _ _
        · exact basic_string_from_ne_timeout _ _

/-- Witness for C18: the UTF-16 view of `U+0041 U+1F600` converts to UTF-8 through
`u16_to_u8`. -/
theorem view_cross_encoding_conversion_witness :
    (string_view.make .four (.string .char16_t [0x41, 0xD83D, 0xDE00])).to_utf8 .four
      = u16_to_u8 [0x41, 0xD83D, 0xDE00, 0] 0 3 [] :=
  ((view_cross_encoding_conversion .four
    (string_view.make .four (.string .char16_t [0x41, 0xD83D, 0xDE00]))).2.2.1 (by decide)).2.1

/-- C19. Idempotence of same-encoding conversion: for every view `v` whose `size()` units are
readable, the conversion to the encoding of its own width (`to_utf8` for width 1, `to_utf16` for
width 2, `to_utf32` for width 4) returns exactly the `size()` stored code units, in order,
whatever their values (no transcoding, no validation). -/
theorem same_encoding_conversion_is_copy (w : wchar_width) (v : string_view)
    (hr : v.readable) :
    (v.char_size = 1 → v.to_utf8 w = .ret v.units)
    ∧ (v.char_size = 2 → v.to_utf16 w = .ret v.units)
    ∧ (v.char_size = 4 → v.to_utf32 w = .ret v.units)
    ∧ v.units.length = v.size := by
  obtain ⟨v1, v2, v4⟩ := view_of_char_size w v
  obtain ⟨hcopy, hlen⟩ := basic_string_from_readable v hr
  have hempty : v.m_size = 0 → v.units = [] := by
    intro h0
    simp [string_view.units, h0]
  refine ⟨?_, ?_, ?_, hlen⟩
  · intro h
    obtain ⟨e, _, hd⟩ := v1 h
    by_cases he : v.m_size = 0
    · simp [string_view.to_utf8, string_view.empty, he, hempty he]
    · simp [string_view.to_utf8, string_view.empty, string_view.size, he, e, hd, hcopy]
  · intro h
    obtain ⟨e, _, hd⟩ := v2 h
    by_cases he : v.m_size = 0
    · simp [string_view.to_utf16, string_view.empty, he, hempty he]
    · simp [string_view.to_utf16, string_view.empty, string_view.size, he, e, hd, hcopy]
  · intro h
    obtain ⟨e, _, hd⟩ := v4 h
    by_cases he : v.m_size = 0
    · simp [string_view.to_utf32, string_view.empty, he, hempty he]
    · simp [string_view.to_utf32, string_view.empty, string_view.size, he, e, hd, hcopy]

/-- Witness for C19: a UTF-8 view over the bytes `FF 41`, which are not well-formed UTF-8. -/
theorem same_encoding_conversion_is_copy_witness :
    (string_view.make .four (.string .char [0xFF, 0x41])).to_utf8 .four = .ret [0xFF, 0x41] :=
  (same_encoding_conversion_is_copy .four (string_view.make .four (.string .char [0xFF, 0x41]))
    (by decide)).1 (by decide)

/-- C20, counterexamples to the claim as stated: the view built from an owned string of
`2 ^ 32` units `0x41` reports `size() == 0`, not the number of code units of its source; and
the view built from the literal of the 5 wide characters `a`, `b`, zero, `c`, `d` (followed by
its terminator) reports `size() == 2`, not 5. -/
theorem make_size_counterexample :
    (string_view.make .four (.string .char (List.replicate 4294967296 0x41))).size = 0
    ∧ (List.replicate 4294967296 0x41).length = 4294967296
    ∧ (string_view.make .four (.string .char (List.replicate 4294967296 0x41))).size
        ≠ (List.replicate 4294967296 0x41).length
    ∧ (string_view.make .four (.literal .wchar_t [0x61, 0x62, 0, 0x63, 0x64])).size = 2
    ∧ [0x61, 0x62, 0, 0x63, 0x64].length = 5
    ∧ (string_view.make .four (.literal .wchar_t [0x61, 0x62, 0, 0x63, 0x64])).size
        ≠ [0x61, 0x62, 0, 0x63, 0x64].length := by
  have h1 : (string_view.make .four (.string .char (List.replicate 4294967296 0x41))).size
      = 0 := by
    rw [make_string_size, List.length_replicate]
  have h2 : (List.replicate 4294967296 0x41).length = 4294967296 := List.length_replicate _ _
  refine ⟨h1, h2, ?_, by decide, by decide, by decide⟩
  rw [h1, h2]
  decide

/-- C20, as amended. A view constructed from an owned string, from a raw pointer or from a
literal array reports `null_terminated() == true`, and a view constructed from a borrowed
`std::basic_string_view` reports `null_terminated() == false`; in each case `char_size()` is the
source's code-unit width and `size()` is the number of code units of the source excluding any
terminator (for a pointer or a literal: the units `P` before its first zero unit, which are
all its characters when none of them is zero) reduced modulo `2 ^ 32`, hence that number
itself when it is below `2 ^ 32`.  Construction performs no transcoding: the view points to
the source's units, and below `2 ^ 32` units its `size()` units are the source's (for a pointer
or a literal: the units before the first zero unit). -/
theorem make_metadata (w : wchar_width) (c : char_type) (str chars P rest : List Nat)
    (sv : basic_string_view) (hP : chars ++ [0] = P ++ 0 :: rest) (hz : ∀ u ∈ P, u ≠ 0) :
    ((string_view.make w (.string c str)).null_terminated = true
      ∧ (string_view.make w (.string c str)).char_size = sizeof_char w c
      ∧ (string_view.make w (.string c str)).size = str.length % 4294967296
      ∧ (string_view.make w (.string c str)).m_data = some (str ++ [0])
      ∧ (str.length < 4294967296 →
          (string_view.make w (.string c str)).size = str.length
          ∧ (string_view.make w (.string c str)).units = str))
    ∧ ((string_view.make w (.borrowed c sv)).null_terminated = false
      ∧ (string_view.make w (.borrowed c sv)).char_size = sizeof_char w c
      ∧ (string_view.make w (.borrowed c sv)).size = sv.size % 4294967296
      ∧ (string_view.make w (.borrowed c sv)).m_data = sv.data
      ∧ (sv.size < 4294967296 → (string_view.make w (.borrowed c sv)).size = sv.size))
    ∧ ((string_view.make w (.pointer c chars)).null_terminated = true
      ∧ (string_view.make w (.pointer c chars)).char_size = sizeof_char w c
      ∧ (string_view.make w (.pointer c chars)).size = P.length % 4294967296
      ∧ (string_view.make w (.pointer c chars)).m_data = some (chars ++ [0])
      ∧ (P.length < 4294967296 →
          (string_view.make w (.pointer c chars)).size = P.length
          ∧ (string_view.make w (.pointer c chars)).units = P))
    ∧ ((string_view.make w (.literal c chars)).null_terminated = true
      ∧ (string_view.make w (.literal c chars)).char_size = sizeof_char w c
      ∧ (string_view.make w (.literal c chars)).size = P.length % 4294967296
      ∧ (string_view.make w (.literal c chars)).m_data = some (chars ++ [0])
      ∧ (P.length < 4294967296 →
          (string_view.make w (.literal c chars)).size = P.length
          ∧ (string_view.make w (.literal c chars)).units = P))
    ∧ ((∀ u ∈ chars, u ≠ 0) → P = chars) := by
  obtain ⟨hs, hu⟩ := from_array_members w c chars P rest hP hz
  refine ⟨⟨rfl, rfl, rfl, rfl, ?_⟩, ⟨rfl, rfl, rfl, rfl, ?_⟩, ⟨rfl, rfl, hs, rfl, hu⟩,
    ⟨rfl, rfl, hs, rfl, hu⟩, fun hc => first_zero_unique chars P rest hP hz hc⟩
  · intro h
    simp [string_view.make, string_view.from_string, string_view.size, string_view.units,
      to_u32, Nat.mod_eq_of_lt h]
  · intro h
    simp [string_view.make, string_view.from_view, string_view.size, to_u32,
      Nat.mod_eq_of_lt h]

/-- Witness for C20: a literal of the 5 wide characters of `Hello` gives `size() == 5` and
`null_terminated() == true`; a borrowed view of the same 5 characters gives `size() == 5` and
`null_terminated() == false`; a literal of the 5 wide characters `a`, `b`, zero, `c`, `d` gives
`size() == 2` and the units `a`, `b`. -/
theorem make_metadata_witness :
    ((string_view.make .four (.literal .wchar_t [0x48, 0x65, 0x6C, 0x6C, 0x6F])).size = 5
      ∧ (string_view.make .four (.literal .wchar_t [0x48, 0x65, 0x6C, 0x6C, 0x6F])).null_terminated
          = true
      ∧ (string_view.make .four (.literal .wchar_t [0x48, 0x65, 0x6C, 0x6C, 0x6F])).char_size = 4)
    ∧ ((string_view.make .four
          (.borrowed .wchar_t { data := some [0x48, 0x65, 0x6C, 0x6C, 0x6F], size := 5 })).size = 5
      ∧ (string_view.make .four
          (.borrowed .wchar_t
            { data := some [0x48, 0x65, 0x6C, 0x6C, 0x6F], size := 5 })).null_terminated
          = false)
    ∧ ((string_view.make .four (.literal .wchar_t [0x61, 0x62, 0, 0x63, 0x64])).size = 2
      ∧ (string_view.make .four (.literal .wchar_t [0x61, 0x62, 0, 0x63, 0x64])).units
          = [0x61, 0x62]) :=
  have h := make_metadata .four .wchar_t [] [0x48, 0x65, 0x6C, 0x6C, 0x6F]
    [0x48, 0x65, 0x6C, 0x6C, 0x6F] []
    { data := some [0x48, 0x65, 0x6C, 0x6C, 0x6F], size := 5 } (by decide) (by decide)
  have g := make_metadata .four .wchar_t [] [0x61, 0x62, 0, 0x63, 0x64] [0x61, 0x62]
    [0x63, 0x64, 0] { data := none, size := 0 } (by decide) (by decide)
  ⟨⟨(h.2.2.2.1.2.2.2.2 (by decide)).1, h.2.2.2.1.1, h.2.2.2.1.2.1⟩,
    ⟨h.2.1.2.2.2.2 (by decide), h.2.1.1⟩,
    g.2.2.2.1.2.2.2.2 (by decide)⟩


/-- C21. Tag consistency invariant: the default-constructed view, every view that the
converting constructor builds (from an owned string, a borrowed view, a pointer or a literal)
and every copy of one have `char_size()` in `{1, 2, 4}`, `encoding()` equal to utf8, utf16 or
utf32 exactly when `char_size()` is 1, 2 or 4, `size_bytes() = size() * char_size()`, and
`empty()` exactly when `size() = 0`; the width and the encoding are those of the source's
character type, so a wide source is tagged utf16 when `sizeof(wchar_t)` is 2 and utf32 when it
is 4; the default-constructed view is empty, UTF-8 and not null-terminated. -/
theorem tag_consistency (w : wchar_width) (src : source) :
    string_view.default_view.tag_consistent
    ∧ (string_view.make w src).tag_consistent
    ∧ (string_view.make w src).copy.tag_consistent
    ∧ (string_view.make w src).copy = string_view.make w src
    ∧ (string_view.make w src).char_size = sizeof_char w src.char
    ∧ (string_view.make w src).encoding = encoding_of w src.char
    ∧ encoding_of .two .wchar_t = .utf16
    ∧ encoding_of .four .wchar_t = .utf32
    ∧ string_view.default_view.empty = true
    ∧ string_view.default_view.encoding = .utf8
    ∧ string_view.default_view.null_terminated = false := by
  have hsz := make_char_size w src
  have hc : (string_view.make w src).m_charSize = 1 ∨ (string_view.make w src).m_charSize = 2
      ∨ (string_view.make w src).m_charSize = 4 := by
    rw [hsz]
    exact sizeof_char_cases w src.char
  refine ⟨tag_consistent_of_char_size _ (Or.inl rfl), tag_consistent_of_char_size _ hc,
    tag_consistent_of_char_size _ hc, rfl, hsz, encoding_of_char_size w _ _ hsz,
    by decide, by decide, by decide, by decide, by decide⟩

/-- Witness for C21: the view of a wide literal on a platform with a 2-byte `wchar_t` is tagged
utf16. -/
theorem tag_consistency_witness :
    (string_view.make .two (.literal .wchar_t [0x48, 0x69])).tag_consistent
    ∧ (string_view.make .two (.literal .wchar_t [0x48, 0x69])).encoding = .utf16 :=
  ⟨(tag_consistency .two (.literal .wchar_t [0x48, 0x69])).2.1,
    (tag_consistency .two (.literal .wchar_t [0x48, 0x69])).2.2.2.2.2.1⟩

/-- C22. Lead-byte classification: for every byte `b`, `sequence_length(b)` is 1 if `b < 0x80`,
2 if `b` is in `[0xC0, 0xDF]`, 3 if `b` is in `[0xE0, 0xEF]`, 4 if `b` is in `[0xF0, 0xF7]`, and
0 for every other byte, that is exactly for `b` in `[0x80, 0xBF]` or `[0xF8, 0xFF]`; and
`is_trail(b)` holds exactly for `b` in `[0x80, 0xBF]`. -/
theorem lead_byte_classification (b : Nat) (hb : b < 256) :
    detail.sequence_length b
        = (if b < 0x80 then 1 else if 0xC0 ≤ b ∧ b ≤ 0xDF then 2
          else if 0xE0 ≤ b ∧ b ≤ 0xEF then 3 else if 0xF0 ≤ b ∧ b ≤ 0xF7 then 4 else 0)
    ∧ (detail.sequence_length b = 0 ↔ (0x80 ≤ b ∧ b ≤ 0xBF) ∨ (0xF8 ≤ b ∧ b ≤ 0xFF))
    ∧ (detail.is_trail b = true ↔ 0x80 ≤ b ∧ b ≤ 0xBF) :=
  byte_classes b hb

/-- Witness for C22: the byte `0xC3` is a lead byte of length 2 and not a continuation byte. -/
theorem lead_byte_classification_witness :
    detail.sequence_length 0xC3 = 2 ∧ detail.is_trail 0xC3 = false :=
  ⟨(lead_byte_classification 0xC3 (by decide)).1,
    by
      have h := (lead_byte_classification 0xC3 (by decide)).2.2
      cases hc : detail.is_trail 0xC3 with
      | false => rfl
      | true => exact absurd (h.mp hc) (by decide)⟩

/-- C23. UTF-8 encoding of one code point: for every `cp <= 0x10FFFF`, `append_u32_to_u8`
appends to its sink exactly `code_point_size_u8(cp)` bytes, namely `[cp]` if `cp < 0x80`,
`[0xC0 | (cp >> 6), 0x80 | (cp & 0x3F)]` if `cp < 0x800`,
`[0xE0 | (cp >> 12), 0x80 | ((cp >> 6) & 0x3F), 0x80 | (cp & 0x3F)]` if `cp < 0x10000`, and
otherwise `[0xF0 | (cp >> 18), 0x80 | ((cp >> 12) & 0x3F), 0x80 | ((cp >> 6) & 0x3F),
0x80 | (cp & 0x3F)]`; the first byte has `sequence_length` equal to the number of bytes and
every later byte satisfies `is_trail`. -/
theorem utf8_encoding_of_code_point (cp : Nat) (hcp : cp ≤ 0x10FFFF) (it : List Nat) :
    append_u32_to_u8 cp it = it ++ append_u32_to_u8 cp []
    ∧ (append_u32_to_u8 cp []).length = code_point_size_u8 cp
    ∧ append_u32_to_u8 cp []
      = (if cp < 0x80 then [cp]
        else if cp < 0x800 then [0xC0 ||| (cp >>> 6), 0x80 ||| (cp &&& 0x3F)]
        else if cp < 0x10000 then
          [0xE0 ||| (cp >>> 12), 0x80 ||| ((cp >>> 6) &&& 0x3F), 0x80 ||| (cp &&& 0x3F)]
        else
          [0xF0 ||| (cp >>> 18), 0x80 ||| ((cp >>> 12) &&& 0x3F),
            0x80 ||| ((cp >>> 6) &&& 0x3F), 0x80 ||| (cp &&& 0x3F)])
    ∧ (∃ lead tail, append_u32_to_u8 cp [] = lead :: tail
        ∧ detail.sequence_length lead = (lead :: tail).length
        ∧ (∀ t ∈ tail, detail.is_trail t = true)) :=
  ⟨append_u32_to_u8_eq cp it, append_u32_to_u8_length cp,
    append_u32_to_u8_bytes cp (by omega), append_u32_to_u8_shape cp (by omega)⟩

/-- Witness for C23: U+20AC is written as the three bytes `E2 82 AC`. -/
theorem utf8_encoding_of_code_point_witness :
    append_u32_to_u8 0x20AC [0x41] = [0x41, 0xE2, 0x82, 0xAC]
    ∧ code_point_size_u8 0x20AC = 3 :=
  ⟨(utf8_encoding_of_code_point 0x20AC (by decide) [0x41]).1,
    ((utf8_encoding_of_code_point 0x20AC (by decide) [0x41]).2.1).symm⟩

/-- C24. Surrogate-pair reconstruction arithmetic: `k_surrogate_offset` is
`0x10000 - (0xD800 << 10) - 0xDC00` modulo `2 ^ 32`; for every high unit `h` in
`[0xD800, 0xDBFF]` and low unit `l` in `[0xDC00, 0xDFFF]` the value
`(h << 10) + l + k_surrogate_offset` modulo `2 ^ 32`, which the read step of the UTF-16
decoders returns and `u16_to_u32` writes, equals `0x10000 + ((h - 0xD800) << 10) + (l - 0xDC00)`
and lies in `[0x10000, 0x10FFFF]`; a unit outside `[0xD800, 0xDBFF]` is returned as the code
point unchanged. -/
theorem surrogate_pair_reconstruction (h l : Nat) (hh : 0xD800 ≤ h ∧ h ≤ 0xDBFF)
    (hl : 0xDC00 ≤ l ∧ l ≤ 0xDFFF) :
    (detail.k_surrogate_offset + (0xD800 <<< 10) + 0xDC00) % 4294967296 = 0x10000
    ∧ detail.k_surrogate_offset < 4294967296
    ∧ to_u32 ((h <<< 10) + l + detail.k_surrogate_offset)
        = 0x10000 + ((h - 0xD800) <<< 10) + (l - 0xDC00)
    ∧ 0x10000 ≤ 0x10000 + ((h - 0xD800) <<< 10) + (l - 0xDC00)
    ∧ 0x10000 + ((h - 0xD800) <<< 10) + (l - 0xDC00) ≤ 0x10FFFF
    ∧ (∀ rest : List Nat,
        next_u16 (h :: l :: rest) 0
          = .ret (0x10000 + ((h - 0xD800) <<< 10) + (l - 0xDC00), 2))
    ∧ u16_to_u32 [h, l] 0 2 [] = .ret [0x10000 + ((h - 0xD800) <<< 10) + (l - 0xDC00)]
    ∧ u16_to_u8 [h, l] 0 2 []
        = .ret (append_u32_to_u8 (0x10000 + ((h - 0xD800) <<< 10) + (l - 0xDC00)) [])
    ∧ (∀ (u : Nat) (rest : List Nat), u < 65536 → ¬ (0xD800 ≤ u ∧ u ≤ 0xDBFF) →
        next_u16 (u :: rest) 0 = .ret (u, 1)) := by
  have hv := surrogate_pair_value h l hh hl
  have hn : ∀ rest : List Nat, next_u16 (h :: l :: rest) 0
      = .ret (0x10000 + ((h - 0xD800) <<< 10) + (l - 0xDC00), 2) := by
    intro rest
    rw [next_u16_at_pair h l rest hh (by omega), hv]
  refine ⟨by decide, by decide, hv, by omega, ?_, hn, ?_, ?_,
    fun u rest hu hne => next_u16_at_single u rest hu hne⟩
  · simp only [Nat.shiftLeft_eq]
    omega
  · simp [u16_to_u32, u16_to_u32_loop, hn]
  · simp [u16_to_u8, u16_to_u8_loop, hn]

/-- Witness for C24: the pair `D83D DE00` reconstructs `0x1F600`. -/
theorem surrogate_pair_reconstruction_witness :
    to_u32 ((0xD83D <<< 10) + 0xDE00 + detail.k_surrogate_offset)
      = 0x10000 + ((0xD83D - 0xD800) <<< 10) + (0xDE00 - 0xDC00) :=
  (surrogate_pair_reconstruction 0xD83D 0xDE00 (by decide) (by decide)).2.2.1

/-- C25, counterexample. On the one-unit sequence `[0xD83D]` (an unpaired high surrogate,
n = 1) each of the four UTF-16 readers reads the unit at index 1 = n, outside the sequence;
and when memory continues after the sequence, the read step leaves the position at 2, past
the end position 1. -/
theorem u16_unpaired_high_surrogate_counterexample :
    u16_to_u8 [0xD83D] 0 1 [] = .fault ∧ u16_to_u32 [0xD83D] 0 1 [] = .fault
    ∧ u16_to_u8_length [0xD83D] 0 1 = .fault ∧ u16_to_u32_length [0xD83D] 0 1 = .fault
    ∧ next_u16 [0xD83D] 0 = .fault
    ∧ (∃ cp, next_u16 [0xD83D, 0x0041] 0 = .ret (cp, 2))
    ∧ u16_to_u32 [0xD83D, 0x0041] 0 1 [] = .fault := by
  refine ⟨by decide, by decide, by decide, by decide, by decide, ⟨_, rfl⟩, by decide⟩

/-- C25, amended. For every UTF-16 code-unit sequence `B` of n units in which every high
surrogate met by the readers is followed by another unit of the sequence (of any value; every
well-formed sequence is such a sequence), `u16_to_u8`, `u16_to_u32`, `u16_to_u8_length` and
`u16_to_u32_length` over the range `[0, n)` return: they read only units at indices below n
(they return on the buffer that ends at n, and their results are the same whatever memory
follows the sequence) and leave the loop with the position equal to n. -/
theorem u16_readers_bounded (B : List Nat) (hB : CompleteU16 B) :
    ∃ (o8 o32 : List Nat),
      (∀ post : List Nat,
        u16_to_u8 (B ++ post) 0 B.length [] = .ret o8
        ∧ u16_to_u32 (B ++ post) 0 B.length [] = .ret o32
        ∧ u16_to_u8_length (B ++ post) 0 B.length = .ret o8.length
        ∧ u16_to_u32_length (B ++ post) 0 B.length = .ret o32.length)
      ∧ u16_to_u8 B 0 B.length [] = .ret o8
      ∧ u16_to_u32 B 0 B.length [] = .ret o32
      ∧ u16_to_u8_length B 0 B.length = .ret o8.length
      ∧ u16_to_u32_length B 0 B.length = .ret o32.length := by
  obtain ⟨o8, h8⟩ := u16_to_u8_loop_complete hB [] []
  obtain ⟨o32, h32⟩ := u16_to_u32_loop_complete hB [] []
  have key : ∀ post : List Nat,
      u16_to_u8 (B ++ post) 0 B.length [] = .ret o8
      ∧ u16_to_u32 (B ++ post) 0 B.length [] = .ret o32
      ∧ u16_to_u8_length (B ++ post) 0 B.length = .ret o8.length
      ∧ u16_to_u32_length (B ++ post) 0 B.length = .ret o32.length := by
    intro post
    have a8 := h8 post ((B ++ post).length + 1) (by simp; omega)
    have a32 := h32 post ((B ++ post).length + 1) (by simp; omega)
    simp only [List.nil_append, List.length_nil, Nat.zero_add] at a8 a32
    have l8 := (u16_to_u8_length_loop_agrees _ _ _ _ 0 _ _ a8).2
    have l32 := (u16_to_u32_length_loop_agrees _ _ _ _ 0 _ _ a32).2
    simp only [List.length_nil, Nat.zero_add, Nat.sub_zero] at l8 l32
    exact ⟨a8, a32, l8, l32⟩
  refine ⟨o8, o32, key, ?_⟩
  have k0 := key []
  simp only [List.append_nil] at k0
  exact k0

/-- Witness for C25 (amended): a unit, a high surrogate followed by a unit that is not a low
surrogate, and a lone low surrogate. -/
theorem u16_readers_bounded_witness :
    CompleteU16 [0x0041, 0xD83D, 0x0042, 0xDC00]
    ∧ ∃ (o8 o32 : List Nat),
      (∀ post : List Nat,
        u16_to_u8 ([0x0041, 0xD83D, 0x0042, 0xDC00] ++ post) 0
            [0x0041, 0xD83D, 0x0042, 0xDC00].length [] = .ret o8
        ∧ u16_to_u32 ([0x0041, 0xD83D, 0x0042, 0xDC00] ++ post) 0
            [0x0041, 0xD83D, 0x0042, 0xDC00].length [] = .ret o32
        ∧ u16_to_u8_length ([0x0041, 0xD83D, 0x0042, 0xDC00] ++ post) 0
            [0x0041, 0xD83D, 0x0042, 0xDC00].length = .ret o8.length
        ∧ u16_to_u32_length ([0x0041, 0xD83D, 0x0042, 0xDC00] ++ post) 0
            [0x0041, 0xD83D, 0x0042, 0xDC00].length = .ret o32.length)
      ∧ u16_to_u8 [0x0041, 0xD83D, 0x0042, 0xDC00] 0
          [0x0041, 0xD83D, 0x0042, 0xDC00].length [] = .ret o8
      ∧ u16_to_u32 [0x0041, 0xD83D, 0x0042, 0xDC00] 0
          [0x0041, 0xD83D, 0x0042, 0xDC00].length [] = .ret o32
      ∧ u16_to_u8_length [0x0041, 0xD83D, 0x0042, 0xDC00] 0
          [0x0041, 0xD83D, 0x0042, 0xDC00].length = .ret o8.length
      ∧ u16_to_u32_length [0x0041, 0xD83D, 0x0042, 0xDC00] 0
          [0x0041, 0xD83D, 0x0042, 0xDC00].length = .ret o32.length :=
  ⟨.single _ _ (by decide) (.pair _ _ _ (by decide) (.single _ _ (by decide) .nil)),
    u16_readers_bounded [0x0041, 0xD83D, 0x0042, 0xDC00]
      (.single _ _ (by decide) (.pair _ _ _ (by decide) (.single _ _ (by decide) .nil)))⟩

/-- C26. Deterministic, bounded decode step: at every position `it` of a byte buffer whose
byte `b` announces a sequence that lies in readable memory, one call of `next_u8_to_u32`
returns; it advances the position by `max 1 (sequence_length b)`, at least 1 and at most 4
bytes, and returns a value below `0x200000`; the same value and position come out of every
other buffer that has the same lead byte and, at the continuation positions read, bytes with
the same low 6 bits; at a byte of sequence length 0 it advances exactly 1 and returns that
byte's value, which lies in `[0x80, 0xFF]`. -/
theorem decode_step_bounded_deterministic (mem : List Nat) (it b : Nat)
    (hb : mem[it]? = some b) (hr : it + detail.sequence_length b ≤ mem.length) :
    ∃ cp it', next_u8_to_u32 mem it = .ret (cp, it')
      ∧ it' = it + max 1 (detail.sequence_length b)
      ∧ it + 1 ≤ it' ∧ it' ≤ it + 4 ∧ it' ≤ mem.length
      ∧ cp < 0x200000
      ∧ (∀ mem2 : List Nat, mem2[it]? = some b →
          (∀ k, it < k → k < it' →
            ∃ a a2, mem[k]? = some a ∧ mem2[k]? = some a2 ∧ a2 % 64 = a % 64) →
          next_u8_to_u32 mem2 it = .ret (cp, it'))
      ∧ (detail.sequence_length b = 0 →
          cp = detail.cast_8 b ∧ it' = it + 1 ∧ 0x80 ≤ cp ∧ cp ≤ 0xFF) := by
  have hle := sequence_length_le b
  have hlt := lt_length_of_getElem?_eq_some hb
  have h8 : detail.cast_8 b < 256 := Nat.mod_lt _ (by decide)
  have hcases : detail.sequence_length b = 0 ∨ detail.sequence_length b = 1
      ∨ detail.sequence_length b = 2 ∨ detail.sequence_length b = 3
      ∨ detail.sequence_length b = 4 := by omega
  rcases hcases with hs | hs | hs | hs | hs
  · have hz := cast_8_of_sequence_length_zero b hs
    refine ⟨detail.cast_8 b, it + 1, next_u8_to_u32_zero_length mem it b hb hs, by rw [hs]; rfl,
      by omega, by omega, by omega, by omega, ?_, fun _ => ⟨rfl, rfl, hz.1, hz.2⟩⟩
    intro mem2 hb2 _
    exact next_u8_to_u32_zero_length mem2 it b hb2 hs
  · refine ⟨detail.cast_8 b, it + 1, next_u8_to_u32_len1 mem it b hb hs, by rw [hs]; rfl,
      by omega, by omega, by omega, by omega, ?_, fun h0 => by omega⟩
    intro mem2 hb2 _
    exact next_u8_to_u32_len1 mem2 it b hb2 hs
  · have h1 : mem[it + 1]? = some mem[it + 1] := List.getElem?_eq_getElem (by omega)
    refine ⟨_, it + 2, next_u8_to_u32_len2 mem it b _ hb hs h1, by rw [hs]; rfl,
      by omega, by omega, by omega, by omega, ?_, fun h0 => by omega⟩
    intro mem2 hb2 hk
    obtain ⟨a1, c1, ha1, hc1, e1⟩ := hk (it + 1) (by omega) (by omega)
    rw [h1] at ha1
    cases ha1
    rw [next_u8_to_u32_len2 mem2 it b c1 hb2 hs hc1, e1]
  · have h1 : mem[it + 1]? = some mem[it + 1] := List.getElem?_eq_getElem (by omega)
    have h2 : mem[it + 2]? = some mem[it + 2] := List.getElem?_eq_getElem (by omega)
    refine ⟨_, it + 3, next_u8_to_u32_len3 mem it b _ _ hb hs h1 h2, by rw [hs]; rfl,
      by omega, by omega, by omega, by omega, ?_, fun h0 => by omega⟩
    intro mem2 hb2 hk
    obtain ⟨a1, c1, ha1, hc1, e1⟩ := hk (it + 1) (by omega) (by omega)
    obtain ⟨a2, c2, ha2, hc2, e2⟩ := hk (it + 2) (by omega) (by omega)
    rw [h1] at ha1
    rw [h2] at ha2
    cases ha1
    cases ha2
    rw [next_u8_to_u32_len3 mem2 it b c1 c2 hb2 hs hc1 hc2, e1, e2]
  · have h1 : mem[it + 1]? = some mem[it + 1] := List.getElem?_eq_getElem (by omega)
    have h2 : mem[it + 2]? = some mem[it + 2] := List.getElem?_eq_getElem (by omega)
    have h3 : mem[it + 3]? = some mem[it + 3] := List.getElem?_eq_getElem (by omega)
    refine ⟨_, it + 4, next_u8_to_u32_len4 mem it b _ _ _ hb hs h1 h2 h3, by rw [hs]; rfl,
      by omega, by omega, by omega, by omega, ?_, fun h0 => by omega⟩
    intro mem2 hb2 hk
    obtain ⟨a1, c1, ha1, hc1, e1⟩ := hk (it + 1) (by omega) (by omega)
    obtain ⟨a2, c2, ha2, hc2, e2⟩ := hk (it + 2) (by omega) (by omega)
    obtain ⟨a3, c3, ha3, hc3, e3⟩ := hk (it + 3) (by omega) (by omega)
    rw [h1] at ha1
    rw [h2] at ha2
    rw [h3] at ha3
    cases ha1
    cases ha2
    cases ha3
    rw [next_u8_to_u32_len4 mem2 it b c1 c2 c3 hb2 hs hc1 hc2 hc3, e1, e2, e3]

/-- Witness for C26: the three-byte lead `0xE2` followed by two bytes that are not
continuation bytes (`0x02`, `0x2C`) decodes like `E2 82 AC`. -/
theorem decode_step_bounded_deterministic_witness :
    ∃ cp it', next_u8_to_u32 [0xE2, 0x02, 0x2C] 0 = .ret (cp, it')
      ∧ it' = 0 + max 1 (detail.sequence_length 0xE2)
      ∧ 0 + 1 ≤ it' ∧ it' ≤ 0 + 4 ∧ it' ≤ [0xE2, 0x02, 0x2C].length
      ∧ cp < 0x200000
      ∧ (∀ mem2 : List Nat, mem2[0]? = some 0xE2 →
          (∀ k, 0 < k → k < it' →
            ∃ a a2, [0xE2, 0x02, 0x2C][k]? = some a ∧ mem2[k]? = some a2 ∧ a2 % 64 = a % 64) →
          next_u8_to_u32 mem2 0 = .ret (cp, it'))
      ∧ (detail.sequence_length 0xE2 = 0 →
          cp = detail.cast_8 0xE2 ∧ it' = 0 + 1 ∧ 0x80 ≤ cp ∧ cp ≤ 0xFF) :=
  decode_step_bounded_deterministic [0xE2, 0x02, 0x2C] 0 0xE2 (by decide) (by decide)

/-- C27. No substitution on the decode paths: for every value `cp` in the surrogate range
`[0xD800, 0xDFFF]`, `append_u32_to_u8` emits three bytes for `cp`, `u8_to_u32` over these
bytes returns `[cp]` and `u8_to_u16` over them returns the single unit `[cp]`, while
`u32_to_u16` on `[cp]` returns `[0xFFFD]`, which differs from `[cp]`. -/
theorem decode_paths_do_not_substitute (cp : Nat) (h : 0xD800 ≤ cp ∧ cp ≤ 0xDFFF) :
    (append_u32_to_u8 cp []).length = 3
    ∧ u8_to_u32 (append_u32_to_u8 cp []) 0 3 [] = .ret [cp]
    ∧ u8_to_u16 (append_u32_to_u8 cp []) 0 3 [] = .ret [cp]
    ∧ u32_to_u16 [cp] 0 1 [] = .ret [0xFFFD]
    ∧ [cp] ≠ [0xFFFD] := by
  have hlen : (append_u32_to_u8 cp []).length = 3 := by
    rw [append_u32_to_u8_length, code_point_size_u8_surrogate cp h]
  have hu : utf8_of [cp] = append_u32_to_u8 cp [] := by simp [utf8_of]
  have h32 := u8_to_u32_loop_utf8_of [cp] (by intro c hc; simp at hc; omega) [] [] 4 (by simp)
  have h16 := u8_to_u16_loop_bmp [cp] (by intro c hc; simp at hc; omega) [] [] 4 (by simp)
  have hr := u32_to_u16_run [cp]
  have hs : utf16_of [cp] = [0xFFFD] := by
    have h32' : to_u32 cp = cp := Nat.mod_eq_of_lt (by omega)
    simp only [utf16_of, List.append_nil]
    exact u32_to_u16_units_subst cp (Or.inl (by rw [h32']; exact h))
  rw [hu] at h32 h16
  simp only [List.nil_append, List.length_nil, Nat.zero_add, hlen] at h32 h16
  refine ⟨hlen, ?_, ?_, ?_, ?_⟩
  · unfold u8_to_u32
    rw [hlen]
    exact h32
  · unfold u8_to_u16
    rw [hlen]
    exact h16
  · rw [hs] at hr
    exact hr
  · intro he
    have : cp = 0xFFFD := by simpa using he
    omega

/-- Witness for C27: the lead surrogate `0xD83D` (bytes `ED A0 BD`). -/
theorem decode_paths_do_not_substitute_witness :
    u8_to_u32 (append_u32_to_u8 0xD83D []) 0 3 [] = .ret [0xD83D]
    ∧ u8_to_u16 (append_u32_to_u8 0xD83D []) 0 3 [] = .ret [0xD83D]
    ∧ u32_to_u16 [0xD83D] 0 1 [] = .ret [0xFFFD] :=
  ⟨(decode_paths_do_not_substitute 0xD83D (by decide)).2.1,
    (decode_paths_do_not_substitute 0xD83D (by decide)).2.2.1,
    (decode_paths_do_not_substitute 0xD83D (by decide)).2.2.2.1⟩

/-- C28. Overlong encodings are not rejected: for every code point `cp < 0x80` the overlong
two-byte sequence `[0xC0 | (cp >> 6), 0x80 | (cp & 0x3F)]` is decoded by `next_u8_to_u32` to
`cp` (position advanced by 2), the same value as the one-byte sequence `[cp]` (position
advanced by 1), and `u8_to_u32` turns both sequences into `[cp]`; the two byte sequences
differ, so the decoder is not injective on byte sequences (`[0xC0, 0x80]` and `[0x00]` both
decode to 0). -/
theorem overlong_not_rejected (cp : Nat) (h : cp < 0x80) :
    next_u8_to_u32 [0xC0 ||| (cp >>> 6), 0x80 ||| (cp &&& 0x3F)] 0 = .ret (cp, 2)
    ∧ next_u8_to_u32 [cp] 0 = .ret (cp, 1)
    ∧ u8_to_u32 [0xC0 ||| (cp >>> 6), 0x80 ||| (cp &&& 0x3F)] 0 2 [] = .ret [cp]
    ∧ u8_to_u32 [cp] 0 1 [] = .ret [cp]
    ∧ [0xC0 ||| (cp >>> 6), 0x80 ||| (cp &&& 0x3F)] ≠ [cp]
    ∧ next_u8_to_u32 [0xC0, 0x80] 0 = .ret (0, 2)
    ∧ next_u8_to_u32 [0x00] 0 = .ret (0, 1) := by
  obtain ⟨a, b, c, d, e⟩ := overlong_facts cp h
  exact ⟨a, b, c, d, e, by decide, by decide⟩

/-- Witness for C28: `C1 81` and `41` both decode to U+0041. -/
theorem overlong_not_rejected_witness :
    next_u8_to_u32 [0xC1, 0x81] 0 = .ret (0x41, 2)
    ∧ next_u8_to_u32 [0x41] 0 = .ret (0x41, 1) :=
  ⟨(overlong_not_rejected 0x41 (by decide)).1, (overlong_not_rejected 0x41 (by decide)).2.1⟩

/-- C29. Reverse decoding: let `S = S1 ++ c :: S2` be a sequence of valid code points (so `c`
is its k-th code point for k the length of `S1`), `B` the buffer that `u32_to_u8` returns for
`S`, and `p > 0` the end of the byte sequence of `c` in `B`.  Then `prior_u8_to_u32` started at
`p` returns `c` and leaves the position at the first byte of `c` (the length of the encoding
of `S1`, so never before index 0), and `next_u8_to_u32` from there returns `c` again and
restores the position to `p`. -/
theorem reverse_decoding (S1 S2 : List Nat) (c : Nat)
    (hS : ∀ cp ∈ S1 ++ c :: S2, cp ≤ 0x10FFFF ∧ ¬ (0xD800 ≤ cp ∧ cp ≤ 0xDFFF)) :
    ∃ B, u32_to_u8 (S1 ++ c :: S2) 0 (S1 ++ c :: S2).length [] = .ret B
      ∧ 0 < (utf8_of S1).length + code_point_size_u8 c
      ∧ (utf8_of S1).length + code_point_size_u8 c ≤ B.length
      ∧ (utf8_of S1).length + code_point_size_u8 c = (utf8_of (S1 ++ [c])).length
      ∧ prior_u8_to_u32 B ((utf8_of S1).length + code_point_size_u8 c)
          = .ret (c, (utf8_of S1).length)
      ∧ next_u8_to_u32 B (utf8_of S1).length
          = .ret (c, (utf8_of S1).length + code_point_size_u8 c) := by
  have hc : c < 0x200000 := by
    have := (hS c (by simp)).1
    omega
  have hB : utf8_of (S1 ++ c :: S2) = utf8_of S1 ++ append_u32_to_u8 c [] ++ utf8_of S2 := by
    rw [utf8_of_append, utf8_of, List.append_assoc]
  have hp := prior_u8_to_u32_append c hc (utf8_of S1) (utf8_of S2)
  have hpos := code_point_size_u8_pos c
  refine ⟨utf8_of (S1 ++ c :: S2), u32_to_u8_run _, by omega, ?_, ?_, ?_, ?_⟩
  · rw [hB]
    simp only [List.length_append, append_u32_to_u8_length]
    omega
  · rw [utf8_of_append]
    simp [utf8_of, append_u32_to_u8_length]
  · rw [hB]
    exact hp.1
  · rw [hB]
    exact hp.2.2

/-- Witness for C29: U+20AC between U+0041 and U+1F600; its bytes end at position 4 and
start at position 1. -/
theorem reverse_decoding_witness :
    ∃ B, u32_to_u8 ([0x41] ++ 0x20AC :: [0x1F600]) 0 ([0x41] ++ 0x20AC :: [0x1F600]).length []
        = .ret B
      ∧ 0 < (utf8_of [0x41]).length + code_point_size_u8 0x20AC
      ∧ (utf8_of [0x41]).length + code_point_size_u8 0x20AC ≤ B.length
      ∧ (utf8_of [0x41]).length + code_point_size_u8 0x20AC
          = (utf8_of ([0x41] ++ [0x20AC])).length
      ∧ prior_u8_to_u32 B ((utf8_of [0x41]).length + code_point_size_u8 0x20AC)
          = .ret (0x20AC, (utf8_of [0x41]).length)
      ∧ next_u8_to_u32 B (utf8_of [0x41]).length
          = .ret (0x20AC, (utf8_of [0x41]).length + code_point_size_u8 0x20AC) :=
  reverse_decoding [0x41] [0x1F600] 0x20AC (by decide)

/-- C30. The two routes from UTF-32 to UTF-16 agree on valid input: for every sequence `S` of
code points in `[0, 0x10FFFF]` outside the surrogate range, `u32_to_u8` returns a buffer `B`,
and `u8_to_u16` on `B` returns what `u32_to_u16` returns on `S`; for a code point above
`0xFFFF` the pair of `u8_to_u16`, `(cp >> 10) + k_lead_offset` and `(cp & 0x3FF) + 0xDC00`
with `k_lead_offset = 0xD800 - (0x10000 >> 10)`, is the pair that `u32_to_u16` obtains by
subtracting `0x10000` first. -/
theorem utf32_to_utf16_routes_agree (S : List Nat)
    (hS : ∀ cp ∈ S, cp ≤ 0x10FFFF ∧ ¬ (0xD800 ≤ cp ∧ cp ≤ 0xDFFF)) :
    (∃ B out, u32_to_u8 S 0 S.length [] = .ret B
      ∧ u32_to_u16 S 0 S.length [] = .ret out
      ∧ u8_to_u16 B 0 B.length [] = .ret out)
    ∧ (∀ cp ∈ S, 0xFFFF < cp →
        [detail.cast_16 ((cp >>> 10) + detail.k_lead_offset),
          detail.cast_16 ((cp &&& 0x3FF) + detail.k_trail_surrogate_min)]
        = [detail.cast_16 (((cp - 0x10000) >>> 10) + 0xD800),
            detail.cast_16 (((cp - 0x10000) &&& 0x3FF) + 0xDC00)]
        ∧ u32_to_u16 [cp] 0 1 []
          = .ret [detail.cast_16 ((cp >>> 10) + detail.k_lead_offset),
              detail.cast_16 ((cp &&& 0x3FF) + detail.k_trail_surrogate_min)])
    ∧ detail.k_lead_offset = 0xD800 - (0x10000 >>> 10) := by
  refine ⟨⟨utf8_of S, utf16_of S, u32_to_u8_run S, u32_to_u16_run S, ?_⟩, ?_, by decide⟩
  · have h := u8_to_u16_loop_utf8_of S hS [] [] ((utf8_of S).length + 1)
      (by have := length_le_utf8_of S; omega)
    simpa [u8_to_u16] using h
  · intro cp hcp hbig
    have hle := (hS cp hcp).1
    have hp := u8_to_u16_pair_eq cp (by omega) hle
    have h32 : to_u32 cp = cp := Nat.mod_eq_of_lt (by omega)
    have hu : u32_to_u16_units cp
        = [detail.cast_16 (((cp - 0x10000) >>> 10) + 0xD800),
            detail.cast_16 (((cp - 0x10000) &&& 0x3FF) + 0xDC00)] := by
      unfold u32_to_u16_units
      simp only [h32]
      rw [if_neg (by omega), if_neg (by omega)]
    have hr := u32_to_u16_run [cp]
    simp only [utf16_of, List.append_nil, List.length_singleton] at hr
    refine ⟨by rw [hp, hu], ?_⟩
    rw [hp]
    exact hr

/-- Witness for C30: code points of one, two, three and four UTF-8 bytes, the last one
giving a surrogate pair. -/
theorem utf32_to_utf16_routes_agree_witness :
    ∃ B out, u32_to_u8 [0x41, 0xE9, 0x20AC, 0x1F600] 0 [0x41, 0xE9, 0x20AC, 0x1F600].length []
        = .ret B
      ∧ u32_to_u16 [0x41, 0xE9, 0x20AC, 0x1F600] 0 [0x41, 0xE9, 0x20AC, 0x1F600].length []
        = .ret out
      ∧ u8_to_u16 B 0 B.length [] = .ret out :=
  (utf32_to_utf16_routes_agree [0x41, 0xE9, 0x20AC, 0x1F600] (by decide)).1


/-- C37. Byte-order-mark test: on every byte range `B` (between arbitrary memory before and
after it) `starts_with_bom` returns true exactly when the range has at least three bytes and
its first three bytes are `0xEF`, `0xBB`, `0xBF`; on a range shorter than three bytes it
returns false without reading at or past the end: it returns false also when no memory
follows the range and whatever memory follows it. -/
theorem starts_with_bom_spec (pre B post : List Nat) (hB : ∀ b ∈ B, b < 256) :
    detail.starts_with_bom (pre ++ B ++ post) pre.length (pre.length + B.length)
      = .ret (decide (3 ≤ B.length ∧ B.take 3 = [0xEF, 0xBB, 0xBF]))
    ∧ (B.length < 3 →
        detail.starts_with_bom (pre ++ B) pre.length (pre.length + B.length) = .ret false
        ∧ detail.starts_with_bom (pre ++ B ++ post) pre.length (pre.length + B.length)
          = .ret false) := by
  refine ⟨?_, fun h => ⟨?_, starts_with_bom_short pre B post h⟩⟩
  · by_cases h3 : B.length < 3
    · rw [starts_with_bom_short pre B post h3]
      simp
      omega
    · match B, h3, hB with
      | [], h, _ => simp at h
      | [_], h, _ => simp at h
      | [_, _], h, _ => simp at h
      | b0 :: b1 :: b2 :: rest, _, hB =>
        have c0 : detail.cast_8 b0 = b0 := Nat.mod_eq_of_lt (hB b0 (by simp))
        have c1 : detail.cast_8 b1 = b1 := Nat.mod_eq_of_lt (hB b1 (by simp))
        have c2 : detail.cast_8 b2 = b2 := Nat.mod_eq_of_lt (hB b2 (by simp))
        rw [starts_with_bom_three, c0, c1, c2]
        simp
  · have h0 := starts_with_bom_short pre B [] h
    simpa using h0

/-- Witness for C37: the mark followed by `A` is recognised; the two-byte range `EF BB` is
not, with nothing readable after it. -/
theorem starts_with_bom_spec_witness :
    detail.starts_with_bom ([] ++ [0xEF, 0xBB, 0xBF, 0x41] ++ []) ([] : List Nat).length
        (([] : List Nat).length + [0xEF, 0xBB, 0xBF, 0x41].length)
      = .ret (decide (3 ≤ [0xEF, 0xBB, 0xBF, 0x41].length
          ∧ [0xEF, 0xBB, 0xBF, 0x41].take 3 = [0xEF, 0xBB, 0xBF]))
    ∧ detail.starts_with_bom ([] ++ [0xEF, 0xBB]) ([] : List Nat).length
        (([] : List Nat).length + [0xEF, 0xBB].length) = .ret false :=
  ⟨(starts_with_bom_spec [] [0xEF, 0xBB, 0xBF, 0x41] [] (by decide)).1,
    ((starts_with_bom_spec [] [0xEF, 0xBB] [] (by decide)).2 (by decide)).1⟩

/-- C38. Surrogate predicates: for every 16-bit code unit `u`, `is_high_surrogate(u)` holds
exactly for `u` in `[0xD800, 0xDBFF]`, `is_low_surrogate(u)` exactly for `u` in
`[0xDC00, 0xDFFF]`, `is_surrogate(u)` exactly for `u` in `[0xD800, 0xDFFF]`, that is when
`is_high_surrogate(u)` or `is_low_surrogate(u)` holds, and `u16_sequence_length(u)` is 2 if
`u` is a high surrogate and 1 otherwise. -/
theorem surrogate_predicates (u : Nat) (hu : u < 65536) :
    (detail.is_high_surrogate u = true ↔ 0xD800 ≤ u ∧ u ≤ 0xDBFF)
    ∧ (detail.is_low_surrogate u = true ↔ 0xDC00 ≤ u ∧ u ≤ 0xDFFF)
    ∧ (detail.is_surrogate u = true ↔ 0xD800 ≤ u ∧ u ≤ 0xDFFF)
    ∧ detail.is_surrogate u = (detail.is_high_surrogate u || detail.is_low_surrogate u)
    ∧ detail.u16_sequence_length u = (if 0xD800 ≤ u ∧ u ≤ 0xDBFF then 2 else 1) := by
  have hh := is_high_surrogate_iff u hu
  have hl := is_low_surrogate_iff u hu
  have hs := is_surrogate_iff u hu
  refine ⟨hh, hl, hs, ?_, ?_⟩
  · rw [Bool.eq_iff_iff, Bool.or_eq_true, hh, hl, hs]
    omega
  · rw [u16_sequence_length_eq]
    by_cases h : 0xD800 ≤ u ∧ u ≤ 0xDBFF
    · rw [if_pos (hh.mpr h), if_pos h]
    · rw [if_neg (fun c => h (hh.mp c)), if_neg h]

/-- Witness for C38: `0xD83D` is a high surrogate and starts a sequence of 2 units. -/
theorem surrogate_predicates_witness :
    (detail.is_high_surrogate 0xD83D = true ↔ 0xD800 ≤ 0xD83D ∧ 0xD83D ≤ 0xDBFF)
    ∧ detail.u16_sequence_length 0xD83D = (if 0xD800 ≤ 0xD83D ∧ 0xD83D ≤ 0xDBFF then 2 else 1) :=
  ⟨(surrogate_predicates 0xD83D (by decide)).1,
    (surrogate_predicates 0xD83D (by decide)).2.2.2.2⟩

/-- C39 (defect in the code). The specification asks that `is_valid_code_point(cp)` is true
exactly when `cp <= 0x10FFFF` and `cp` is outside `[0xD800, 0xDFFF]`.  The code passes the
32-bit `cp` to `is_surrogate(char16_t)`, which keeps its low 16 bits: the code points
`0x1D800`, `0x2DFFF` and `0x10D800`, which are at most `0x10FFFF` and outside the surrogate
range, are reported invalid, as is every code point whose low 16 bits lie in
`[0xD800, 0xDFFF]`. -/
theorem is_valid_code_point_truncates :
    detail.is_valid_code_point 0x1D800 = false
    ∧ detail.is_valid_code_point 0x2DFFF = false
    ∧ detail.is_valid_code_point 0x10D800 = false
    ∧ (0x1D800 ≤ 0x10FFFF ∧ ¬ (0xD800 ≤ 0x1D800 ∧ 0x1D800 ≤ 0xDFFF))
    ∧ detail.is_valid_code_point 0x1D7FF = true
    ∧ detail.is_valid_code_point 0x1E000 = true
    ∧ detail.is_valid_code_point 0xD800 = false
    ∧ detail.is_valid_code_point 0x110000 = false := by
  decide

/-- C36. The view stores its length in 32 bits: for every source of `n` code units (for a
pointer or a literal, the characters before the terminator) the constructed view's `size()`
is `n mod 2 ^ 32`, hence `n` itself exactly when `n < 2 ^ 32`; `size_bytes()` is this stored
value times the width, and `to_utf8`, `to_utf16` and `to_utf32` convert the stored number of
units: they return the empty string when it is 0 and otherwise run `convert_as` on the
stored pointer and the stored size.  The view of an owned string of `2 ^ 32` units has
`size() == 0`, `size_bytes() == 0` and converts to the empty string. -/
theorem size_is_stored_in_32_bits (w : wchar_width) (src : source) :
    (string_view.make w src).size = src.size % 4294967296
    ∧ ((string_view.make w src).size = src.size ↔ src.size < 4294967296)
    ∧ (string_view.make w src).size_bytes = src.size % 4294967296 * sizeof_char w src.char
    ∧ (string_view.make w src).to_utf8 w
        = (if src.size % 4294967296 = 0 then .ret []
          else convert_as w .char src.char
            { data := (string_view.make w src).m_data, size := src.size % 4294967296 })
    ∧ (string_view.make w src).to_utf16 w
        = (if src.size % 4294967296 = 0 then .ret []
          else convert_as w .char16_t src.char
            { data := (string_view.make w src).m_data, size := src.size % 4294967296 })
    ∧ (string_view.make w src).to_utf32 w
        = (if src.size % 4294967296 = 0 then .ret []
          else convert_as w .char32_t src.char
            { data := (string_view.make w src).m_data, size := src.size % 4294967296 })
    ∧ (∀ (c : char_type) (chars : List Nat), (∀ u ∈ chars, u ≠ 0) →
        (source.pointer c chars).size = chars.length
        ∧ (source.literal c chars).size = chars.length)
    ∧ (string_view.make w (.string .char (List.replicate 4294967296 0x41))).size = 0
    ∧ (string_view.make w (.string .char (List.replicate 4294967296 0x41))).size_bytes = 0
    ∧ (string_view.make w (.string .char (List.replicate 4294967296 0x41))).to_utf16 w
        = .ret [] := by
  have hs : (string_view.make w src).size = src.size % 4294967296 := make_size w src
  have hc := make_char_size w src
  obtain ⟨c8, c16, c32⟩ := conversions_of_make w src
  have hbig : (source.string .char (List.replicate 4294967296 0x41)).size = 4294967296 := by
    rw [source_string_size, List.length_replicate]
  have hz : (string_view.make w (.string .char (List.replicate 4294967296 0x41))).size
      = 0 := by
    rw [make_string_size, List.length_replicate]
  refine ⟨hs, ?_, ?_, c8, c16, c32, ?_, hz, ?_, ?_⟩
  · rw [hs]
    constructor
    · intro h
      have := Nat.mod_lt src.size (show 0 < 4294967296 by decide)
      omega
    · intro h
      exact Nat.mod_eq_of_lt h
  · unfold string_view.size_bytes string_view.char_size
    rw [hc, make_size]
  · intro c chars hz0
    exact ⟨traits_length_terminated chars hz0, traits_length_terminated chars hz0⟩
  · have hb := make_size_bytes w (.string .char (List.replicate 4294967296 0x41))
    rw [hbig] at hb
    rw [hb, Nat.mod_self, Nat.zero_mul]
  · have h16 := (conversions_of_make w (.string .char (List.replicate 4294967296 0x41))).2.1
    rw [hbig] at h16
    rw [h16, if_pos (by decide)]

/-- Witness for C36: the view of a literal of 5 wide characters has `size() == 5` and
`size_bytes() == 20` with a 4-byte `wchar_t`. -/
theorem size_is_stored_in_32_bits_witness :
    (string_view.make .four (.literal .wchar_t [0x48, 0x65, 0x6C, 0x6C, 0x6F])).size
      = (source.literal .wchar_t [0x48, 0x65, 0x6C, 0x6C, 0x6F]).size % 4294967296
    ∧ (string_view.make .four (.literal .wchar_t [0x48, 0x65, 0x6C, 0x6C, 0x6F])).size_bytes
      = (source.literal .wchar_t [0x48, 0x65, 0x6C, 0x6C, 0x6F]).size % 4294967296
        * sizeof_char .four (source.literal .wchar_t [0x48, 0x65, 0x6C, 0x6C, 0x6F]).char :=
  ⟨(size_is_stored_in_32_bits .four (.literal .wchar_t [0x48, 0x65, 0x6C, 0x6C, 0x6F])).1,
    (size_is_stored_in_32_bits .four (.literal .wchar_t [0x48, 0x65, 0x6C, 0x6C, 0x6F])).2.2.1⟩

/-- C33. The two UTF-8 code-point counters agree: for every byte buffer and every `size` such
that no position visited by the scan of the first `size` bytes holds a byte of sequence
length 0, `u8_length` (with a budget of at least `size` iterations) and `u8_to_u32_length`
return the same count, which is at most `size`; this includes inputs whose last sequence is
truncated, where the scan steps past `size`. -/
theorem u8_counters_agree (str : List Nat) (size : Nat) (h : ScanMeetsNoZero str size 0) :
    ∃ k, u8_to_u32_length str 0 size = .ret k
      ∧ (∀ fuel, size ≤ fuel → u8_length fuel str size = .ret k)
      ∧ k ≤ size := by
  obtain ⟨k, hk, hloop⟩ := u8_length_loops_agree h
  refine ⟨k, ?_, ?_, by omega⟩
  · have h2 := (hloop (str.length + 1) 0 (Or.inr (by omega))).2
    rw [Nat.zero_add] at h2
    exact h2
  · intro fuel hf
    have h1 := (hloop fuel 0 (Or.inl (by omega))).1
    rw [Nat.zero_add] at h1
    exact h1

/-- Witness for C33: `A`, the two bytes of U+00E9 and a three-byte sequence cut after its
second byte are counted as 3 by both counters. -/
theorem u8_counters_agree_witness :
    ScanMeetsNoZero [0x41, 0xC3, 0xA9, 0xE2, 0x82] 5 0
    ∧ ∃ k, u8_to_u32_length [0x41, 0xC3, 0xA9, 0xE2, 0x82] 0 5 = .ret k
      ∧ (∀ fuel, 5 ≤ fuel → u8_length fuel [0x41, 0xC3, 0xA9, 0xE2, 0x82] 5 = .ret k)
      ∧ k ≤ 5 :=
  ⟨.step 0 0x41 (by decide) (by decide) (by decide)
      (.step 1 0xC3 (by decide) (by decide) (by decide)
        (.step 3 0xE2 (by decide) (by decide) (by decide) (.done 6 (by decide)))),
    u8_counters_agree [0x41, 0xC3, 0xA9, 0xE2, 0x82] 5
      (.step 0 0x41 (by decide) (by decide) (by decide)
        (.step 1 0xC3 (by decide) (by decide) (by decide)
          (.step 3 0xE2 (by decide) (by decide) (by decide) (.done 6 (by decide)))))⟩

/-- C31. The output of `u32_to_u16` is well-formed UTF-16: for every sequence `S` of 32-bit
values, valid or not, `u32_to_u16` returns a buffer in which every unit is a 16-bit value,
every unit in `[0xD800, 0xDBFF]` is immediately followed by a unit in `[0xDC00, 0xDFFF]` and
every unit in `[0xDC00, 0xDFFF]` is immediately preceded by a unit in `[0xD800, 0xDBFF]`;
and `u16_to_u32` on that buffer returns `S` with each invalid value replaced by `0xFFFD`. -/
theorem u32_to_u16_output_well_formed (S : List Nat) (hS : ∀ c ∈ S, c < 4294967296) :
    ∃ out, u32_to_u16 S 0 S.length [] = .ret out
      ∧ (∀ (i u : Nat), out[i]? = some u →
          u < 65536
          ∧ (0xD800 ≤ u ∧ u ≤ 0xDBFF → ∃ l, out[i + 1]? = some l ∧ 0xDC00 ≤ l ∧ l ≤ 0xDFFF)
          ∧ (0xDC00 ≤ u ∧ u ≤ 0xDFFF →
              ∃ j hi, i = j + 1 ∧ out[j]? = some hi ∧ 0xD800 ≤ hi ∧ hi ≤ 0xDBFF))
      ∧ u16_to_u32 out 0 out.length [] = .ret (S.map replace_invalid) := by
  have hvalid : ∀ cp ∈ S.map replace_invalid,
      cp ≤ 0x10FFFF ∧ ¬ (0xD800 ≤ cp ∧ cp ≤ 0xDFFF) := by
    intro cp hcp
    obtain ⟨c, hc, rfl⟩ := List.mem_map.mp hcp
    exact (u32_to_u16_units_replace_invalid c (hS c hc)).2
  have he := utf16_of_replace_invalid S hS
  refine ⟨utf16_of S, u32_to_u16_run S, ?_, ?_⟩
  · rw [he]
    exact pairedU16_positions (pairedU16_utf16_of _ hvalid)
  · rw [he]
    have h := u16_to_u32_loop_utf16_of (S.map replace_invalid) hvalid [] []
      ((utf16_of (S.map replace_invalid)).length + 1)
      (by have := length_le_utf16_of (S.map replace_invalid); omega)
    simpa [u16_to_u32] using h

/-- Witness for C31: a BMP code point, a surrogate value, a code point above `0xFFFF` and a
value above `0x10FFFF`. -/
theorem u32_to_u16_output_well_formed_witness :
    ∃ out, u32_to_u16 [0x41, 0xD800, 0x1F600, 0x110000] 0
        [0x41, 0xD800, 0x1F600, 0x110000].length [] = .ret out
      ∧ (∀ (i u : Nat), out[i]? = some u →
          u < 65536
          ∧ (0xD800 ≤ u ∧ u ≤ 0xDBFF → ∃ l, out[i + 1]? = some l ∧ 0xDC00 ≤ l ∧ l ≤ 0xDFFF)
          ∧ (0xDC00 ≤ u ∧ u ≤ 0xDFFF →
              ∃ j hi, i = j + 1 ∧ out[j]? = some hi ∧ 0xD800 ≤ hi ∧ hi ≤ 0xDBFF))
      ∧ u16_to_u32 out 0 out.length []
          = .ret ([0x41, 0xD800, 0x1F600, 0x110000].map replace_invalid) :=
  u32_to_u16_output_well_formed [0x41, 0xD800, 0x1F600, 0x110000] (by decide)

/-- C32. In-bounds decoding of well-formed UTF-8: for every sequence `S` of valid code
points and the buffer `B` that `u32_to_u8` returns for it, `u8_to_u32` and `u8_to_u16` run on
`B` alone, with nothing readable after it, return (`S` and the UTF-16 form of `S`): every byte
they read is at an index below `|B|`.  The iterations of their loop start at the first bytes
of the code points of `S`, where the decode step returns a code point of `S` and advances by
its size without passing `|B|`, and the read position ends exactly at `|B|`. -/
theorem utf8_decoding_in_bounds (S : List Nat)
    (hS : ∀ cp ∈ S, cp ≤ 0x10FFFF ∧ ¬ (0xD800 ≤ cp ∧ cp ≤ 0xDFFF)) :
    ∃ B, u32_to_u8 S 0 S.length [] = .ret B
      ∧ u8_to_u32 B 0 B.length [] = .ret S
      ∧ (∃ out, u8_to_u16 B 0 B.length [] = .ret out)
      ∧ u8_decode_positions B B.length (B.length + 1) 0 []
          = .ret (code_point_starts 0 S, B.length)
      ∧ (code_point_starts 0 S).length = S.length
      ∧ (∀ p ∈ code_point_starts 0 S, ∃ cp, cp ∈ S
          ∧ next_u8_to_u32 B p = .ret (cp, p + code_point_size_u8 cp)
          ∧ p + code_point_size_u8 cp ≤ B.length) := by
  have hS' : ∀ c ∈ S, c < 0x200000 := fun c hc => by have := (hS c hc).1; omega
  have hfuel : S.length ≤ (utf8_of S).length + 1 := by have := length_le_utf8_of S; omega
  refine ⟨utf8_of S, u32_to_u8_run S, ?_, ⟨utf16_of S, ?_⟩, ?_, ?_, ?_⟩
  · have h := u8_to_u32_loop_utf8_of S hS' [] [] _ hfuel
    simpa [u8_to_u32] using h
  · have h := u8_to_u16_loop_utf8_of S hS [] [] _ hfuel
    simpa [u8_to_u16] using h
  · have h := u8_decode_positions_utf8_of S hS' [] [] _ hfuel
    simpa using h
  · have hl : ∀ (T : List Nat) (p : Nat), (code_point_starts p T).length = T.length := by
      intro T
      induction T with
      | nil => intro p; rfl
      | cons c T ih => intro p; simp [code_point_starts, ih]
    exact hl S 0
  · intro p hp
    obtain ⟨cp, hcp, _, hn, hb⟩ := next_u8_to_u32_at_starts S hS' [] p hp
    refine ⟨cp, hcp, ?_, ?_⟩
    · simpa using hn
    · simpa using hb

/-- Witness for C32: U+0041, U+20AC and U+1F600 occupy 8 bytes and start at 0, 1 and 4. -/
theorem utf8_decoding_in_bounds_witness :
    ∃ B, u32_to_u8 [0x41, 0x20AC, 0x1F600] 0 [0x41, 0x20AC, 0x1F600].length [] = .ret B
      ∧ u8_to_u32 B 0 B.length [] = .ret [0x41, 0x20AC, 0x1F600]
      ∧ (∃ out, u8_to_u16 B 0 B.length [] = .ret out)
      ∧ u8_decode_positions B B.length (B.length + 1) 0 []
          = .ret (code_point_starts 0 [0x41, 0x20AC, 0x1F600], B.length)
      ∧ (code_point_starts 0 [0x41, 0x20AC, 0x1F600]).length
          = [0x41, 0x20AC, 0x1F600].length
      ∧ (∀ p ∈ code_point_starts 0 [0x41, 0x20AC, 0x1F600], ∃ cp,
          cp ∈ [0x41, 0x20AC, 0x1F600]
          ∧ next_u8_to_u32 B p = .ret (cp, p + code_point_size_u8 cp)
          ∧ p + code_point_size_u8 cp ≤ B.length) :=
  utf8_decoding_in_bounds [0x41, 0x20AC, 0x1F600] (by decide)

/-- C35. Scratch-buffer bound: let the transcoding iterator (differing source and target
encodings) stand at a position `it` whose unit `c` delimits, through
`iterator_sequence_length`, a slice of 0 to 4 UTF-8 bytes, of 1 or 2 UTF-16 units or of 1
UTF-32 unit that lies in memory, with arbitrary unit values.  Then `copy` on that slice
returns, the number of units it writes is at most `encoding_to_max_char_count` of the target
encoding (4 for UTF-8, 2 for UTF-16, 1 for UTF-32), and `operator*` returns the view of the
written units: the array of the iterator is not written past its end. -/
theorem scratch_buffer_bound (w : wchar_width) (input output : char_type)
    (hne : encoding_of w input ≠ encoding_of w output) (mem : List Nat) (it c : Nat)
    (hc : mem[it]? = some c)
    (hn : it + detail.iterator_sequence_length (encoding_of w input) c ≤ mem.length) :
    (∃ written,
      copy w output input
          { data := some (mem.drop it),
            size := detail.iterator_sequence_length (encoding_of w input) c } []
        = .ret written
      ∧ written.length ≤ encoding_to_max_char_count (encoding_of w output)
      ∧ detail.base_iterator.get w input output mem it
        = .ret { data := some written, size := written.length })
    ∧ (encoding_of w input = .utf8 →
        detail.iterator_sequence_length (encoding_of w input) c ≤ 4)
    ∧ (encoding_of w input = .utf16 →
        detail.iterator_sequence_length (encoding_of w input) c = 1
        ∨ detail.iterator_sequence_length (encoding_of w input) c = 2)
    ∧ (encoding_of w input = .utf32 →
        detail.iterator_sequence_length (encoding_of w input) c = 1)
    ∧ encoding_to_max_char_count .utf8 = 4 ∧ encoding_to_max_char_count .utf16 = 2
    ∧ encoding_to_max_char_count .utf32 = 1 := by
  have hd : (mem.drop it)[0]? = some c := by
    rw [List.getElem?_drop, Nat.add_zero]
    exact hc
  have hl : detail.iterator_sequence_length (encoding_of w input) c ≤ (mem.drop it).length := by
    rw [List.length_drop]
    omega
  obtain ⟨written, hw, hb⟩ := copy_slice_bound w input output hne (mem.drop it) c hd hl
  refine ⟨⟨written, hw, hb, ?_⟩, ?_, ?_, ?_, rfl, rfl, rfl⟩
  · unfold detail.base_iterator.get
    rw [hc]
    simp only [if_neg hne, hw, if_pos hb]
  · intro he
    rw [he]
    exact sequence_length_le c
  · intro he
    rw [he]
    simp only [detail.iterator_sequence_length, u16_sequence_length_eq]
    split_ifs
    · exact Or.inr rfl
    · exact Or.inl rfl
  · intro he
    rw [he]
    rfl

/-- Witness for C35: a high surrogate followed by a unit that is not a low surrogate, handed
to the UTF-16 to UTF-8 iterator, gives 4 bytes. -/
theorem scratch_buffer_bound_witness :
    ∃ written,
      copy .four .char .char16_t
          { data := some ([0xDBFF, 0xFFFF].drop 0),
            size := detail.iterator_sequence_length (encoding_of .four .char16_t) 0xDBFF } []
        = .ret written
      ∧ written.length ≤ encoding_to_max_char_count (encoding_of .four .char)
      ∧ detail.base_iterator.get .four .char16_t .char [0xDBFF, 0xFFFF] 0
        = .ret { data := some written, size := written.length } :=
  (scratch_buffer_bound .four .char16_t .char (by decide) [0xDBFF, 0xFFFF] 0 0xDBFF
    (by decide) (by decide)).1

/-- C34. Per-code-point iteration agrees with whole-string conversion: let `s` be the string
that encodes a sequence `S` of valid code points in the encoding of the source character type,
and `T` a target character type.  Then the traversal of `iterate_as<T>(s)` from begin to end
returns; the concatenation, in order, of the views it yields is what `convert_as<T>(s)`
returns; the number of positions visited is what `length(s)` returns (the number of
code points); and when the target encoding is the source encoding, as with `iterate(s)`, the
concatenation is `s` itself. -/
theorem iteration_agrees_with_conversion (w : wchar_width) (input output : char_type)
    (S : List Nat) (hS : ∀ cp ∈ S, cp ≤ 0x10FFFF ∧ ¬ (0xD800 ≤ cp ∧ cp ≤ 0xDFFF)) :
    ∃ (result : List Nat) (visited : Nat),
      iterate_collect w input output (encode (encoding_of w input) S)
          (encode (encoding_of w input) S).length
          ((encode (encoding_of w input) S).length + 1) 0 [] 0
        = .ret (result, visited)
      ∧ convert_as w output input
          { data := some (encode (encoding_of w input) S),
            size := (encode (encoding_of w input) S).length }
        = .ret result
      ∧ length w input (encode (encoding_of w input) S).length
          { data := some (encode (encoding_of w input) S),
            size := (encode (encoding_of w input) S).length }
        = .ret visited
      ∧ visited = S.length
      ∧ (encoding_of w output = encoding_of w input →
          result = encode (encoding_of w input) S) := by
  have hle := length_le_encode (encoding_of w input) S
  have hit := iterate_collect_encode w input output S hS [] [] 0
    ((encode (encoding_of w input) S).length + 1) (by omega)
  simp only [List.nil_append, List.length_nil, Nat.zero_add] at hit
  refine ⟨encode (encoding_of w output) S, S.length, hit,
    convert_as_encode w input output S hS,
    length_encode w input S hS _ (le_refl _), rfl, ?_⟩
  intro he
  rw [he]

/-- Witness for C34: the UTF-8 string of U+0041, U+20AC and U+1F600 iterated as UTF-16. -/
theorem iteration_agrees_with_conversion_witness :
    ∃ (result : List Nat) (visited : Nat),
      iterate_collect .four .char .char16_t
          (encode (encoding_of .four .char) [0x41, 0x20AC, 0x1F600])
          (encode (encoding_of .four .char) [0x41, 0x20AC, 0x1F600]).length
          ((encode (encoding_of .four .char) [0x41, 0x20AC, 0x1F600]).length + 1) 0 [] 0
        = .ret (result, visited)
      ∧ convert_as .four .char16_t .char
          { data := some (encode (encoding_of .four .char) [0x41, 0x20AC, 0x1F600]),
            size := (encode (encoding_of .four .char) [0x41, 0x20AC, 0x1F600]).length }
        = .ret result
      ∧ length .four .char (encode (encoding_of .four .char) [0x41, 0x20AC, 0x1F600]).length
          { data := some (encode (encoding_of .four .char) [0x41, 0x20AC, 0x1F600]),
            size := (encode (encoding_of .four .char) [0x41, 0x20AC, 0x1F600]).length }
        = .ret visited
      ∧ visited = [0x41, 0x20AC, 0x1F600].length
      ∧ (encoding_of .four .char16_t = encoding_of .four .char →
          result = encode (encoding_of .four .char) [0x41, 0x20AC, 0x1F600]) :=
  iteration_agrees_with_conversion .four .char .char16_t [0x41, 0x20AC, 0x1F600] (by decide)

end utf
